import Mathlib

/-!
# IntraConnect server: a verification development

A shallow embedding of the IntraConnect LAN-collaboration server
(`src/common/protocol.py`, `src/server/session_manager.py`,
`src/server/screen_handler.py`, `src/server/chat_handler.py`,
`src/server/video_handler.py`, `src/server/file_handler.py`), with proofs of
the testable properties stated in the specification.

Python strings are modelled as lists of Unicode scalar values (`Char`);
byte strings as lists of naturals below 256; Python `dict`s as
insertion-ordered association lists (keys are unique in every reachable
state, matching `dict` semantics). Wall-clock instants are naturals.
-/

abbrev Str := List Char

abbrev Bytes := List Nat

/-- Embed a Lean string literal as a `Str`. -/
def litS (s : String) : Str := s.toList

/-- Python truthiness of a string: nonempty. -/
def pyTruthy (s : Str) : Bool := !s.isEmpty

/-- Characters `str.strip()` removes (ASCII whitespace; the exotic Unicode
space classes never occur in the protocol and are omitted). -/
def pyIsSpace (c : Char) : Bool :=
  c = ' ' || c = '\t' || c = '\n' || c = '\r' || c = '\x0b' || c = '\x0c'

/-- Python `str.strip()`. -/
def pyStrip (s : Str) : Str :=
  ((s.dropWhile pyIsSpace).reverse.dropWhile pyIsSpace).reverse

/-- Decimal digit character. -/
def decDigit (d : Nat) : Char := Char.ofNat (48 + d)

/-- Decimal digits of `n`, most significant first, as Python `str(n)` renders a
natural; `fuel`-structural so it computes by `rfl` (`fuel = n + 1` always
suffices: the number of digits of `n` is at most `n + 1`). -/
def natDecChars : Nat → Nat → List Char
  | 0, _ => []
  | f + 1, n => if n < 10 then [decDigit n] else natDecChars f (n / 10) ++ [decDigit (n % 10)]

/-- Python `str(n)` for a natural number. -/
def pyStrNat (n : Nat) : Str := natDecChars (n + 1) n

/-- Value of a decimal digit string (inverse used for injectivity). -/
def decValue (s : List Char) : Nat :=
  s.foldl (fun a c => a * 10 + (c.toNat - 48)) 0

/-! ## Python `dict` as an ordered association list -/

def dictLookup {K V : Type} [DecidableEq K] : List (K × V) → K → Option V
  | [], _ => none
  | (k₁, v₁) :: r, k => if k₁ = k then some v₁ else dictLookup r k

def dictContains {K V : Type} [DecidableEq K] (d : List (K × V)) (k : K) : Bool :=
  (dictLookup d k).isSome

/-- Python `d[k] = v`: replace in place if the key exists, else append. -/
def dictInsert {K V : Type} [DecidableEq K] : List (K × V) → K → V → List (K × V)
  | [], k, v => [(k, v)]
  | (k₁, v₁) :: r, k, v => if k₁ = k then (k, v) :: r else (k₁, v₁) :: dictInsert r k v

/-- Python `del d[k]` (no-op when absent; call sites guard membership). -/
def dictErase {K V : Type} [DecidableEq K] : List (K × V) → K → List (K × V)
  | [], _ => []
  | (k₁, v₁) :: r, k => if k₁ = k then r else (k₁, v₁) :: dictErase r k

def dictKeys {K V : Type} (d : List (K × V)) : List K := d.map (fun p => p.1)

/-! ## `src/server/session_manager.py` — Session Registry

`SessionManager` holds `users` (username → connection state), the single
`presenter` slot, and the in-memory `files` store, all mutated under one lock;
the lock serialises the operations below, so each is modelled as an atomic
state transformer. Sockets are opaque handles (naturals); an address is an
`(ip, port)` pair.
-/

abbrev Addr := Str × Nat

structure UserInfo where
  sock : Nat
  address : Addr
  connected_at : Nat
  video_active : Bool
  audio_active : Bool
deriving Repr, DecidableEq

structure FileRec where
  filename : Str
  size : Nat
  data : Bytes
  uploader : Str
  uploaded_at : Nat
deriving Repr, DecidableEq

structure SessionState where
  users : List (Str × UserInfo)
  presenter : Option Str
  files : List (Str × FileRec)
deriving Repr, DecidableEq

def SessionState.empty : SessionState := { users := [], presenter := none, files := [] }

/-- The candidate tried after `assigned` when it collides
(`assigned = f"{base}_{suffix}"` with the incremented suffix). -/
def nextCandidate (base : Str) (suffix : Nat) : Str :=
  base ++ [Char.ofNat 95] ++ pyStrNat suffix

/-- The `while assigned in self.users` collision loop of `add_user`,
fuel-structural; `add_user` passes fuel `users.length + 1`, which theorem
`resolveName_total` shows always suffices. -/
def resolveName (fuel : Nat) (users : List (Str × UserInfo)) (base assigned : Str)
    (suffix : Nat) : Option Str :=
  match fuel with
  | 0 => none
  | f + 1 =>
    if assigned ∈ dictKeys users then
      resolveName f users base (nextCandidate base (suffix + 1)) (suffix + 1)
    else
      some assigned

/-- `base = username.strip() or "User"`. -/
def userBaseName (username : Str) : Str :=
  if pyTruthy (pyStrip username) then pyStrip username else litS "User"

/-- The username the collision loop settles on (the `none` branch is
unreachable: `resolveName_total` shows fuel `|users| + 1` always suffices). -/
def assignedName (users : List (Str × UserInfo)) (username : Str) : Str :=
  match resolveName (users.length + 1) users (userBaseName username)
      (userBaseName username) 1 with
  | some a => a
  | none => userBaseName username

/-- `SessionManager.add_user`: de-duplicate the requested name by suffixing,
insert the session, and return the assigned username. -/
def add_user (st : SessionState) (username : Str) (sock : Nat) (address : Addr)
    (now : Nat) : Str × SessionState :=
  (assignedName st.users username,
    { st with
      users := dictInsert st.users (assignedName st.users username)
        { sock := sock, address := address, connected_at := now,
          video_active := false, audio_active := false } })

/-- `SessionManager.remove_user`: drop the session if present, clearing the
presenter slot first when the leaver holds it; returns the success flag. -/
def remove_user (st : SessionState) (username : Str) : Bool × SessionState :=
  if dictContains st.users username then
    if st.presenter = some username then
      (true, { st with presenter := none, users := dictErase st.users username })
    else
      (true, { st with users := dictErase st.users username })
  else
    (false, st)

/-- `SessionManager.get_user_list`. -/
def get_user_list (st : SessionState) : List Str := dictKeys st.users

/-- `SessionManager.get_user_socket` (`users.get(username, {}).get('socket')`). -/
def get_user_socket (st : SessionState) (username : Str) : Option Nat :=
  (dictLookup st.users username).map (fun i => i.sock)

/-- `SessionManager.get_all_sockets_except`. -/
def get_all_sockets_except (st : SessionState) (except_username : Option Str) :
    List (Str × Nat) :=
  (st.users.filter (fun p =>
    match except_username with
    | none => true
    | some e => p.1 ≠ e)).map (fun p => (p.1, p.2.sock))

/-- `SessionManager.set_presenter`: only a registered username may take the
slot; returns the success flag. -/
def set_presenter (st : SessionState) (username : Str) : Bool × SessionState :=
  if dictContains st.users username then
    (true, { st with presenter := some username })
  else
    (false, st)

/-- `SessionManager.clear_presenter`. -/
def clear_presenter (st : SessionState) : SessionState := { st with presenter := none }

/-- `SessionManager.get_presenter`. -/
def get_presenter (st : SessionState) : Option Str := st.presenter

/-- `SessionManager.add_file`. -/
def add_file (st : SessionState) (file_id filename : Str) (size : Nat) (data : Bytes)
    (uploader : Str) (now : Nat) : SessionState :=
  { st with
    files := dictInsert st.files file_id
      { filename := filename, size := size, data := data, uploader := uploader,
        uploaded_at := now } }

/-- `SessionManager.get_file`. -/
def get_file (st : SessionState) (file_id : Str) : Option FileRec :=
  dictLookup st.files file_id

/-- `SessionManager.get_user_count`. -/
def get_user_count (st : SessionState) : Nat := st.users.length

/-! ### Totality of the collision loop -/

/-- The candidates the loop would try from `(assigned, suffix)` within `fuel`
steps. -/
def candidateList (fuel : Nat) (base assigned : Str) (suffix : Nat) : List Str :=
  match fuel with
  | 0 => []
  | f + 1 => assigned :: candidateList f base (nextCandidate base (suffix + 1)) (suffix + 1)

/-! ## `src/server/screen_handler.py` — Screen-Share Arbiter

`start_sharing` / `stop_sharing` run under the handler's lock; each returns
its Python result together with the new session state and the list of
`(username, socket)` pairs notified by `broadcast_presenter_change`.
-/

/-- `ScreenHandler.start_sharing`: refuse while someone else is presenting
(`if current_presenter and current_presenter != username`), otherwise take the
slot and notify everyone. Returns `((success, message), state, notified)`. -/
def start_sharing (st : SessionState) (username : Str) :
    (Bool × Str) × SessionState × List (Str × Nat) :=
  let proceed : SessionState → (Bool × Str) × SessionState × List (Str × Nat) :=
    fun s =>
      let s₁ := (set_presenter s username).2
      ((true, litS "Screen sharing started"), s₁, get_all_sockets_except s₁ none)
  match get_presenter st with
  | some v =>
    if pyTruthy v ∧ v ≠ username then
      ((false, v ++ litS " is already presenting"), st, [])
    else proceed st
  | none => proceed st

/-- `ScreenHandler.stop_sharing`: only the current presenter may clear the
slot. Returns `(success, state, notified)`. -/
def stop_sharing (st : SessionState) (username : Str) :
    Bool × SessionState × List (Str × Nat) :=
  if get_presenter st = some username then
    let s₁ := clear_presenter st
    (true, s₁, get_all_sockets_except s₁ none)
  else
    (false, st, [])

/-- A screen-share request from some client. -/
inductive ScreenReq where
  | start (u : Str)
  | stop (u : Str)
deriving Repr, DecidableEq

def applyScreenReq (st : SessionState) : ScreenReq → SessionState
  | .start u => (start_sharing st u).2.1
  | .stop u => (stop_sharing st u).2.1

/-- Any serialisation of START/STOP requests (the handler lock serialises every
interleaving into such a sequence). -/
def runScreenReqs (st : SessionState) (reqs : List ScreenReq) : SessionState :=
  reqs.foldl applyScreenReq st

/-- The set of currently active presenters (the single slot, as a list). -/
def activePresenters (st : SessionState) : List Str :=
  match st.presenter with
  | none => []
  | some v => [v]

/-! ### Generic registry operations (for the registry invariants) -/

inductive SMOp where
  | addUser (username : Str) (sock : Nat) (address : Addr) (now : Nat)
  | removeUser (username : Str)
  | setPresenter (username : Str)
  | clearPresenter
  | addFile (file_id filename : Str) (size : Nat) (data : Bytes) (uploader : Str) (now : Nat)
deriving Repr, DecidableEq

def applySMOp (st : SessionState) : SMOp → SessionState
  | .addUser u s a t => (add_user st u s a t).2
  | .removeUser u => (remove_user st u).2
  | .setPresenter u => (set_presenter st u).2
  | .clearPresenter => clear_presenter st
  | .addFile fid fn sz d up t => add_file st fid fn sz d up t

def runSMOps (st : SessionState) (ops : List SMOp) : SessionState :=
  ops.foldl applySMOp st

/-- The presenter-slot invariant: the slot is `None` or a registered name. -/
def presenterInv (st : SessionState) : Prop :=
  ∀ p, st.presenter = some p → p ∈ dictKeys st.users

/-- The registry uniqueness invariant: no two sessions share a username. -/
def uniqueNames (st : SessionState) : Prop := (dictKeys st.users).Nodup

/-- Demo state for the C1 witness: Alice is registered and presenting. -/
def c1DemoState : SessionState :=
  { users := [(litS "Alice",
      { sock := 1, address := (litS "10.0.0.1", 5000), connected_at := 0,
        video_active := false, audio_active := false })],
    presenter := some (litS "Alice"), files := [] }

/-! ## `src/server/chat_handler.py` — Chat Relay

`handle_chat_message` stamps the message with the server clock, appends it to
the in-memory history, and broadcasts it. `broadcast_message` iterates
`get_all_sockets_except()` — called with **no** exclusion — attempting one
`send_message` per recipient inside its own try/except, so one failed delivery
cannot stop the rest (`sendOk` models each recipient's send outcome).
-/

structure ChatMsg where
  username : Str
  message : Str
  timestamp : Str
deriving Repr, DecidableEq

/-- `ChatHandler.broadcast_message`: returns `(attempted, delivered)` recipient
usernames. -/
def broadcast_message (sm : SessionState) (sendOk : Str → Bool) :
    List Str × List Str :=
  let sockets := get_all_sockets_except sm none
  (sockets.map (fun p => p.1), (sockets.filter (fun p => sendOk p.1)).map (fun p => p.1))

/-- `ChatHandler.handle_chat_message`: returns the new history and the
`(attempted, delivered)` recipients of the broadcast. -/
def handle_chat_message (sm : SessionState) (history : List ChatMsg)
    (username message clock : Str) (sendOk : Str → Bool) :
    List ChatMsg × List Str × List Str :=
  (history ++ [{ username := username, message := message, timestamp := clock }],
   broadcast_message sm sendOk)

/-! ## `src/server/video_handler.py` — Datagram Media Relay (video)

Fragments and reassembly. `frames_in_progress[username][frame_id]` tracks an
in-flight frame; a fragment with a fresh `pkt_idx` is recorded and counted,
a duplicate index is ignored; when `received == total` the fragments are
concatenated in index order (`parts.get(i, b'')`), decoded (`cv2.imdecode`,
modelled by the `imdecode` parameter), stored as the sender's latest complete
frame only on successful decode, and the assembly buffer is discarded either
way. On each socket timeout, buffers idle longer than `FRAME_TIMEOUT` are
swept away. The broadcast loop re-encodes every sender's latest frame
(`cv2.imencode`, modelled by `imencode`) and sends it to every connected
user's address — including the sender's own.
-/

def CHUNK_SIZE : Nat := 60000

def FRAME_TIMEOUT : Nat := 2

structure FrameBuf where
  total : Nat
  parts : List (Nat × Bytes)
  received : Nat
  last_time : Nat
deriving Repr, DecidableEq

structure VideoState where
  video_streams : List (Str × Bytes)
  frames_in_progress : List (Str × List (Nat × FrameBuf))
  frame_count : List (Str × Nat)
deriving Repr, DecidableEq

def VideoState.empty : VideoState :=
  { video_streams := [], frames_in_progress := [], frame_count := [] }

/-- `[info['parts'].get(i, b'') for i in range(info['total'])]`, joined. -/
def assembleParts (info : FrameBuf) : Bytes :=
  ((List.range info.total).map (fun i => (dictLookup info.parts i).getD [])).flatten

/-- One parsed datagram through `receive_video`'s ingest body: record the
fragment, and on completion reassemble, decode, store and drop the buffer.
Returns the new state and the reassembled payload when the frame completed on
this packet (the local `payload` variable). -/
def receive_video_step (imdecode : Bytes → Option Bytes) (st : VideoState) (now : Nat)
    (username : Str) (frame_id total_pkts pkt_idx : Nat) (chunk : Bytes) :
    VideoState × Option Bytes :=
  let fc₀ := if dictContains st.frames_in_progress username then st.frame_count
             else dictInsert st.frame_count username 0
  let frames₀ := (dictLookup st.frames_in_progress username).getD []
  let info₀ := match dictLookup frames₀ frame_id with
               | some i => i
               | none => { total := total_pkts, parts := [], received := 0, last_time := now }
  let info₁ :=
    if dictContains info₀.parts pkt_idx then info₀
    else
      { info₀ with
        parts := dictInsert info₀.parts pkt_idx chunk,
        received := info₀.received + 1,
        last_time := now }
  if info₁.received = info₁.total then
    let payload := assembleParts info₁
    let frames₂ := dictErase (dictInsert frames₀ frame_id info₁) frame_id
    match imdecode payload with
    | some frame =>
      let st₂ : VideoState :=
        { video_streams := dictInsert st.video_streams username frame,
          frames_in_progress := dictInsert st.frames_in_progress username frames₂,
          frame_count := dictInsert fc₀ username ((dictLookup fc₀ username).getD 0 + 1) }
      (st₂, some payload)
    | none =>
      let st₂ : VideoState :=
        { st with
          frames_in_progress := dictInsert st.frames_in_progress username frames₂,
          frame_count := fc₀ }
      (st₂, some payload)
  else
    let st₂ : VideoState :=
      { st with
        frames_in_progress :=
          dictInsert st.frames_in_progress username (dictInsert frames₀ frame_id info₁),
        frame_count := fc₀ }
    (st₂,
     none)

/-- The staleness sweep run on each socket-read timeout: drop every in-flight
buffer older than `FRAME_TIMEOUT`. -/
def receive_video_sweep (st : VideoState) (now : Nat) : VideoState :=
  { st with frames_in_progress :=
      st.frames_in_progress.map (fun p =>
        (p.1, p.2.filter (fun q => !(decide (FRAME_TIMEOUT < now - q.2.last_time))))) }

/-- Fold a fragment sequence through the ingest, threading the state and
collecting every payload the relay completed. -/
def ingestFold (imdecode : Bytes → Option Bytes) (now : Nat) (username : Str)
    (frame_id total_pkts : Nat) :
    VideoState × List Bytes → List (Nat × Bytes) → VideoState × List Bytes
  | acc, [] => acc
  | acc, (idx, chunk) :: rest =>
    ingestFold imdecode now username frame_id total_pkts
      (match receive_video_step imdecode acc.1 now username frame_id total_pkts idx chunk with
       | (st₂, some payload) => (st₂, acc.2 ++ [payload])
       | (st₂, none) => (st₂, acc.2))
      rest

/-- Ingest a sequence of fragments of one frame (same sender, frame id and
announced total), collecting every payload the relay completed. -/
def runIngest (imdecode : Bytes → Option Bytes) (st : VideoState) (now : Nat)
    (username : Str) (frame_id total_pkts : Nat) (frags : List (Nat × Bytes)) :
    VideoState × List Bytes :=
  ingestFold imdecode now username frame_id total_pkts (st, []) frags

/-- One pass of the `broadcast_video` loop body over a state snapshot: every
latest complete frame of every sender is re-encoded and sent to every
connected user's address (the sender's own included). Returns the
`(sender, receiver, address)` triples sent to. -/
def broadcast_video_cycle (sm : SessionState) (vs : VideoState)
    (imencode : Bytes → Option Bytes) : List (Str × Str × Addr) :=
  if vs.video_streams.isEmpty then []
  else if (get_user_list sm).isEmpty then []
  else
    ((get_user_list sm).map (fun receiver =>
      match dictLookup sm.users receiver with
      | none => []
      | some ud =>
        vs.video_streams.filterMap (fun p =>
          match imencode p.2 with
          | none => none
          | some _ => some (p.1, receiver, ud.address)))).flatten

/-- The per-user in-flight frame dictionary (`frames_in_progress[username]`,
empty when the user has no entry). -/
def userFrames (st : VideoState) (username : Str) : List (Nat × FrameBuf) :=
  (dictLookup st.frames_in_progress username).getD []

/-- The frame counter table after the user-initialisation line of the ingest. -/
def initFC (st : VideoState) (username : Str) : List (Str × Nat) :=
  if dictContains st.frames_in_progress username then st.frame_count
  else dictInsert st.frame_count username 0

/-- The assembly buffer after recording the fragments `p` (in arrival order)
of a frame announced with `N` fragments. -/
def midBuf (N now : Nat) (p : List (Nat × Bytes)) : FrameBuf :=
  { total := N, parts := p, received := p.length, last_time := now }

/-- The relay state in the middle of assembling one frame: the buffer for
`(username, frame_id)` holds exactly the fragments `p`; everything else is as
in `st` (modulo the user-entry initialisation). -/
def midState (st : VideoState) (username : Str) (frame_id N now : Nat)
    (p : List (Nat × Bytes)) : VideoState :=
  { video_streams := st.video_streams,
    frames_in_progress := dictInsert st.frames_in_progress username
      (dictInsert (userFrames st username) frame_id (midBuf N now p)),
    frame_count := initFC st username }

/-- `total_pkts = (total_len + CHUNK_SIZE - 1) // CHUNK_SIZE`. -/
def total_pkts_of (total_len : Nat) : Nat := (total_len + CHUNK_SIZE - 1) / CHUNK_SIZE

/-- The sender-side fragmentation: `payload[offset:offset+CHUNK_SIZE]` for each
packet index. -/
def splitChunks (payload : Bytes) (n : Nat) : List Bytes :=
  (List.range n).map (fun i => (payload.drop (i * CHUNK_SIZE)).take CHUNK_SIZE)

/-! ## `src/server/file_handler.py` — File Transfer Coordinator

Upload: the server opens an ephemeral listener, tells the client where to
connect (`READY_UPLOAD`), accepts one connection, reads exactly `size` bytes
looping on partial reads, and only on an exact-size read stores the file and
broadcasts `AVAILABLE`. Download: the server connects out to the client's
listener and streams the stored bytes in bounded chunks.

The transfer socket is modelled by the byte stream the peer sends plus a
schedule of how many bytes each `recv` call yields (every positive schedule is
a legal TCP behaviour; exhausting the stream models the peer closing).
`sendOk` / `acceptOk` / `connectOk` model the outcome of the rendezvous steps,
and `sendSched` the outcome of each `sendall`.

`FILE_CHUNK_SIZE` is imported from `common/config.py`, which is not in the
source tree; the spec fixes no value (transfers are "chunked at a bounded
buffer size"), and no claim depends on it beyond positivity.
-/

def FILE_CHUNK_SIZE : Nat := 4096

structure FileAvailableMsg where
  file_id : Str
  filename : Str
  size : Nat
  uploader : Str
  status : Str
deriving Repr, DecidableEq

/-- The `while received < filesize` receive loop of `handle_file_upload`:
`chunk = conn.recv(min(FILE_CHUNK_SIZE, remaining))`, breaking on an empty
read. Fuel-structural; `stream.length + 1` fuel always suffices. Returns the
accumulated bytes and the received count. -/
def uploadRecvLoop : Nat → Nat → Nat → Bytes → Bytes → List Nat → Bytes × Nat
  | 0, _, received, dat, _, _ => (dat, received)
  | fuel + 1, filesize, received, dat, stream, sched =>
    if received < filesize then
      let n := min FILE_CHUNK_SIZE (filesize - received)
      let k := sched.headD n
      let chunk := stream.take (min n k)
      if chunk.isEmpty then (dat, received)
      else
        uploadRecvLoop fuel filesize (received + chunk.length) (dat ++ chunk)
          (stream.drop (min n k)) sched.tail
    else (dat, received)

/-- `FileHandler.handle_file_upload`. Returns the Python result pair, the new
session state, and the per-recipient `AVAILABLE` broadcast (empty on any
failure). Exceptional paths (`except`) surface as failure results. -/
def handle_file_upload (st : SessionState) (username : Str)
    (mfilename : Option Str) (msize : Option Nat) (sendOk acceptOk : Bool)
    (stream : Bytes) (sched : List Nat) (file_id : Str) (now : Nat) :
    (Bool × Str) × SessionState × List (Str × FileAvailableMsg) :=
  let fname_falsy := match mfilename with | none => true | some f => f.isEmpty
  let size_falsy := match msize with | none => true | some s => decide (s = 0)
  if fname_falsy || size_falsy then
    ((false, litS "Invalid file metadata"), st, [])
  else
    let filename := match mfilename with | some f => f | none => []
    let filesize := match msize with | some s => s | none => 0
    match dictLookup st.users username with
    | none => ((false, litS "upload error"), st, [])
    | some _ =>
      if !sendOk then ((false, litS "Failed to signal upload readiness"), st, [])
      else if !acceptOk then ((false, litS "Upload timed out"), st, [])
      else
        let recvd := uploadRecvLoop (stream.length + 1) filesize 0 [] stream sched
        if recvd.2 = filesize then
          let st₂ := add_file st file_id filename filesize recvd.1 username now
          ((true, litS "File uploaded successfully"), st₂,
            (get_all_sockets_except st₂ none).map (fun p =>
              (p.1,
               { file_id := file_id, filename := filename, size := filesize,
                 uploader := username, status := litS "AVAILABLE" })))
        else
          ((false,
            litS "Incomplete upload: " ++ pyStrNat recvd.2 ++ [Char.ofNat 47]
              ++ pyStrNat filesize ++ litS " bytes"), st, [])

/-- The `while bytes_sent < total_size` send loop of `handle_file_download`:
`chunk = file_data[bytes_sent:bytes_sent+FILE_CHUNK_SIZE]`, each `sendall`
either succeeding (`sendSched`) or raising (aborting the transfer). Returns
the chunks actually written, the final `bytes_sent`, and the success flag. -/
def downloadSendLoop : Nat → Bytes → Nat → Nat → (Nat → Bool) →
    List Bytes × Nat × Bool
  | 0, _, sent, _, _ => ([], sent, false)
  | fuel + 1, data, sent, ci, sendSched =>
    if sent < data.length then
      let chunk := (data.drop sent).take FILE_CHUNK_SIZE
      if sendSched ci then
        let rest := downloadSendLoop fuel data (sent + chunk.length) (ci + 1) sendSched
        (chunk :: rest.1, rest.2)
      else ([], sent, false)
    else ([], sent, true)

/-- `FileHandler.handle_file_download`. Returns the success flag and the
chunks written to the transfer connection. -/
def handle_file_download (st : SessionState) (username file_id : Str)
    (sendOk connectOk : Bool) (sendSched : Nat → Bool) : Bool × List Bytes :=
  match dictLookup st.users username with
  | none => (false, [])
  | some _ =>
    match get_file st file_id with
    | none => (false, [])
    | some info =>
      if !sendOk then (false, [])
      else if !connectOk then (false, [])
      else
        let run := downloadSendLoop (info.data.length + 1) info.data 0 0 sendSched
        (run.2.2, run.1)

/-- A small session for exercising the upload path: one registered user. -/
def c4DemoState : SessionState :=
  { users := [(litS "u",
      { sock := 5, address := (litS "10.0.0.2", 40000), connected_at := 0,
        video_active := false, audio_active := false })],
    presenter := none, files := [] }

/-- A successful three-byte upload against `c4DemoState`. -/
def c4UploadResult :
    (Bool × Str) × SessionState × List (Str × FileAvailableMsg) :=
  handle_file_upload c4DemoState (litS "u") (some (litS "f")) (some 3) true true
    [1, 2, 3] [2, 2, 2, 2] (litS "fid") 7

/-!
## The wire protocol (`common/protocol.py`)

`encode_message` / `decode_message` / `receive_message` frame JSON messages
with a 4-byte big-endian length. The JSON layer is Python's `json` module with
default options (`ensure_ascii=True`, separators `", "` / `": "`, insertion
order preserved). The embedding models the JSON value universe the server
exchanges: `None`, `bool`, `int`, `str`, `list`, `dict` — Python floats (and
the decoder's `NaN`/`Infinity` extensions) never occur in this program's
messages and are outside the modelled fragment (the modelled decoder answers
`none` on them, and no theorem touches such inputs). Python strings are
sequences of Unicode scalar values here (`Str`), so the decoder's
lone-surrogate corner (unrepresentable in `Str`) is likewise mapped to `none`.
Arrays and objects carry their own list types so that all recursion is
mutual-structural.
-/

mutual
inductive PyJson where
  | null : PyJson
  | bool (b : Bool) : PyJson
  | int (n : Int) : PyJson
  | str (s : Str) : PyJson
  | arr (xs : PJItems) : PyJson
  | obj (kvs : PJEntries) : PyJson
deriving DecidableEq
inductive PJItems where
  | nil : PJItems
  | cons (x : PyJson) (rest : PJItems) : PJItems
deriving DecidableEq
inductive PJEntries where
  | nil : PJEntries
  | cons (k : Str) (v : PyJson) (rest : PJEntries) : PJEntries
deriving DecidableEq
end

/-- The keys of an object, in order. -/
def entKeys : PJEntries → List Str
  | .nil => []
  | .cons k _ rest => k :: entKeys rest

/-- `dict(pairs)[key]` for the pair list a decoded JSON object denotes:
on duplicate keys the last value wins. -/
def entLookupLast : PJEntries → Str → Option PyJson
  | .nil, _ => none
  | .cons k v rest, key =>
    match entLookupLast rest key with
    | some r => some r
    | none => if k = key then some v else none

mutual
/-- Structure sizes (used only as induction measures in proofs). -/
def sizeV : PyJson → Nat
  | .null => 1
  | .bool _ => 1
  | .int _ => 1
  | .str _ => 1
  | .arr xs => 1 + sizeA xs
  | .obj kvs => 1 + sizeO kvs
def sizeA : PJItems → Nat
  | .nil => 1
  | .cons x rest => 1 + sizeV x + sizeA rest
def sizeO : PJEntries → Nat
  | .nil => 1
  | .cons _ v rest => 1 + sizeV v + sizeO rest
end

mutual
/-- A `PyJson` value a Python value can actually denote: every object's keys
are distinct at every level (Python dicts cannot hold duplicate keys). -/
def pyWf : PyJson → Bool
  | .null => true
  | .bool _ => true
  | .int _ => true
  | .str _ => true
  | .arr xs => pyWfA xs
  | .obj kvs => decide (entKeys kvs).Nodup && pyWfO kvs
def pyWfA : PJItems → Bool
  | .nil => true
  | .cons x rest => pyWf x && pyWfA rest
def pyWfO : PJEntries → Bool
  | .nil => true
  | .cons _ v rest => pyWf v && pyWfO rest
end

/-- Lowercase hexadecimal digit, as `'\u%04x' % n` renders one. -/
def hexDigit (d : Nat) : Char :=
  if d < 10 then Char.ofNat (48 + d) else Char.ofNat (87 + d)

/-- The four hex digits of `'\u%04x'`. -/
def hex4 (n : Nat) : Str :=
  [hexDigit (n / 4096 % 16), hexDigit (n / 256 % 16),
   hexDigit (n / 16 % 16), hexDigit (n % 16)]

/-- `json.encoder.py_encode_basestring_ascii`'s per-character replacement:
the short escapes of `ESCAPE_DCT`, a literal for printable ASCII, `\uXXXX`
for everything else (a surrogate pair for code points above `0xFFFF`). -/
def esc (c : Char) : Str :=
  let n := c.toNat
  if c = '"' then ['\\', '"']
  else if c = '\\' then ['\\', '\\']
  else if n = 8 then ['\\', 'b']
  else if n = 9 then ['\\', 't']
  else if n = 10 then ['\\', 'n']
  else if n = 12 then ['\\', 'f']
  else if n = 13 then ['\\', 'r']
  else if 0x20 ≤ n && n ≤ 0x7E then [c]
  else if n < 0x10000 then '\\' :: 'u' :: hex4 n
  else
    ('\\' :: 'u' :: hex4 (0xD800 + (n - 0x10000) / 0x400))
      ++ ('\\' :: 'u' :: hex4 (0xDC00 + (n - 0x10000) % 0x400))

/-- A JSON string literal as `json.dumps` renders one. -/
def dumpsStr (s : Str) : Str := '"' :: (s.map esc).flatten ++ ['"']

/-- `str(n)` for a Python int. -/
def pyIntStr (n : Int) : Str :=
  if n < 0 then '-' :: pyStrNat n.natAbs else pyStrNat n.natAbs

mutual
/-- `json.dumps` with default options (`ensure_ascii=True`, separators
`", "` and `": "`, insertion order). -/
def dumps : PyJson → Str
  | .null => litS "null"
  | .bool true => litS "true"
  | .bool false => litS "false"
  | .int n => pyIntStr n
  | .str s => dumpsStr s
  | .arr xs => '[' :: dumpsItems xs ++ [']']
  | .obj kvs => '{' :: dumpsEntries kvs ++ ['}']
/-- The `', '.join`ed renderings of array items. -/
def dumpsItems : PJItems → Str
  | .nil => []
  | .cons x .nil => dumps x
  | .cons x (.cons y rest) =>
    dumps x ++ litS ", " ++ dumpsItems (.cons y rest)
/-- The `', '.join`ed `"key": value` renderings of object entries. -/
def dumpsEntries : PJEntries → Str
  | .nil => []
  | .cons k v .nil => dumpsStr k ++ ':' :: ' ' :: dumps v
  | .cons k v (.cons k₂ v₂ rest) =>
    (dumpsStr k ++ ':' :: ' ' :: dumps v) ++ litS ", "
      ++ dumpsEntries (.cons k₂ v₂ rest)
end

/-- The decoder's whitespace class (`json.decoder.WHITESPACE_STR`). -/
def isJsonWs (c : Char) : Bool := c = ' ' || c = '\t' || c = '\n' || c = '\r'

/-- Skip leading JSON whitespace. -/
def skipWs : Str → Str
  | [] => []
  | c :: rest => if isJsonWs c then skipWs rest else c :: rest

/-- Value of one hexadecimal digit, case-insensitive as `int(_, 16)` reads
the four digits of a `\uXXXX` escape. -/
def hexVal (c : Char) : Option Nat :=
  if 48 ≤ c.toNat && c.toNat ≤ 57 then some (c.toNat - 48)
  else if 97 ≤ c.toNat && c.toNat ≤ 102 then some (c.toNat - 87)
  else if 65 ≤ c.toNat && c.toNat ≤ 70 then some (c.toNat - 55)
  else none

/-- Read the four hex digits of a `\uXXXX` escape. -/
def parseHex4 : Str → Option (Nat × Str)
  | c₀ :: c₁ :: c₂ :: c₃ :: rest =>
    match hexVal c₀, hexVal c₁, hexVal c₂, hexVal c₃ with
    | some d₀, some d₁, some d₂, some d₃ =>
      some (((d₀ * 16 + d₁) * 16 + d₂) * 16 + d₃, rest)
    | _, _, _, _ => none
  | _ => none

/-- `json.decoder.BACKSLASH`: the single-character escapes. -/
def escChar (e : Char) : Option Char :=
  if e = '"' then some '"'
  else if e = '\\' then some '\\'
  else if e = '/' then some '/'
  else if e = 'b' then some (Char.ofNat 8)
  else if e = 'f' then some (Char.ofNat 12)
  else if e = 'n' then some '\n'
  else if e = 'r' then some (Char.ofNat 13)
  else if e = 't' then some '\t'
  else none

/-- `json.decoder.py_scanstring` after the opening quote, in strict mode:
literal characters up to the closing quote (raw control characters are
rejected), `BACKSLASH` escapes, `\uXXXX` escapes with surrogate-pair
recombination. A `\uXXXX` escape that would produce a lone surrogate (a
Python string outside `Str`) is outside the modelled fragment and answers
`none`. One fuel unit per produced character; `input.length + 1` suffices. -/
def parseStringF : Nat → Str → Option (Str × Str)
  | 0, _ => none
  | _ + 1, [] => none
  | f + 1, c :: rest =>
    if c = '"' then some ([], rest)
    else if c = '\\' then
      match rest with
      | [] => none
      | e :: rest₂ =>
        if e = 'u' then
          match parseHex4 rest₂ with
          | none => none
          | some (n, rest₃) =>
            if 0xD800 ≤ n && n ≤ 0xDBFF then
              match rest₃ with
              | b :: u :: rest₄ =>
                if b = '\\' && u = 'u' then
                  match parseHex4 rest₄ with
                  | some (n₂, rest₅) =>
                    if 0xDC00 ≤ n₂ && n₂ ≤ 0xDFFF then
                      (parseStringF f rest₅).map (fun r =>
                        (Char.ofNat (0x10000 + (n - 0xD800) * 0x400 + (n₂ - 0xDC00))
                          :: r.1, r.2))
                    else none
                  | none => none
                else none
              | _ => none
            else if 0xDC00 ≤ n && n ≤ 0xDFFF then none
            else (parseStringF f rest₃).map (fun r => (Char.ofNat n :: r.1, r.2))
        else
          match escChar e with
          | some ec => (parseStringF f rest₂).map (fun r => (ec :: r.1, r.2))
          | none => none
    else if c.toNat < 0x20 then none
    else (parseStringF f rest).map (fun r => (c :: r.1, r.2))

/-- The digit run of `json.decoder.NUMBER_RE`'s integer part: a lone `0`, or
a nonzero digit followed by the maximal digit run. -/
def parseDigitsRun (c : Char) (rest : Str) : Str × Str :=
  if c = '0' then ([c], rest)
  else (c :: rest.takeWhile Char.isDigit, rest.dropWhile Char.isDigit)

/-- The integer after an optional sign: digits per `parseDigitsRun`, rejected
when a fraction or exponent follows (floats are outside the modelled
fragment and answer `none`). -/
def parseNumTail (neg : Bool) (s : Str) : Option (Int × Str) :=
  match s with
  | [] => none
  | c :: rest =>
    if !c.isDigit then none
    else
      let dr := parseDigitsRun c rest
      match dr.2 with
      | d :: _ =>
        if d = '.' || d = 'e' || d = 'E' then none
        else some (if neg then -(decValue dr.1 : Int) else (decValue dr.1 : Int), dr.2)
      | [] => some (if neg then -(decValue dr.1 : Int) else (decValue dr.1 : Int), dr.2)

/-- `json.decoder.NUMBER_RE` restricted to the integer fragment:
`-?(0|[1-9]\d*)` with no fraction or exponent. -/
def parseNumber (s : Str) : Option (Int × Str) :=
  match s with
  | [] => none
  | c :: rest => if c = '-' then parseNumTail true rest else parseNumTail false s

/-- `lst == pre ++ rest` for a literal keyword tail (`ull`, `rue`, `alse`). -/
def dropLit : Str → Str → Option Str
  | [], s => some s
  | p :: ps, c :: rest => if c = p then dropLit ps rest else none
  | _ :: _, [] => none

mutual
/-- One JSON value, modelled on `json.scanner.py_make_scanner`'s `_scan_once`
with leading whitespace skipped (the call sites of `_scan_once` all skip
whitespace first, so this accepts the same language). Fuel-structural; fuel
is consumed once per grammar step, and `2 * input.length + 2` always
suffices. -/
def parseValue : Nat → Str → Option (PyJson × Str)
  | 0, _ => none
  | f + 1, s =>
    match skipWs s with
    | [] => none
    | c :: rest =>
      if c = '"' then
        (parseStringF (rest.length + 1) rest).map (fun r => (.str r.1, r.2))
      else if c = '[' then
        match skipWs rest with
        | [] => none
        | c₂ :: r =>
          if c₂ = ']' then some (.arr .nil, r)
          else (parseArrItems f (c₂ :: r)).map (fun q => (.arr q.1, q.2))
      else if c = '{' then
        match skipWs rest with
        | [] => none
        | c₂ :: r =>
          if c₂ = '}' then some (.obj .nil, r)
          else (parseObjItems f (c₂ :: r)).map (fun q => (.obj q.1, q.2))
      else if c = 'n' then
        (dropLit (litS "ull") rest).map (fun r => (.null, r))
      else if c = 't' then
        (dropLit (litS "rue") rest).map (fun r => (.bool true, r))
      else if c = 'f' then
        (dropLit (litS "alse") rest).map (fun r => (.bool false, r))
      else if c = '-' || c.isDigit then
        (parseNumber (c :: rest)).map (fun r => (.int r.1, r.2))
      else none
/-- The element loop of `json.decoder.JSONArray`, after a leading `]` has
been ruled out. -/
def parseArrItems : Nat → Str → Option (PJItems × Str)
  | 0, _ => none
  | f + 1, s =>
    match parseValue f s with
    | none => none
    | some (v, rem) =>
      match skipWs rem with
      | [] => none
      | c :: r =>
        if c = ',' then (parseArrItems f r).map (fun q => (.cons v q.1, q.2))
        else if c = ']' then some (.cons v .nil, r)
        else none
/-- The entry loop of `json.decoder.JSONObject`, after a leading `}` has been
ruled out: quoted key, `:`, value, then `,` or `}`. -/
def parseObjItems : Nat → Str → Option (PJEntries × Str)
  | 0, _ => none
  | f + 1, s =>
    match skipWs s with
    | [] => none
    | c :: rest =>
      if c = '"' then
        match parseStringF (rest.length + 1) rest with
        | none => none
        | some (key, rem) =>
          match skipWs rem with
          | [] => none
          | c₂ :: r =>
            if c₂ = ':' then
              match parseValue f r with
              | none => none
              | some (v, rem₂) =>
                match skipWs rem₂ with
                | [] => none
                | c₃ :: r₂ =>
                  if c₃ = ',' then
                    (parseObjItems f r₂).map (fun q => (.cons key v q.1, q.2))
                  else if c₃ = '}' then some (.cons key v .nil, r₂)
                  else none
            else none
      else none
end

/-- `json.loads`: parse one value, allow surrounding whitespace, require the
input to be exhausted. -/
def loads (s : Str) : Option PyJson :=
  match parseValue (2 * s.length + 2) s with
  | none => none
  | some (v, rem) => if (skipWs rem).isEmpty then some v else none

/-- UTF-8 encoding of one scalar value (`str.encode('utf-8')`). -/
def utf8EncodeChar (c : Char) : Bytes :=
  let n := c.toNat
  if n < 0x80 then [n]
  else if n < 0x800 then [0xC0 + n / 0x40, 0x80 + n % 0x40]
  else if n < 0x10000 then
    [0xE0 + n / 0x1000, 0x80 + n / 0x40 % 0x40, 0x80 + n % 0x40]
  else
    [0xF0 + n / 0x40000, 0x80 + n / 0x1000 % 0x40,
     0x80 + n / 0x40 % 0x40, 0x80 + n % 0x40]

/-- `str.encode('utf-8')`. -/
def utf8Encode (s : Str) : Bytes := (s.map utf8EncodeChar).flatten

/-- Strict UTF-8 decoding (`bytes.decode('utf-8')`): continuation bytes in
`0x80..0xBF`, overlong encodings, surrogates and values above `0x10FFFF`
rejected. Fuel-structural; one unit per decoded character, `length + 1`
suffices. -/
def utf8DecodeF : Nat → Bytes → Option Str
  | 0, _ => none
  | _ + 1, [] => some []
  | f + 1, b :: rest =>
    if b < 0x80 then
      (utf8DecodeF f rest).map (fun r => Char.ofNat b :: r)
    else if b < 0xC2 then none
    else if b < 0xE0 then
      match rest with
      | b₁ :: rest₁ =>
        if 0x80 ≤ b₁ && b₁ < 0xC0 then
          (utf8DecodeF f rest₁).map (fun r =>
            Char.ofNat ((b - 0xC0) * 0x40 + (b₁ - 0x80)) :: r)
        else none
      | _ => none
    else if b < 0xF0 then
      match rest with
      | b₁ :: b₂ :: rest₂ =>
        if (0x80 ≤ b₁ && b₁ < 0xC0) && (0x80 ≤ b₂ && b₂ < 0xC0)
            && !(b = 0xE0 && b₁ < 0xA0) && !(b = 0xED && 0xA0 ≤ b₁) then
          (utf8DecodeF f rest₂).map (fun r =>
            Char.ofNat (((b - 0xE0) * 0x40 + (b₁ - 0x80)) * 0x40 + (b₂ - 0x80)) :: r)
        else none
      | _ => none
    else if b < 0xF5 then
      match rest with
      | b₁ :: b₂ :: b₃ :: rest₃ =>
        if (0x80 ≤ b₁ && b₁ < 0xC0) && (0x80 ≤ b₂ && b₂ < 0xC0)
            && (0x80 ≤ b₃ && b₃ < 0xC0)
            && !(b = 0xF0 && b₁ < 0x90) && !(b = 0xF4 && 0x90 ≤ b₁) then
          (utf8DecodeF f rest₃).map (fun r =>
            Char.ofNat ((((b - 0xF0) * 0x40 + (b₁ - 0x80)) * 0x40 + (b₂ - 0x80))
              * 0x40 + (b₃ - 0x80)) :: r)
        else none
      | _ => none
    else none

/-- `bytes.decode('utf-8')`. -/
def utf8Decode (bs : Bytes) : Option Str := utf8DecodeF (bs.length + 1) bs

/-- `struct.pack('!I', n)`: four big-endian bytes, `struct.error` (modelled
as `none`) when the value does not fit an unsigned 32-bit integer. -/
def pack_u32 (n : Nat) : Option Bytes :=
  if n < 4294967296 then
    some [n / 16777216 % 256, n / 65536 % 256, n / 256 % 256, n % 256]
  else none

/-- `struct.unpack('!I', bs)[0]`: `struct.error` (modelled as `none`) unless
given exactly four bytes. -/
def unpack_u32 (bs : Bytes) : Option Nat :=
  match bs with
  | [b₀, b₁, b₂, b₃] => some (((b₀ * 256 + b₁) * 256 + b₂) * 256 + b₃)
  | _ => none

/-- `protocol.encode_message`: frame `{'type': msg_type, 'data': data}` as a
4-byte big-endian length followed by the UTF-8 JSON bytes. An oversized
payload raises `struct.error` out of `encode_message` (there is no handler),
modelled as `none`. -/
def encode_message (msg_type data : PyJson) : Option Bytes :=
  let json_data := utf8Encode (dumps (.obj
    (.cons (litS "type") msg_type (.cons (litS "data") data .nil))))
  match pack_u32 json_data.length with
  | some length => some (length ++ json_data)
  | none => none

/-- `protocol.decode_message`: UTF-8 decode, `json.loads`, then
`message['type'], message['data']`; any failure (bad UTF-8, bad JSON, a
non-object, a missing key) is caught and yields `(None, None)` (`none`). -/
def decode_message (data : Bytes) : Option (PyJson × PyJson) :=
  match utf8Decode data with
  | none => none
  | some s =>
    match loads s with
    | some (.obj kvs) =>
      match entLookupLast kvs (litS "type"), entLookupLast kvs (litS "data") with
      | some t, some d => some (t, d)
      | _, _ => none
    | _ => none

/-- The `while len(data) < msg_length` loop of `protocol.receive_message`:
`packet = sock.recv(min(msg_length - len(data), 4096))`, returning early on
an empty read. Identical in shape to `uploadRecvLoop` with the literal 4096
chunk bound. -/
def protoRecvLoop : Nat → Nat → Nat → Bytes → Bytes → List Nat → Bytes × Nat
  | 0, _, received, dat, _, _ => (dat, received)
  | fuel + 1, msg_length, received, dat, stream, sched =>
    if received < msg_length then
      let n := min 4096 (msg_length - received)
      let k := sched.headD n
      let chunk := stream.take (min n k)
      if chunk.isEmpty then (dat, received)
      else
        protoRecvLoop fuel msg_length (received + chunk.length) (dat ++ chunk)
          (stream.drop (min n k)) sched.tail
    else (dat, received)

/-- `protocol.receive_message` against a byte stream and a positive schedule
of per-`recv` byte counts (an exhausted stream models the peer closing, and
a short header read leaves `struct.unpack` to raise, caught as
`(None, None)`). The loop's early return on an empty read is recognised by
its under-count, exactly as the Python code falls out of the loop only when
`len(data) == msg_length`. -/
def receive_message (stream : Bytes) (sched : List Nat) :
    Option (PyJson × PyJson) :=
  let k₁ := sched.headD 4
  let raw_length := stream.take (min 4 k₁)
  if raw_length.isEmpty then none
  else
    match unpack_u32 raw_length with
    | none => none
    | some msg_length =>
      let rest := stream.drop (min 4 k₁)
      let run := protoRecvLoop (rest.length + 1) msg_length 0 [] rest sched.tail
      if run.2 = msg_length then decode_message run.1 else none

/-! ## Theorems -/

theorem decValue_append (s : List Char) (c : Char) :
    decValue (s ++ [c]) = decValue s * 10 + (c.toNat - 48) := by
  simp [decValue]

theorem decDigit_toNat (d : Nat) (h : d < 10) : (decDigit d).toNat = 48 + d := by
  interval_cases d <;> decide

theorem decValue_natDecChars (fuel n : Nat) (h : n < fuel) :
    decValue (natDecChars fuel n) = n := by
  induction fuel generalizing n with
  | zero => omega
  | succ f ih =>
    rw [natDecChars]
    by_cases h10 : n < 10
    · simp [decValue, if_pos h10, decDigit_toNat n h10]
    · have hrec : n / 10 < f := by omega
      rw [if_neg h10, decValue_append, ih _ hrec, decDigit_toNat _ (Nat.mod_lt _ (by omega))]
      omega

theorem pyStrNat_injective : Function.Injective pyStrNat := by
  intro m n h
  have hm := decValue_natDecChars (m + 1) m (by omega)
  have hn := decValue_natDecChars (n + 1) n (by omega)
  rw [pyStrNat] at h
  rw [pyStrNat] at h
  rw [h] at hm
  omega

theorem natDecChars_ne_nil (fuel n : Nat) (h : 0 < fuel) : natDecChars fuel n ≠ [] := by
  match fuel, h with
  | f + 1, _ =>
    rw [natDecChars]
    by_cases h10 : n < 10 <;> simp [h10]

theorem pyStrNat_ne_nil (n : Nat) : pyStrNat n ≠ [] :=
  natDecChars_ne_nil (n + 1) n (by omega)

theorem dictLookup_eq_none_of_not_mem {K V : Type} [DecidableEq K] (d : List (K × V)) (k : K)
    (h : k ∉ dictKeys d) : dictLookup d k = none := by
  induction d with
  | nil => rfl
  | cons p r ih =>
    obtain ⟨k₁, v₁⟩ := p
    have hmem : k ∉ dictKeys r := fun hm => h (List.mem_cons_of_mem _ hm)
    have hne : ¬(k₁ = k) := fun he => h (he ▸ List.mem_cons_self _ _)
    show (if k₁ = k then some v₁ else dictLookup r k) = none
    rw [if_neg hne]
    exact ih hmem

theorem mem_dictKeys_of_lookup_isSome {K V : Type} [DecidableEq K] (d : List (K × V)) (k : K)
    (h : (dictLookup d k).isSome) : k ∈ dictKeys d := by
  induction d with
  | nil => exact absurd h (by rw [dictLookup]; exact Bool.false_ne_true)
  | cons p r ih =>
    obtain ⟨k₁, v₁⟩ := p
    by_cases hk : k₁ = k
    · exact hk ▸ List.mem_cons_self _ _
    · have h₂ : (dictLookup r k).isSome := by
        have hstep : dictLookup ((k₁, v₁) :: r) k = dictLookup r k := by
          rw [dictLookup, if_neg hk]
        rw [hstep] at h
        exact h
      exact List.mem_cons_of_mem _ (ih h₂)

theorem dictKeys_dictInsert_of_not_mem {K V : Type} [DecidableEq K] (d : List (K × V)) (k : K) (v : V)
    (h : k ∉ dictKeys d) : dictKeys (dictInsert d k v) = dictKeys d ++ [k] := by
  induction d with
  | nil => rfl
  | cons p r ih =>
    obtain ⟨k₁, v₁⟩ := p
    have hmem : k ∉ dictKeys r := fun hm => h (List.mem_cons_of_mem _ hm)
    have hne : ¬(k₁ = k) := fun he => h (he ▸ List.mem_cons_self _ _)
    have hstep : dictInsert ((k₁, v₁) :: r) k v = (k₁, v₁) :: dictInsert r k v := by
      rw [dictInsert, if_neg hne]
    rw [hstep]
    show k₁ :: dictKeys (dictInsert r k v) = (k₁ :: dictKeys r) ++ [k]
    rw [ih hmem]
    rfl

theorem dictKeys_dictErase_sublist {K V : Type} [DecidableEq K] (d : List (K × V)) (k : K) :
    (dictKeys (dictErase d k)).Sublist (dictKeys d) := by
  induction d with
  | nil => simp [dictErase]
  | cons p r ih =>
    by_cases hk : p.1 = k
    · simp only [dictErase, if_pos hk, dictKeys]
      exact (List.sublist_cons_self _ _)
    · simp only [dictErase, if_neg hk, dictKeys, List.map_cons]
      exact List.Sublist.cons₂ _ ih

theorem not_mem_dictKeys_dictErase {K V : Type} [DecidableEq K] (d : List (K × V)) (k : K)
    (hnd : (dictKeys d).Nodup) : k ∉ dictKeys (dictErase d k) := by
  induction d with
  | nil => simp [dictErase, dictKeys]
  | cons p r ih =>
    simp only [dictKeys, List.map_cons, List.nodup_cons] at hnd
    by_cases hk : p.1 = k
    · simp only [dictErase, if_pos hk]
      rw [← hk]
      exact hnd.1
    · simp only [dictErase, if_neg hk, dictKeys, List.map_cons, List.mem_cons]
      intro hmem
      rcases hmem with h | h
      · exact hk h.symm
      · exact ih hnd.2 h

theorem dictLookup_dictInsert_self {K V : Type} [DecidableEq K] (d : List (K × V)) (k : K) (v : V) :
    dictLookup (dictInsert d k v) k = some v := by
  induction d with
  | nil => simp [dictInsert, dictLookup]
  | cons p r ih =>
    by_cases hk : p.1 = k
    · simp [dictInsert, hk, dictLookup]
    · simp [dictInsert, hk, dictLookup, ih]

theorem dictLookup_dictInsert_other {K V : Type} [DecidableEq K] (d : List (K × V)) (k k₂ : K) (v : V)
    (h : k₂ ≠ k) : dictLookup (dictInsert d k v) k₂ = dictLookup d k₂ := by
  have hne : ¬(k = k₂) := fun hh => h hh.symm
  induction d with
  | nil => simp [dictInsert, dictLookup, hne]
  | cons p r ih =>
    by_cases hk : p.1 = k
    · subst hk
      simp [dictInsert, dictLookup, hne]
    · simp only [dictInsert, if_neg hk, dictLookup]
      by_cases hk2 : p.1 = k₂ <;> simp [hk2, ih]

theorem nextCandidate_injective (base : Str) : Function.Injective (nextCandidate base) := by
  intro a b h
  have h₂ : pyStrNat a = pyStrNat b := by
    have := List.append_cancel_left ((List.append_assoc _ _ _).symm.trans
      (h.trans (List.append_assoc _ _ _)))
    exact List.append_cancel_left this
  exact pyStrNat_injective h₂

theorem nextCandidate_ne_base (base : Str) (suffix : Nat) :
    nextCandidate base suffix ≠ base := by
  intro h
  have hlen := congrArg List.length h
  rw [nextCandidate] at hlen
  simp only [List.length_append, List.length_cons, List.length_nil] at hlen
  have := pyStrNat_ne_nil suffix
  have hpos : 0 < (pyStrNat suffix).length := List.length_pos.mpr this
  omega

/-- If some candidate in range is fresh, the loop succeeds and returns a name
not in the registry (in fact the first fresh candidate). -/
theorem resolveName_some_of_fresh (fuel : Nat) (users : List (Str × UserInfo))
    (base : Str) :
    ∀ (assigned : Str) (suffix : Nat),
      (∃ c ∈ candidateList fuel base assigned suffix, c ∉ dictKeys users) →
      ∃ a, resolveName fuel users base assigned suffix = some a ∧ a ∉ dictKeys users := by
  induction fuel with
  | zero =>
    intro assigned suffix h
    obtain ⟨c, hc, _⟩ := h
    exact absurd hc (List.not_mem_nil c)
  | succ f ih =>
    intro assigned suffix h
    by_cases hmem : assigned ∈ dictKeys users
    · have htail : ∃ c ∈ candidateList f base (nextCandidate base (suffix + 1)) (suffix + 1),
          c ∉ dictKeys users := by
        obtain ⟨c, hc, hfree⟩ := h
        rcases List.mem_cons.mp hc with he | hm
        · exact absurd (he ▸ hmem) hfree
        · exact ⟨c, hm, hfree⟩
      obtain ⟨a, ha, hafree⟩ := ih (nextCandidate base (suffix + 1)) (suffix + 1) htail
      refine ⟨a, ?_, hafree⟩
      rw [resolveName, if_pos hmem]
      exact ha
    · refine ⟨assigned, ?_, hmem⟩
      rw [resolveName, if_neg hmem]

/-- The candidate list from the loop's start (`assigned = base`, `suffix = 1`)
has no duplicates: the head is `base` and the tail suffixes are all distinct. -/
theorem candidateList_start_nodup (fuel : Nat) (base : Str) :
    (candidateList fuel base base 1).Nodup := by
  have htail : ∀ f s, (candidateList f base (nextCandidate base s) s).Nodup ∧
      (∀ c ∈ candidateList f base (nextCandidate base s) s,
        ∃ k, s ≤ k ∧ c = nextCandidate base k) := by
    intro f
    induction f with
    | zero => exact fun s => ⟨List.nodup_nil, by intro c hc; exact absurd hc (List.not_mem_nil c)⟩
    | succ g ih =>
      intro s
      obtain ⟨hnd, hshape⟩ := ih (s + 1)
      constructor
      · refine List.nodup_cons.mpr ⟨?_, hnd⟩
        intro hmem
        obtain ⟨k, hk, he⟩ := hshape _ hmem
        have := nextCandidate_injective base he
        omega
      · intro c hc
        rcases List.mem_cons.mp hc with he | hm
        · exact ⟨s, by omega, he⟩
        · obtain ⟨k, hk, he⟩ := hshape c hm
          exact ⟨k, by omega, he⟩
  match fuel with
  | 0 => exact List.nodup_nil
  | f + 1 =>
    refine List.nodup_cons.mpr ⟨?_, (htail f 2).1⟩
    intro hmem
    obtain ⟨k, _, he⟩ := (htail f 2).2 base hmem
    exact nextCandidate_ne_base base k he.symm

theorem candidateList_length (fuel : Nat) (base assigned : Str) (suffix : Nat) :
    (candidateList fuel base assigned suffix).length = fuel := by
  induction fuel generalizing assigned suffix with
  | zero => rfl
  | succ f ih =>
    rw [candidateList]
    simp only [List.length_cons, ih]

/-- With fuel `|users| + 1` the collision loop always terminates on a fresh
name: there are more candidates than registered users and the candidates are
pairwise distinct. -/
theorem resolveName_total (users : List (Str × UserInfo)) (base : Str) :
    ∃ a, resolveName (users.length + 1) users base base 1 = some a ∧
      a ∉ dictKeys users := by
  apply resolveName_some_of_fresh
  by_contra hall
  push_neg at hall
  have hsub : candidateList (users.length + 1) base base 1 ⊆ dictKeys users := by
    intro c hc
    exact hall c hc
  have hle := ((candidateList_start_nodup (users.length + 1) base).subperm hsub).length_le
  rw [candidateList_length] at hle
  have : (dictKeys users).length = users.length := List.length_map _ _
  omega

theorem mem_dictKeys_dictErase_of_ne {K V : Type} [DecidableEq K] (d : List (K × V)) (p k : K)
    (hmem : p ∈ dictKeys d) (hne : p ≠ k) : p ∈ dictKeys (dictErase d k) := by
  induction d with
  | nil => exact absurd hmem (List.not_mem_nil p)
  | cons q r ih =>
    obtain ⟨k₁, v₁⟩ := q
    by_cases hk : k₁ = k
    · have hstep : dictErase ((k₁, v₁) :: r) k = r := by rw [dictErase, if_pos hk]
      rw [hstep]
      rcases List.mem_cons.mp hmem with he | hm
      · exact absurd (he.trans hk) hne
      · exact hm
    · have hstep : dictErase ((k₁, v₁) :: r) k = (k₁, v₁) :: dictErase r k := by
        rw [dictErase, if_neg hk]
      rw [hstep]
      rcases List.mem_cons.mp hmem with he | hm
      · exact he ▸ List.mem_cons_self _ _
      · exact List.mem_cons_of_mem _ (ih hm)

/-- The assigned username is always fresh: it is not a key of the registry the
collision loop ran against. -/
theorem assignedName_fresh (users : List (Str × UserInfo)) (username : Str) :
    assignedName users username ∉ dictKeys users := by
  obtain ⟨a, ha, hfree⟩ := resolveName_total users (userBaseName username)
  rw [assignedName, ha]
  exact hfree

theorem add_user_users (st : SessionState) (username : Str) (sock : Nat) (a : Addr)
    (t : Nat) :
    dictKeys (add_user st username sock a t).2.users
      = dictKeys st.users ++ [(add_user st username sock a t).1] :=
  dictKeys_dictInsert_of_not_mem _ _ _ (assignedName_fresh st.users username)

theorem uniqueNames_applySMOp (st : SessionState) (op : SMOp) (h : uniqueNames st) :
    uniqueNames (applySMOp st op) := by
  cases op with
  | addUser u s a t =>
    show (dictKeys (add_user st u s a t).2.users).Nodup
    rw [add_user_users]
    exact List.Nodup.append h (List.nodup_singleton _)
      (List.disjoint_singleton.mpr (assignedName_fresh st.users u))
  | removeUser u =>
    show (dictKeys (remove_user st u).2.users).Nodup
    rw [remove_user]
    by_cases hc : dictContains st.users u
    · rw [if_pos hc]
      by_cases hp : st.presenter = some u
      · rw [if_pos hp]
        exact (dictKeys_dictErase_sublist _ _).nodup h
      · rw [if_neg hp]
        exact (dictKeys_dictErase_sublist _ _).nodup h
    · rw [if_neg hc]
      exact h
  | setPresenter u =>
    show (dictKeys (set_presenter st u).2.users).Nodup
    rw [set_presenter]
    by_cases hc : dictContains st.users u
    · rw [if_pos hc]
      exact h
    · rw [if_neg hc]
      exact h
  | clearPresenter => exact h
  | addFile fid fn sz d up t => exact h

theorem remove_user_state (st : SessionState) (u : Str) :
    (remove_user st u).2 =
      if dictContains st.users u then
        if st.presenter = some u then
          { st with presenter := none, users := dictErase st.users u }
        else
          { st with users := dictErase st.users u }
      else st := by
  rw [remove_user]
  by_cases hc : dictContains st.users u
  · rw [if_pos hc, if_pos hc]
    by_cases hp : st.presenter = some u
    · rw [if_pos hp, if_pos hp]
    · rw [if_neg hp, if_neg hp]
  · rw [if_neg hc, if_neg hc]

theorem set_presenter_state (st : SessionState) (u : Str) :
    (set_presenter st u).2 =
      if dictContains st.users u then { st with presenter := some u } else st := by
  rw [set_presenter]
  by_cases hc : dictContains st.users u
  · rw [if_pos hc, if_pos hc]
  · rw [if_neg hc, if_neg hc]

theorem presenterInv_applySMOp (st : SessionState) (op : SMOp) (h : presenterInv st) :
    presenterInv (applySMOp st op) := by
  cases op with
  | addUser u s a t =>
    intro p hp
    have hp2 : st.presenter = some p := hp
    have hmem : p ∈ dictKeys st.users := h p hp2
    show p ∈ dictKeys (add_user st u s a t).2.users
    rw [add_user_users]
    exact List.mem_append_left _ hmem
  | removeUser u =>
    intro p hp
    have hp2 : (remove_user st u).2.presenter = some p := hp
    show p ∈ dictKeys (remove_user st u).2.users
    rw [remove_user_state] at hp2 ⊢
    by_cases hc : dictContains st.users u
    · rw [if_pos hc] at hp2 ⊢
      by_cases hpres : st.presenter = some u
      · rw [if_pos hpres] at hp2
        exact absurd hp2 (by simp)
      · rw [if_neg hpres] at hp2 ⊢
        have hst : st.presenter = some p := hp2
        have hmem : p ∈ dictKeys st.users := h p hst
        have hne : p ≠ u := by
          intro he
          exact hpres (he ▸ hst)
        exact mem_dictKeys_dictErase_of_ne _ _ _ hmem hne
    · rw [if_neg hc] at hp2 ⊢
      exact h p hp2
  | setPresenter u =>
    intro p hp
    have hp2 : (set_presenter st u).2.presenter = some p := hp
    show p ∈ dictKeys (set_presenter st u).2.users
    rw [set_presenter_state] at hp2 ⊢
    by_cases hc : dictContains st.users u
    · rw [if_pos hc] at hp2 ⊢
      have hsome : some u = some p := hp2
      have hup : u = p := Option.some.inj hsome
      show p ∈ dictKeys st.users
      exact hup ▸ mem_dictKeys_of_lookup_isSome _ _ hc
    · rw [if_neg hc] at hp2 ⊢
      exact h p hp2
  | clearPresenter =>
    intro p hp
    have hp2 : (none : Option Str) = some p := hp
    exact absurd hp2 (by simp)
  | addFile fid fn sz d up t =>
    intro p hp
    have hp2 : st.presenter = some p := hp
    exact h p hp2

theorem presenterInv_runSMOps (st : SessionState) (ops : List SMOp)
    (h : presenterInv st) : presenterInv (runSMOps st ops) := by
  induction ops generalizing st with
  | nil => exact h
  | cons op rest ih => exact ih _ (presenterInv_applySMOp st op h)

theorem uniqueNames_runSMOps (st : SessionState) (ops : List SMOp)
    (h : uniqueNames st) : uniqueNames (runSMOps st ops) := by
  induction ops generalizing st with
  | nil => exact h
  | cons op rest ih => exact ih _ (uniqueNames_applySMOp st op h)

theorem lookup_isSome_of_mem {K V : Type} [DecidableEq K] (d : List (K × V)) (k : K)
    (h : k ∈ dictKeys d) : (dictLookup d k).isSome := by
  induction d with
  | nil => exact absurd h (List.not_mem_nil k)
  | cons p r ih =>
    obtain ⟨k₁, v₁⟩ := p
    by_cases hk : k₁ = k
    · show (if k₁ = k then some v₁ else dictLookup r k).isSome
      rw [if_pos hk]
      rfl
    · show (if k₁ = k then some v₁ else dictLookup r k).isSome
      rw [if_neg hk]
      refine ih ?_
      rcases List.mem_cons.mp h with he | hm
      · exact absurd he.symm hk
      · exact hm

theorem set_presenter_self_eq (st : SessionState) (u : Str)
    (h : st.presenter = some u) : { st with presenter := some u } = st := by
  cases st with
  | mk us pr fi =>
    have h₂ : pr = some u := h
    rw [h₂]

/-- **C1** (Presenter mutual exclusion): under any interleaving of screen-share
START/STOP requests at most one presenter is ever active; a START while someone
else is presenting fails with a human-readable reason and leaves the state
untouched (nobody is notified); a START by the current presenter itself
succeeds and changes nothing (idempotent). -/
theorem C1_presenter_mutual_exclusion :
    (∀ (st : SessionState) (reqs : List ScreenReq),
        (activePresenters (runScreenReqs st reqs)).length ≤ 1)
    ∧ (∀ (st : SessionState) (u v : Str),
        get_presenter st = some v → pyTruthy v = true → v ≠ u →
        start_sharing st u = ((false, v ++ litS " is already presenting"), st, []))
    ∧ (∀ (st : SessionState) (u : Str),
        get_presenter st = some u →
        (start_sharing st u).1.1 = true ∧ (start_sharing st u).2.1 = st) := by
  refine ⟨?_, ?_, ?_⟩
  · intro st reqs
    cases hp : (runScreenReqs st reqs).presenter with
    | none => simp [activePresenters, hp]
    | some v => simp [activePresenters, hp]
  · intro st u v hv htr hne
    simp only [start_sharing, hv]
    rw [if_pos ⟨htr, hne⟩]
  · intro st u hu
    simp only [start_sharing, hu]
    have hif : ¬(pyTruthy u = true ∧ u ≠ u) := fun hc => hc.2 rfl
    rw [if_neg hif]
    refine ⟨rfl, ?_⟩
    show (set_presenter st u).2 = st
    rw [set_presenter_state]
    by_cases hc : dictContains st.users u
    · rw [if_pos hc]
      exact set_presenter_self_eq st u hu
    · rw [if_neg hc]

theorem C1_presenter_mutual_exclusion_witness :
    start_sharing c1DemoState (litS "Bob")
      = ((false, litS "Alice is already presenting"), c1DemoState, [])
    ∧ (start_sharing c1DemoState (litS "Alice")).1.1 = true
    ∧ (start_sharing c1DemoState (litS "Alice")).2.1 = c1DemoState := by
  refine ⟨?_, ?_⟩
  · have h := C1_presenter_mutual_exclusion.2.1 c1DemoState (litS "Bob") (litS "Alice")
      rfl (by decide) (by decide)
    exact h.trans (by decide)
  · exact C1_presenter_mutual_exclusion.2.2 c1DemoState (litS "Alice") rfl

/-- **C3** (Username uniqueness): across any sequence of registry operations no
two sessions ever share an assigned name; `add_user` returns the name it
registers, which is always fresh; a second registration of `"Alice"` is
assigned `"Alice_2"`. -/
theorem C3_username_uniqueness :
    (∀ (st : SessionState) (ops : List SMOp),
        uniqueNames st → uniqueNames (runSMOps st ops))
    ∧ (∀ (st : SessionState) (u : Str) (sock : Nat) (a : Addr) (t : Nat),
        (add_user st u sock a t).1 ∉ dictKeys st.users ∧
        dictKeys ((add_user st u sock a t).2.users)
          = dictKeys st.users ++ [(add_user st u sock a t).1])
    ∧ ((add_user ((add_user SessionState.empty (litS "Alice") 1 (litS "h1", 0) 0).2)
          (litS "Alice") 2 (litS "h2", 0) 0).1 = litS "Alice_2") := by
  refine ⟨uniqueNames_runSMOps, ?_, by decide⟩
  intro st u sock a t
  exact ⟨assignedName_fresh st.users u, add_user_users st u sock a t⟩

theorem C3_username_uniqueness_witness :
    uniqueNames SessionState.empty ∧
      uniqueNames (runSMOps SessionState.empty
        [SMOp.addUser (litS "Alice") 1 (litS "h1", 0) 0,
         SMOp.addUser (litS "Alice") 2 (litS "h2", 0) 0]) :=
  ⟨List.nodup_nil,
    C3_username_uniqueness.1 SessionState.empty
      [SMOp.addUser (litS "Alice") 1 (litS "h1", 0) 0,
       SMOp.addUser (litS "Alice") 2 (litS "h2", 0) 0] List.nodup_nil⟩

/-- **C10** (Presenter-slot registry invariant): the presenter slot is always
`None` or a currently-registered username. `set_presenter` succeeds exactly on
registered names and otherwise changes nothing, `remove_user` clears the slot
when the leaver holds it, and every registry operation preserves the
invariant. -/
theorem C10_presenter_slot_registered :
    (∀ (st : SessionState) (u : Str),
        (dictContains st.users u = true →
          set_presenter st u = (true, { st with presenter := some u })) ∧
        (dictContains st.users u = false → set_presenter st u = (false, st)))
    ∧ (∀ (st : SessionState) (u : Str), presenterInv st → st.presenter = some u →
        (remove_user st u).2.presenter = none)
    ∧ (∀ (st : SessionState) (op : SMOp), presenterInv st →
        presenterInv (applySMOp st op))
    ∧ (∀ (st : SessionState) (ops : List SMOp), presenterInv st →
        presenterInv (runSMOps st ops)) := by
  refine ⟨?_, ?_, presenterInv_applySMOp, presenterInv_runSMOps⟩
  · intro st u
    constructor
    · intro h
      rw [set_presenter, if_pos h]
    · intro h
      rw [set_presenter, if_neg (by rw [h]; exact Bool.false_ne_true)]
  · intro st u hinv hpres
    have hmem : u ∈ dictKeys st.users := hinv u hpres
    have hc : dictContains st.users u = true := lookup_isSome_of_mem _ _ hmem
    have h := remove_user_state st u
    rw [if_pos hc, if_pos hpres] at h
    rw [h]

theorem C10_presenter_slot_registered_witness :
    set_presenter c1DemoState (litS "Alice")
      = (true, { c1DemoState with presenter := some (litS "Alice") })
    ∧ set_presenter c1DemoState (litS "Bob") = (false, c1DemoState)
    ∧ (remove_user c1DemoState (litS "Alice")).2.presenter = none
    ∧ presenterInv (runSMOps c1DemoState [SMOp.removeUser (litS "Alice")]) := by
  refine ⟨?_, ?_, ?_, ?_⟩
  · exact (C10_presenter_slot_registered.1 c1DemoState (litS "Alice")).1 (by decide)
  · exact (C10_presenter_slot_registered.1 c1DemoState (litS "Bob")).2 (by decide)
  · exact C10_presenter_slot_registered.2.1 c1DemoState (litS "Alice")
      (by intro p hp; simp [c1DemoState] at hp; simp [c1DemoState, hp, dictKeys]) rfl
  · exact C10_presenter_slot_registered.2.2.2 c1DemoState [SMOp.removeUser (litS "Alice")]
      (by intro p hp; simp [c1DemoState] at hp; simp [c1DemoState, hp, dictKeys])

theorem get_all_sockets_except_none (sm : SessionState) :
    get_all_sockets_except sm none = sm.users.map (fun p => (p.1, p.2.sock)) := by
  rw [get_all_sockets_except]
  congr 1
  exact List.filter_eq_self.mpr (fun a _ => rfl)

theorem broadcast_message_attempted (sm : SessionState) (sendOk : Str → Bool) :
    (broadcast_message sm sendOk).1 = get_user_list sm := by
  rw [broadcast_message]
  show (get_all_sockets_except sm none).map (fun p => p.1) = get_user_list sm
  rw [get_all_sockets_except_none, get_user_list, List.map_map]
  rfl

theorem broadcast_message_delivered (sm : SessionState) (sendOk : Str → Bool) :
    (broadcast_message sm sendOk).2 = (get_user_list sm).filter sendOk := by
  rw [broadcast_message]
  show ((get_all_sockets_except sm none).filter (fun p => sendOk p.1)).map (fun p => p.1)
      = (get_user_list sm).filter sendOk
  rw [get_all_sockets_except_none, get_user_list]
  induction sm.users with
  | nil => rfl
  | cons p r ih =>
    show (((p.1, p.2.sock) :: r.map (fun q => (q.1, q.2.sock))).filter
          (fun q => sendOk q.1)).map (fun q => q.1)
        = (p.1 :: dictKeys r).filter sendOk
    rw [List.filter_cons, List.filter_cons]
    by_cases hs : sendOk p.1 = true
    · rw [if_pos hs, if_pos hs, List.map_cons]
      rw [ih]
    · rw [if_neg hs, if_neg hs]
      exact ih

/-- **C6 counterexample**: the claim says chat fan-out excludes the sender, but
`ChatHandler.broadcast_message` calls `get_all_sockets_except()` with no
argument, so the sender ("Alice") is among the attempted recipients of their
own message. -/
theorem C6_chat_publish_counterexample :
    (handle_chat_message
        { users := [(litS "Alice",
            { sock := 1, address := (litS "10.0.0.1", 5000), connected_at := 0,
              video_active := false, audio_active := false }),
           (litS "Bob",
            { sock := 2, address := (litS "10.0.0.2", 5001), connected_at := 0,
              video_active := false, audio_active := false })],
          presenter := none, files := [] }
        [] (litS "Alice") (litS "hi") (litS "12:00:00") (fun _ => true)).2.1
      = [litS "Alice", litS "Bob"] ∧
    litS "Alice" ∈ (handle_chat_message
        { users := [(litS "Alice",
            { sock := 1, address := (litS "10.0.0.1", 5000), connected_at := 0,
              video_active := false, audio_active := false }),
           (litS "Bob",
            { sock := 2, address := (litS "10.0.0.2", 5001), connected_at := 0,
              video_active := false, audio_active := false })],
          presenter := none, files := [] }
        [] (litS "Alice") (litS "hi") (litS "12:00:00") (fun _ => true)).2.1 := by
  constructor
  · decide
  · decide

/-- **C6 (amended)**: `publish(sender, message)` timestamps the message with
the server clock, appends it to the in-memory history, and fans it out to
every session's control channel **including the sender** (the registry
exclusion hook is not used); delivery is best-effort per recipient — each
recipient receives exactly when its own send succeeds, regardless of failures
to any other recipient, and the handler always returns normally to the
sender's session. -/
theorem C6_chat_publish_semantics :
    ∀ (sm : SessionState) (history : List ChatMsg) (u msg clock : Str)
      (sendOk : Str → Bool),
      (handle_chat_message sm history u msg clock sendOk).1
        = history ++ [{ username := u, message := msg, timestamp := clock }]
      ∧ (handle_chat_message sm history u msg clock sendOk).2.1 = get_user_list sm
      ∧ (handle_chat_message sm history u msg clock sendOk).2.2
          = (get_user_list sm).filter sendOk
      ∧ (∀ r, r ∈ get_user_list sm → sendOk r = true →
          r ∈ (handle_chat_message sm history u msg clock sendOk).2.2) := by
  intro sm history u msg clock sendOk
  refine ⟨rfl, broadcast_message_attempted sm sendOk,
    broadcast_message_delivered sm sendOk, ?_⟩
  intro r hmem hok
  show r ∈ (broadcast_message sm sendOk).2
  rw [broadcast_message_delivered]
  exact List.mem_filter.mpr ⟨hmem, hok⟩

theorem dictInsert_dictInsert_same {K V : Type} [DecidableEq K] (d : List (K × V))
    (k : K) (v w : V) : dictInsert (dictInsert d k v) k w = dictInsert d k w := by
  induction d with
  | nil =>
    show dictInsert [(k, v)] k w = [(k, w)]
    rw [dictInsert, if_pos rfl]
  | cons p r ih =>
    obtain ⟨k₁, v₁⟩ := p
    by_cases hk : k₁ = k
    · rw [dictInsert, if_pos hk, dictInsert, if_pos rfl, dictInsert, if_pos hk]
    · rw [dictInsert, if_neg hk, dictInsert, if_neg hk, dictInsert, if_neg hk, ih]

theorem dictInsert_append_of_not_mem {K V : Type} [DecidableEq K] (d : List (K × V))
    (k : K) (v : V) (h : k ∉ dictKeys d) : dictInsert d k v = d ++ [(k, v)] := by
  induction d with
  | nil => rfl
  | cons p r ih =>
    obtain ⟨k₁, v₁⟩ := p
    have hmem : k ∉ dictKeys r := fun hm => h (List.mem_cons_of_mem _ hm)
    have hne : ¬(k₁ = k) := fun he => h (he ▸ List.mem_cons_self _ _)
    rw [dictInsert, if_neg hne, ih hmem]
    rfl

theorem dictErase_dictInsert_of_not_mem {K V : Type} [DecidableEq K] (d : List (K × V))
    (k : K) (v : V) (h : k ∉ dictKeys d) : dictErase (dictInsert d k v) k = d := by
  induction d with
  | nil =>
    show dictErase [(k, v)] k = []
    rw [dictErase, if_pos rfl]
  | cons p r ih =>
    obtain ⟨k₁, v₁⟩ := p
    have hmem : k ∉ dictKeys r := fun hm => h (List.mem_cons_of_mem _ hm)
    have hne : ¬(k₁ = k) := fun he => h (he ▸ List.mem_cons_self _ _)
    rw [dictInsert, if_neg hne, dictErase, if_neg hne, ih hmem]

theorem dictContains_insert_self {K V : Type} [DecidableEq K] (d : List (K × V))
    (k : K) (v : V) : dictContains (dictInsert d k v) k = true := by
  rw [dictContains, dictLookup_dictInsert_self]
  rfl

theorem dictContains_false_of_lookup_none {K V : Type} [DecidableEq K]
    (d : List (K × V)) (k : K) (h : dictLookup d k = none) :
    dictContains d k = false := by
  rw [dictContains, h]
  rfl

theorem dictLookup_of_mem_of_nodupKeys {K V : Type} [DecidableEq K] (d : List (K × V))
    (k : K) (v : V) (hmem : (k, v) ∈ d) (hnd : (dictKeys d).Nodup) :
    dictLookup d k = some v := by
  induction d with
  | nil => exact absurd hmem (List.not_mem_nil _)
  | cons p r ih =>
    obtain ⟨k₁, v₁⟩ := p
    have hnd₂ : (dictKeys r).Nodup ∧ k₁ ∉ dictKeys r := by
      have := List.nodup_cons.mp hnd
      exact ⟨this.2, this.1⟩
    rcases List.mem_cons.mp hmem with he | hm
    · obtain ⟨hk, hv⟩ := Prod.mk.injEq .. ▸ he
      rw [dictLookup, if_pos (Prod.mk.injEq .. ▸ he).1.symm]
      exact congrArg some (Prod.mk.injEq .. ▸ he).2.symm
    · have hk : ¬(k₁ = k) := by
        intro he
        subst he
        exact hnd₂.2 (List.mem_map.mpr ⟨(k₁, v), hm, rfl⟩)
      rw [dictLookup, if_neg hk]
      exact ih hm hnd₂.1

/-- Looking a key up through a value-map of the dictionary. -/
theorem dictLookup_map_value {K V W : Type} [DecidableEq K] (d : List (K × V))
    (g : V → W) (k : K) :
    dictLookup (d.map (fun p => (p.1, g p.2))) k = (dictLookup d k).map g := by
  induction d with
  | nil => rfl
  | cons p r ih =>
    obtain ⟨k₁, v₁⟩ := p
    by_cases hk : k₁ = k
    · rw [List.map_cons]
      rw [dictLookup, if_pos hk, dictLookup, if_pos hk]
      rfl
    · rw [List.map_cons]
      rw [dictLookup, if_neg hk, dictLookup, if_neg hk]
      exact ih

theorem dictLookup_filter_none {K V : Type} [DecidableEq K] (d : List (K × V))
    (pred : K × V → Bool) (k : K) (v : V)
    (hnd : (dictKeys d).Nodup) (hlk : dictLookup d k = some v)
    (hpred : pred (k, v) = false) : dictLookup (d.filter pred) k = none := by
  induction d with
  | nil => rfl
  | cons p r ih =>
    obtain ⟨k₁, v₁⟩ := p
    have hnd₂ := List.nodup_cons.mp hnd
    by_cases hk : k₁ = k
    · subst hk
      rw [dictLookup, if_pos rfl] at hlk
      have hv : v₁ = v := Option.some.inj hlk
      subst hv
      rw [List.filter_cons, if_neg (by rw [hpred]; exact Bool.false_ne_true)]
      apply dictLookup_eq_none_of_not_mem
      intro hmem
      apply hnd₂.1
      have hsub : dictKeys (r.filter pred) ⊆ dictKeys r := by
        intro x hx
        obtain ⟨q, hq, he⟩ := List.mem_map.mp hx
        exact List.mem_map.mpr ⟨q, List.mem_of_mem_filter hq, he⟩
      exact hsub hmem
    · rw [dictLookup, if_neg hk] at hlk
      rw [List.filter_cons]
      by_cases hp : pred (k₁, v₁) = true
      · rw [if_pos hp, dictLookup, if_neg hk]
        exact ih hnd₂.2 hlk
      · rw [if_neg hp]
        exact ih hnd₂.2 hlk

theorem userFrames_midState (st : VideoState) (u : Str) (fid N now : Nat)
    (p : List (Nat × Bytes)) :
    userFrames (midState st u fid N now p) u
      = dictInsert (userFrames st u) fid (midBuf N now p) := by
  rw [userFrames, midState]
  show (dictLookup (dictInsert st.frames_in_progress u _) u).getD [] = _
  rw [dictLookup_dictInsert_self]
  rfl

/-- Recording a fresh, non-final fragment extends the assembly buffer and
delivers nothing. -/
theorem receive_video_step_fresh_mid (imdecode : Bytes → Option Bytes)
    (st : VideoState) (now : Nat) (u : Str) (fid N idx : Nat) (chunk : Bytes)
    (p : List (Nat × Bytes)) (hidx : idx ∉ dictKeys p) (hlen : ¬(p.length + 1 = N)) :
    receive_video_step imdecode (midState st u fid N now p) now u fid N idx chunk
      = (midState st u fid N now (p ++ [(idx, chunk)]), none) := by
  have hparts : dictContains p idx = false :=
    dictContains_false_of_lookup_none _ _ (dictLookup_eq_none_of_not_mem _ _ hidx)
  have hins : dictInsert p idx chunk = p ++ [(idx, chunk)] :=
    dictInsert_append_of_not_mem _ _ _ hidx
  simp only [receive_video_step, midState, midBuf, dictContains_insert_self,
    dictLookup_dictInsert_self, Option.getD_some, if_true, hparts, Bool.false_eq_true,
    if_false, hins, List.length_append, List.length_cons, List.length_nil]
  rw [if_neg (by omega : ¬(p.length + 1 = N))]
  norm_num
  rw [dictInsert_dictInsert_same, dictInsert_dictInsert_same]

/-- A duplicate fragment index is ignored — not overwritten, not re-counted:
the state is unchanged. -/
theorem receive_video_step_dup (imdecode : Bytes → Option Bytes)
    (st : VideoState) (now : Nat) (u : Str) (fid N idx : Nat) (chunk : Bytes)
    (p : List (Nat × Bytes)) (hidx : idx ∈ dictKeys p) (hlen : ¬(p.length = N)) :
    receive_video_step imdecode (midState st u fid N now p) now u fid N idx chunk
      = (midState st u fid N now p, none) := by
  have hparts : dictContains p idx = true := lookup_isSome_of_mem _ _ hidx
  simp only [receive_video_step, midState, midBuf, dictContains_insert_self,
    dictLookup_dictInsert_self, Option.getD_some, if_true, hparts]
  rw [if_neg (by omega : ¬(p.length = N))]
  rw [dictInsert_dictInsert_same, dictInsert_dictInsert_same]

/-- The last fresh fragment completes the frame: the payload handed to the
decoder is exactly the recorded fragments in arrival order, the buffer is
discarded, and the sender's latest frame is replaced only on successful
decode. -/
theorem receive_video_step_fresh_complete (imdecode : Bytes → Option Bytes)
    (st : VideoState) (now : Nat) (u : Str) (fid N idx : Nat) (chunk : Bytes)
    (p : List (Nat × Bytes)) (hfree : fid ∉ dictKeys (userFrames st u))
    (hidx : idx ∉ dictKeys p) (hlen : p.length + 1 = N) :
    receive_video_step imdecode (midState st u fid N now p) now u fid N idx chunk
      = ((match imdecode (assembleParts (midBuf N now (p ++ [(idx, chunk)]))) with
          | some frame =>
            { video_streams := dictInsert st.video_streams u frame,
              frames_in_progress := dictInsert st.frames_in_progress u (userFrames st u),
              frame_count :=
                dictInsert (initFC st u) u ((dictLookup (initFC st u) u).getD 0 + 1) }
          | none =>
            { video_streams := st.video_streams,
              frames_in_progress := dictInsert st.frames_in_progress u (userFrames st u),
              frame_count := initFC st u }),
         some (assembleParts (midBuf N now (p ++ [(idx, chunk)])))) := by
  have hparts : dictContains p idx = false :=
    dictContains_false_of_lookup_none _ _ (dictLookup_eq_none_of_not_mem _ _ hidx)
  have hins : dictInsert p idx chunk = p ++ [(idx, chunk)] :=
    dictInsert_append_of_not_mem _ _ _ hidx
  simp only [receive_video_step, midState, midBuf, dictContains_insert_self,
    dictLookup_dictInsert_self, Option.getD_some, if_true, hparts, Bool.false_eq_true,
    if_false, hins, List.length_append, List.length_cons, List.length_nil]
  rw [if_pos (by omega : p.length + (0 + 1) = N)]
  have hrec : p.length + (0 + 1) = p.length + 1 := by omega
  rw [hrec]
  cases himg : imdecode (assembleParts
      { total := N, parts := p ++ [(idx, chunk)], received := p.length + 1,
        last_time := now }) with
  | none =>
    rw [dictInsert_dictInsert_same, dictInsert_dictInsert_same,
      dictErase_dictInsert_of_not_mem _ _ _ hfree]
  | some frame =>
    rw [dictInsert_dictInsert_same, dictInsert_dictInsert_same,
      dictErase_dictInsert_of_not_mem _ _ _ hfree]

/-- The first fragment of a frame (no buffer yet) opens the assembly buffer. -/
theorem receive_video_step_first (imdecode : Bytes → Option Bytes)
    (st : VideoState) (now : Nat) (u : Str) (fid N idx : Nat) (chunk : Bytes)
    (hfree : dictLookup (userFrames st u) fid = none) (h1 : ¬(1 = N)) :
    receive_video_step imdecode st now u fid N idx chunk
      = (midState st u fid N now [(idx, chunk)], none) := by
  have hfree₂ : dictLookup ((dictLookup st.frames_in_progress u).getD []) fid = none := hfree
  have hcnil : dictContains ([] : List (Nat × Bytes)) idx = false := rfl
  have hinil : dictInsert ([] : List (Nat × Bytes)) idx chunk = [(idx, chunk)] := rfl
  simp only [receive_video_step, midState, midBuf, userFrames, initFC, hfree₂, hcnil,
    Bool.false_eq_true, if_false, hinil, List.length_cons, List.length_nil]
  rw [if_neg (by omega : ¬(0 + 1 = N))]

/-- A single-fragment frame (`total == 1`) completes on its first packet. -/
theorem receive_video_step_first_complete (imdecode : Bytes → Option Bytes)
    (st : VideoState) (now : Nat) (u : Str) (fid N idx : Nat) (chunk : Bytes)
    (hfree : dictLookup (userFrames st u) fid = none) (h1 : 1 = N) :
    receive_video_step imdecode st now u fid N idx chunk
      = ((match imdecode (assembleParts (midBuf N now [(idx, chunk)])) with
          | some frame =>
            { video_streams := dictInsert st.video_streams u frame,
              frames_in_progress := dictInsert st.frames_in_progress u (userFrames st u),
              frame_count :=
                dictInsert (initFC st u) u ((dictLookup (initFC st u) u).getD 0 + 1) }
          | none =>
            { video_streams := st.video_streams,
              frames_in_progress := dictInsert st.frames_in_progress u (userFrames st u),
              frame_count := initFC st u }),
         some (assembleParts (midBuf N now [(idx, chunk)]))) := by
  have hfree₂ : dictLookup ((dictLookup st.frames_in_progress u).getD []) fid = none := hfree
  have hnotmem : fid ∉ dictKeys (userFrames st u) := by
    intro hmem
    have := lookup_isSome_of_mem _ _ hmem
    rw [hfree] at this
    exact absurd this (by decide)
  have hnotmem₂ : fid ∉ dictKeys ((dictLookup st.frames_in_progress u).getD []) := hnotmem
  have hcnil : dictContains ([] : List (Nat × Bytes)) idx = false := rfl
  have hinil : dictInsert ([] : List (Nat × Bytes)) idx chunk = [(idx, chunk)] := rfl
  simp only [receive_video_step, midState, midBuf, userFrames, initFC, hfree₂, hcnil,
    Bool.false_eq_true, if_false, hinil, List.length_cons, List.length_nil]
  rw [if_pos (by omega : 0 + 1 = N)]
  have hrec : (0 : Nat) + 1 = 1 := by omega
  rw [hrec]
  cases himg : imdecode (assembleParts
      { total := N, parts := [(idx, chunk)], received := 1, last_time := now }) with
  | none => rw [dictErase_dictInsert_of_not_mem _ _ _ hnotmem₂]
  | some frame => rw [dictErase_dictInsert_of_not_mem _ _ _ hnotmem₂]

theorem range_map_getD {α : Type} (l : List α) (dflt : α) :
    (List.range l.length).map (fun i => l.getD i dflt) = l := by
  induction l with
  | nil => rfl
  | cons x t ih =>
    rw [List.length_cons, List.range_succ_eq_map, List.map_cons, List.map_map]
    have hcomp : List.map ((fun i => (x :: t).getD i dflt) ∘ Nat.succ) (List.range t.length)
        = List.map (fun i => t.getD i dflt) (List.range t.length) := rfl
    rw [hcomp, ih]
    rfl

theorem dictLookup_perm_enum (chunks : List Bytes) (q : List (Nat × Bytes))
    (hperm : q.Perm chunks.enum) (i : Nat) (hi : i < chunks.length) :
    dictLookup q i = some (chunks.getD i []) := by
  have hnd : (dictKeys q).Nodup := by
    have h1 : (dictKeys q).Perm (chunks.enum.map Prod.fst) := hperm.map _
    exact h1.nodup_iff.mpr (List.nodup_enum_map_fst chunks)
  apply dictLookup_of_mem_of_nodupKeys _ _ _ _ hnd
  apply hperm.mem_iff.mpr
  apply List.mk_mem_enum_iff_getElem?.mpr
  rw [List.getElem?_eq_getElem hi]
  rw [List.getD_eq_getElem chunks [] hi]

theorem assembleParts_of_perm (chunks : List Bytes) (q : List (Nat × Bytes)) (N now : Nat)
    (hperm : q.Perm chunks.enum) (hN : N = chunks.length) :
    assembleParts (midBuf N now q) = chunks.flatten := by
  subst hN
  rw [assembleParts, midBuf]
  show ((List.range chunks.length).map (fun i => (dictLookup q i).getD [])).flatten = _
  congr 1
  have hcong : ∀ i ∈ List.range chunks.length,
      (dictLookup q i).getD [] = chunks.getD i [] := by
    intro i hi
    rw [dictLookup_perm_enum chunks q hperm i (List.mem_range.mp hi)]
    rfl
  rw [List.map_congr_left hcong]
  exact range_map_getD chunks []

/-- Running the remaining fragments of a frame from mid-assembly: the frame
completes exactly on the last fragment, the delivered payload is the recorded
fragments in arrival order, the buffer is dropped, and the sender's latest
frame is replaced only if the decode succeeds. -/
theorem ingestFold_fromMid (imdecode : Bytes → Option Bytes) (st : VideoState)
    (now : Nat) (u : Str) (fid N : Nat) (hfree : fid ∉ dictKeys (userFrames st u)) :
    ∀ (rest p : List (Nat × Bytes)) (acc : List Bytes),
      rest ≠ [] → (dictKeys (p ++ rest)).Nodup → p.length + rest.length = N →
      ∃ F, ingestFold imdecode now u fid N (midState st u fid N now p, acc) rest
          = (F, acc ++ [assembleParts (midBuf N now (p ++ rest))])
        ∧ F.frames_in_progress = dictInsert st.frames_in_progress u (userFrames st u)
        ∧ F.video_streams = (match imdecode (assembleParts (midBuf N now (p ++ rest))) with
            | some frame => dictInsert st.video_streams u frame
            | none => st.video_streams) := by
  intro rest
  induction rest with
  | nil => intro p acc hne _ _; exact absurd rfl hne
  | cons hd rest₂ ih =>
    obtain ⟨i, c⟩ := hd
    intro p acc _ hnd hlen
    have hkeys : dictKeys (p ++ (i, c) :: rest₂)
        = dictKeys p ++ i :: dictKeys rest₂ := by
      rw [dictKeys, List.map_append]
      rfl
    rw [hkeys] at hnd
    have hifresh : i ∉ dictKeys p := by
      intro hmem
      have hdisj := (List.nodup_append.mp hnd).2.2
      exact hdisj hmem (List.mem_cons_self _ _)
    by_cases hre : rest₂ = []
    · subst hre
      have hlast : p.length + 1 = N := by
        rw [List.length_cons, List.length_nil] at hlen
        omega
      rw [ingestFold]
      rw [receive_video_step_fresh_complete imdecode st now u fid N i c p hfree hifresh hlast]
      cases himg : imdecode (assembleParts (midBuf N now (p ++ [(i, c)]))) with
      | some frame =>
        rw [ingestFold]
        exact ⟨_, rfl, rfl, rfl⟩
      | none =>
        rw [ingestFold]
        exact ⟨_, rfl, rfl, rfl⟩
    · have hpos : 0 < rest₂.length := List.length_pos.mpr hre
      have hmid : ¬(p.length + 1 = N) := by
        rw [List.length_cons] at hlen
        omega
      rw [ingestFold]
      rw [receive_video_step_fresh_mid imdecode st now u fid N i c p hifresh hmid]
      have hnd₂ : (dictKeys ((p ++ [(i, c)]) ++ rest₂)).Nodup := by
        have he : (p ++ [(i, c)]) ++ rest₂ = p ++ (i, c) :: rest₂ := by
          rw [List.append_assoc]
          rfl
        rw [he, hkeys]
        exact hnd
      have hlen₂ : (p ++ [(i, c)]).length + rest₂.length = N := by
        rw [List.length_append, List.length_cons, List.length_nil]
        rw [List.length_cons] at hlen
        omega
      have hne₂ : rest₂ ≠ [] := hre
      obtain ⟨F, hrun, hfip, hstr⟩ := ih (p ++ [(i, c)]) acc hne₂ hnd₂ hlen₂
      refine ⟨F, ?_, hfip, ?_⟩
      · show ingestFold imdecode now u fid N
            (midState st u fid N now (p ++ [(i, c)]), acc) rest₂ = _
        rw [hrun]
        have he : (p ++ [(i, c)]) ++ rest₂ = p ++ (i, c) :: rest₂ := by
          rw [List.append_assoc]
          rfl
        rw [he]
      · have he : (p ++ [(i, c)]) ++ rest₂ = p ++ (i, c) :: rest₂ := by
          rw [List.append_assoc]
          rfl
        rw [he] at hstr
        exact hstr

/-- Delivering all `N` fragments of a frame, in any order, reassembles exactly
the original byte sequence: the completed payload is the concatenation of the
fragments in index order, the buffer is discarded, and the sender's latest
complete frame is replaced exactly when the decode succeeds. -/
theorem runIngest_perm_reassembles (imdecode : Bytes → Option Bytes)
    (st : VideoState) (now : Nat) (u : Str) (fid : Nat) (chunks : List Bytes)
    (frags : List (Nat × Bytes)) (hne : chunks ≠ [])
    (hperm : frags.Perm chunks.enum)
    (hfree : dictLookup (userFrames st u) fid = none) :
    ∃ F, runIngest imdecode st now u fid chunks.length frags = (F, [chunks.flatten])
      ∧ F.frames_in_progress = dictInsert st.frames_in_progress u (userFrames st u)
      ∧ dictLookup (userFrames F u) fid = none
      ∧ F.video_streams = (match imdecode chunks.flatten with
          | some frame => dictInsert st.video_streams u frame
          | none => st.video_streams) := by
  have hfreeKeys : fid ∉ dictKeys (userFrames st u) := by
    intro hmem
    have := lookup_isSome_of_mem _ _ hmem
    rw [hfree] at this
    exact absurd this (by decide)
  have hlenfr : frags.length = chunks.length := by
    rw [hperm.length_eq, List.enum_length]
  have hndfr : (dictKeys frags).Nodup :=
    ((hperm.map _).nodup_iff).mpr (List.nodup_enum_map_fst chunks)
  have hfr_ne : frags ≠ [] := by
    intro he
    rw [he] at hlenfr
    exact hne (List.length_eq_zero.mp hlenfr.symm)
  obtain ⟨⟨i, c⟩, rest, hfr⟩ := List.exists_cons_of_ne_nil hfr_ne
  subst hfr
  have hassem : ∀ q : List (Nat × Bytes), q.Perm chunks.enum →
      assembleParts (midBuf chunks.length now q) = chunks.flatten := by
    intro q hq
    exact assembleParts_of_perm chunks q chunks.length now hq rfl
  have hUF : ∀ F : VideoState,
      F.frames_in_progress = dictInsert st.frames_in_progress u (userFrames st u) →
      dictLookup (userFrames F u) fid = none := by
    intro F hfip
    have h₁ : userFrames F u = userFrames st u := by
      rw [userFrames, hfip, dictLookup_dictInsert_self]
      rfl
    rw [h₁]
    exact hfree
  by_cases hrest : rest = []
  · subst hrest
    have hN : (1 : Nat) = chunks.length := by
      rw [List.length_cons, List.length_nil] at hlenfr
      omega
    rw [runIngest, ingestFold]
    rw [receive_video_step_first_complete imdecode st now u fid chunks.length i c hfree hN]
    rw [hassem [(i, c)] hperm]
    cases himg : imdecode chunks.flatten with
    | some frame =>
      rw [ingestFold]
      refine ⟨_, rfl, rfl, ?_, rfl⟩
      exact hUF _ rfl
    | none =>
      rw [ingestFold]
      refine ⟨_, rfl, rfl, ?_, rfl⟩
      exact hUF _ rfl
  · have hN1 : ¬((1 : Nat) = chunks.length) := by
      have hpos : 0 < rest.length := List.length_pos.mpr hrest
      rw [List.length_cons] at hlenfr
      omega
    rw [runIngest, ingestFold]
    rw [receive_video_step_first imdecode st now u fid chunks.length i c hfree hN1]
    have hnd₂ : (dictKeys ([(i, c)] ++ rest)).Nodup := hndfr
    have hlen₂ : ([(i, c)] : List (Nat × Bytes)).length + rest.length = chunks.length := by
      rw [List.length_cons] at hlenfr
      rw [List.length_cons, List.length_nil]
      omega
    obtain ⟨F, hrun, hfip, hstr⟩ :=
      ingestFold_fromMid imdecode st now u fid chunks.length hfreeKeys rest [(i, c)] []
        hrest hnd₂ hlen₂
    refine ⟨F, ?_, hfip, hUF F hfip, ?_⟩
    · show ingestFold imdecode now u fid chunks.length
          (midState st u fid chunks.length now [(i, c)], []) rest = _
      rw [hrun]
      rw [show ([(i, c)] ++ rest : List (Nat × Bytes)) = (i, c) :: rest from rfl]
      rw [hassem ((i, c) :: rest) hperm]
      rfl
    · rw [show ([(i, c)] ++ rest : List (Nat × Bytes)) = (i, c) :: rest from rfl] at hstr
      rw [hassem ((i, c) :: rest) hperm] at hstr
      exact hstr

theorem splitChunks_flatten_general :
    ∀ (n : Nat) (payload : Bytes), payload.length ≤ n * CHUNK_SIZE →
      (splitChunks payload n).flatten = payload := by
  intro n
  induction n with
  | zero =>
    intro payload h
    rw [Nat.zero_mul, Nat.le_zero] at h
    rw [List.length_eq_zero.mp h]
    rfl
  | succ m ih =>
    intro payload h
    rw [splitChunks, List.range_succ_eq_map, List.map_cons, List.map_map]
    have hcomp : List.map ((fun i => (payload.drop (i * CHUNK_SIZE)).take CHUNK_SIZE)
          ∘ Nat.succ) (List.range m)
        = splitChunks (payload.drop CHUNK_SIZE) m := by
      rw [splitChunks]
      apply List.map_congr_left
      intro i _
      show (payload.drop (Nat.succ i * CHUNK_SIZE)).take CHUNK_SIZE
          = ((payload.drop CHUNK_SIZE).drop (i * CHUNK_SIZE)).take CHUNK_SIZE
      rw [List.drop_drop]
      have harith : Nat.succ i * CHUNK_SIZE = i * CHUNK_SIZE + CHUNK_SIZE := by
        rw [Nat.succ_mul]
      rw [harith, Nat.add_comm]
    rw [hcomp]
    show ((payload.drop (0 * CHUNK_SIZE)).take CHUNK_SIZE ::
        splitChunks (payload.drop CHUNK_SIZE) m).flatten = payload
    rw [List.flatten_cons]
    have hlen : (payload.drop CHUNK_SIZE).length ≤ m * CHUNK_SIZE := by
      rw [List.length_drop]
      rw [Nat.succ_mul] at h
      omega
    rw [ih (payload.drop CHUNK_SIZE) hlen]
    rw [Nat.zero_mul, List.drop_zero]
    exact List.take_append_drop CHUNK_SIZE payload

/-- Splitting a payload into `ceil(len / CHUNK_SIZE)` fragments and
concatenating them in index order reproduces the payload. -/
theorem splitChunks_flatten (payload : Bytes) :
    (splitChunks payload (total_pkts_of payload.length)).flatten = payload := by
  apply splitChunks_flatten_general
  rw [total_pkts_of, show CHUNK_SIZE = 60000 from rfl]
  omega

/-- The staleness sweep drops every buffer idle past `FRAME_TIMEOUT` and never
touches the latest-complete-frame map (so a stale frame is never delivered). -/
theorem receive_video_sweep_stale (st : VideoState) (now : Nat) (u : Str) (fid : Nat)
    (buf : FrameBuf) (hnd : (dictKeys (userFrames st u)).Nodup)
    (hlk : dictLookup (userFrames st u) fid = some buf)
    (hstale : FRAME_TIMEOUT < now - buf.last_time) :
    dictLookup (userFrames (receive_video_sweep st now) u) fid = none
    ∧ (receive_video_sweep st now).video_streams = st.video_streams := by
  refine ⟨?_, rfl⟩
  have hmap : dictLookup (receive_video_sweep st now).frames_in_progress u
      = (dictLookup st.frames_in_progress u).map
          (fun frames => frames.filter
            (fun q => !(decide (FRAME_TIMEOUT < now - q.2.last_time)))) := by
    rw [receive_video_sweep]
    exact dictLookup_map_value st.frames_in_progress _ u
  cases hfip : dictLookup st.frames_in_progress u with
  | none =>
    have : userFrames st u = [] := by rw [userFrames, hfip]; rfl
    rw [this] at hlk
    exact absurd hlk (by rw [dictLookup]; intro h; cases h)
  | some frames =>
    have huf : userFrames st u = frames := by rw [userFrames, hfip]; rfl
    have huf₂ : userFrames (receive_video_sweep st now) u
        = frames.filter (fun q => !(decide (FRAME_TIMEOUT < now - q.2.last_time))) := by
      rw [userFrames, hmap, hfip]
      rfl
    rw [huf₂]
    rw [huf] at hlk hnd
    apply dictLookup_filter_none frames _ fid buf hnd hlk
    show (!(decide (FRAME_TIMEOUT < now - (fid, buf).2.last_time))) = false
    rw [show decide (FRAME_TIMEOUT < now - (fid, buf).2.last_time) = true from
      decide_eq_true hstale]
    rfl

/-- An index set avoiding one valid index `j` can never reach `N` members. -/
theorem partsBound (p : List (Nat × Bytes)) (N j : Nat) (hj : j < N)
    (hnd : (dictKeys p).Nodup) (havoid : ∀ q ∈ p, q.1 < N ∧ q.1 ≠ j) :
    p.length < N := by
  have hsub : dictKeys p ⊆ (List.range N).filter (fun i => !(decide (i = j))) := by
    intro x hx
    obtain ⟨q, hq, he⟩ := List.mem_map.mp hx
    obtain ⟨hlt, hne⟩ := havoid q hq
    refine List.mem_filter.mpr ⟨List.mem_range.mpr (he ▸ hlt), ?_⟩
    rw [← he]
    rw [show decide (q.1 = j) = false from decide_eq_false hne]
    rfl
  have hle := (List.subperm_of_subset hnd hsub).length_le
  have hflt : ((List.range N).filter (fun i => !(decide (i = j)))).length
      < (List.range N).length := by
    refine List.length_filter_lt_length_iff_exists.mpr ⟨j, List.mem_range.mpr hj, ?_⟩
    rw [show decide (j = j) = true from decide_eq_true rfl]
    decide
  have hkl : (dictKeys p).length = p.length := List.length_map _ _
  rw [List.length_range] at hflt
  omega

/-- Feeding any fragments that all avoid index `j` never completes the frame:
nothing is delivered and the buffer stays open avoiding `j`. -/
theorem ingestFold_missing (imdecode : Bytes → Option Bytes) (st : VideoState)
    (now : Nat) (u : Str) (fid N j : Nat) (hj : j < N) :
    ∀ (frags p : List (Nat × Bytes)) (acc : List Bytes),
      (dictKeys p).Nodup → (∀ q ∈ p, q.1 < N ∧ q.1 ≠ j) →
      (∀ q ∈ frags, q.1 < N ∧ q.1 ≠ j) →
      ∃ p₂, ingestFold imdecode now u fid N (midState st u fid N now p, acc) frags
          = (midState st u fid N now p₂, acc)
        ∧ (dictKeys p₂).Nodup ∧ (∀ q ∈ p₂, q.1 < N ∧ q.1 ≠ j) := by
  intro frags
  induction frags with
  | nil =>
    intro p acc hnd havoid _
    exact ⟨p, rfl, hnd, havoid⟩
  | cons hd rest ih =>
    obtain ⟨i, c⟩ := hd
    intro p acc hnd havoid hfr
    have hhd := hfr (i, c) (List.mem_cons_self _ _)
    have hrest : ∀ q ∈ rest, q.1 < N ∧ q.1 ≠ j :=
      fun q hq => hfr q (List.mem_cons_of_mem _ hq)
    have hplen : p.length < N := partsBound p N j hj hnd havoid
    rw [ingestFold]
    by_cases hdup : i ∈ dictKeys p
    · rw [receive_video_step_dup imdecode st now u fid N i c p hdup (by omega)]
      exact ih p acc hnd havoid hrest
    · have hnd₂ : (dictKeys (p ++ [(i, c)])).Nodup := by
        rw [dictKeys, List.map_append]
        refine List.Nodup.append hnd (List.nodup_singleton _) ?_
        intro x hx hx₂
        have he : x = i := by simpa using hx₂
        subst he
        exact hdup hx
      have havoid₂ : ∀ q ∈ p ++ [(i, c)], q.1 < N ∧ q.1 ≠ j := by
        intro q hq
        rcases List.mem_append.mp hq with hm | hm
        · exact havoid q hm
        · rw [List.mem_singleton.mp hm]
          exact hhd
      have hplen₂ : (p ++ [(i, c)]).length < N := by
        have := partsBound (p ++ [(i, c)]) N j hj hnd₂ havoid₂
        exact this
      rw [receive_video_step_fresh_mid imdecode st now u fid N i c p hdup
        (by rw [List.length_append, List.length_cons, List.length_nil] at hplen₂; omega)]
      exact ih (p ++ [(i, c)]) acc hnd₂ havoid₂ hrest

/-- If fragment index `j` of an `N`-fragment frame never arrives, the frame is
never delivered — complete or corrupt: no payload is ever completed and the
sender's latest-frame entry is untouched. -/
theorem runIngest_missing (imdecode : Bytes → Option Bytes) (st : VideoState)
    (now : Nat) (u : Str) (fid N j : Nat) (frags : List (Nat × Bytes))
    (hfree : dictLookup (userFrames st u) fid = none) (hj : j < N)
    (hfr : ∀ q ∈ frags, q.1 < N ∧ q.1 ≠ j) :
    (runIngest imdecode st now u fid N frags).2 = []
    ∧ (runIngest imdecode st now u fid N frags).1.video_streams = st.video_streams := by
  cases frags with
  | nil => exact ⟨rfl, rfl⟩
  | cons hd rest =>
    obtain ⟨i, c⟩ := hd
    have hhd := hfr (i, c) (List.mem_cons_self _ _)
    have hN1 : ¬((1 : Nat) = N) := by omega
    rw [runIngest, ingestFold]
    rw [receive_video_step_first imdecode st now u fid N i c hfree hN1]
    have hrest : ∀ q ∈ rest, q.1 < N ∧ q.1 ≠ j :=
      fun q hq => hfr q (List.mem_cons_of_mem _ hq)
    have hnd₁ : (dictKeys [(i, c)]).Nodup := List.nodup_singleton _
    have havoid₁ : ∀ q ∈ ([(i, c)] : List (Nat × Bytes)), q.1 < N ∧ q.1 ≠ j := by
      intro q hq
      rw [List.mem_singleton.mp hq]
      exact hhd
    obtain ⟨p₂, hrun, _, _⟩ :=
      ingestFold_missing imdecode st now u fid N j hj rest [(i, c)] [] hnd₁ havoid₁ hrest
    rw [hrun]
    exact ⟨rfl, rfl⟩

/-- **C2 counterexample**: the claim says a duplicate fragment index is
*overwritten*; the ingest in fact ignores it (`if pkt_idx not in info['parts']`
— first write wins). Feeding index 0 twice with different bytes leaves the
first chunk in the buffer. -/
theorem C2_frame_reassembly_counterexample :
    dictLookup (userFrames
        (runIngest (fun b => some b) VideoState.empty 0 (litS "u") 7 2
          [(0, [170]), (0, [187])]).1
        (litS "u")) 7
      = some { total := 2, parts := [(0, [170])], received := 1, last_time := 0 }
    ∧ ([170] : Bytes) ≠ [187] := by
  constructor
  · decide
  · decide

/-- **C2 (amended)**: for every frame split into `N` fragments, delivering the
fragments to the media-relay ingest in any permutation reassembles the exact
original byte sequence (delivered exactly once, buffer then discarded, the
sender's latest-frame entry replaced exactly on successful decode); the
sender-side split/并concatenation round-trips; a duplicate fragment index is
ignored (first fragment kept), not double-counted; buffers idle past the
staleness timeout are swept away without delivering; and a frame with a
never-arriving fragment is never delivered, complete or corrupt. -/
theorem C2_frame_reassembly :
    (∀ (imdecode : Bytes → Option Bytes) (st : VideoState) (now : Nat) (u : Str)
        (fid : Nat) (chunks : List Bytes) (frags : List (Nat × Bytes)),
        chunks ≠ [] → frags.Perm chunks.enum →
        dictLookup (userFrames st u) fid = none →
        ∃ F, runIngest imdecode st now u fid chunks.length frags = (F, [chunks.flatten])
          ∧ F.frames_in_progress = dictInsert st.frames_in_progress u (userFrames st u)
          ∧ dictLookup (userFrames F u) fid = none
          ∧ F.video_streams = (match imdecode chunks.flatten with
              | some frame => dictInsert st.video_streams u frame
              | none => st.video_streams))
    ∧ (∀ payload : Bytes,
        (splitChunks payload (total_pkts_of payload.length)).flatten = payload)
    ∧ (∀ (imdecode : Bytes → Option Bytes) (st : VideoState) (now : Nat) (u : Str)
        (fid N idx : Nat) (chunk : Bytes) (p : List (Nat × Bytes)),
        idx ∈ dictKeys p → ¬(p.length = N) →
        receive_video_step imdecode (midState st u fid N now p) now u fid N idx chunk
          = (midState st u fid N now p, none))
    ∧ (∀ (st : VideoState) (now : Nat) (u : Str) (fid : Nat) (buf : FrameBuf),
        (dictKeys (userFrames st u)).Nodup →
        dictLookup (userFrames st u) fid = some buf →
        FRAME_TIMEOUT < now - buf.last_time →
        dictLookup (userFrames (receive_video_sweep st now) u) fid = none
        ∧ (receive_video_sweep st now).video_streams = st.video_streams)
    ∧ (∀ (imdecode : Bytes → Option Bytes) (st : VideoState) (now : Nat) (u : Str)
        (fid N j : Nat) (frags : List (Nat × Bytes)),
        dictLookup (userFrames st u) fid = none → j < N →
        (∀ q ∈ frags, q.1 < N ∧ q.1 ≠ j) →
        (runIngest imdecode st now u fid N frags).2 = []
        ∧ (runIngest imdecode st now u fid N frags).1.video_streams = st.video_streams) :=
  ⟨runIngest_perm_reassembles, splitChunks_flatten, receive_video_step_dup,
    receive_video_sweep_stale, runIngest_missing⟩

theorem C2_frame_reassembly_witness :
    ∃ F, runIngest (fun b => some b) VideoState.empty 0 (litS "u") 9
          ([[1], [2], [3]] : List Bytes).length [(2, [3]), (0, [1]), (1, [2])]
        = (F, [([[1], [2], [3]] : List Bytes).flatten])
      ∧ F.frames_in_progress = dictInsert VideoState.empty.frames_in_progress (litS "u")
          (userFrames VideoState.empty (litS "u"))
      ∧ dictLookup (userFrames F (litS "u")) 9 = none
      ∧ F.video_streams
          = (match (fun (b : Bytes) => some b) ([[1], [2], [3]] : List Bytes).flatten with
             | some frame => dictInsert VideoState.empty.video_streams (litS "u") frame
             | none => VideoState.empty.video_streams) :=
  C2_frame_reassembly.1 (fun b => some b) VideoState.empty 0 (litS "u") 9
    [[1], [2], [3]] [(2, [3]), (0, [1]), (1, [2])]
    (by decide) (by decide) (by decide)

theorem broadcast_video_cycle_mem (sm : SessionState) (vs : VideoState)
    (imencode : Bytes → Option Bytes) (receiver sender : Str) (ud : UserInfo)
    (frame enc : Bytes) (hrec : receiver ∈ get_user_list sm)
    (hud : dictLookup sm.users receiver = some ud)
    (hstream : (sender, frame) ∈ vs.video_streams)
    (henc : imencode frame = some enc) :
    (sender, receiver, ud.address) ∈ broadcast_video_cycle sm vs imencode := by
  rw [broadcast_video_cycle]
  rw [if_neg (fun h => by
    rw [List.isEmpty_iff.mp h] at hstream
    exact absurd hstream (List.not_mem_nil _))]
  rw [if_neg (fun h => by
    rw [List.isEmpty_iff.mp h] at hrec
    exact absurd hrec (List.not_mem_nil _))]
  apply List.mem_flatten.mpr
  refine ⟨vs.video_streams.filterMap (fun p : Str × Bytes =>
      match imencode p.2 with
      | none => none
      | some _ => some (p.1, receiver, ud.address)), ?_, ?_⟩
  · have hmem := List.mem_map_of_mem (fun receiver =>
        match dictLookup sm.users receiver with
        | none => []
        | some ud =>
          vs.video_streams.filterMap (fun p : Str × Bytes =>
            match imencode p.2 with
            | none => none
            | some _ => some (p.1, receiver, ud.address))) hrec
    have hmem₂ : (match dictLookup sm.users receiver with
        | none => ([] : List (Str × Str × Addr))
        | some ud =>
          vs.video_streams.filterMap (fun p : Str × Bytes =>
            match imencode p.2 with
            | none => none
            | some _ => some (p.1, receiver, ud.address))) ∈
        (get_user_list sm).map (fun receiver =>
          match dictLookup sm.users receiver with
          | none => []
          | some ud =>
            vs.video_streams.filterMap (fun p : Str × Bytes =>
              match imencode p.2 with
              | none => none
              | some _ => some (p.1, receiver, ud.address))) := hmem
    rw [hud] at hmem₂
    exact hmem₂
  · apply List.mem_filterMap.mpr
    refine ⟨(sender, frame), hstream, ?_⟩
    show (match imencode frame with
          | none => none
          | some _ => some (sender, receiver, ud.address)) = _
    rw [henc]

/-- **C7** (media self-echo): in every broadcast cycle each sender's latest
complete frame is sent to every connected user's address — the sender's own
included; the relay performs no server-side self-filtering. -/
theorem C7_media_self_echo :
    (∀ (sm : SessionState) (vs : VideoState) (imencode : Bytes → Option Bytes)
        (receiver sender : Str) (ud : UserInfo) (frame enc : Bytes),
        receiver ∈ get_user_list sm →
        dictLookup sm.users receiver = some ud →
        (sender, frame) ∈ vs.video_streams →
        imencode frame = some enc →
        (sender, receiver, ud.address) ∈ broadcast_video_cycle sm vs imencode)
    ∧ (∀ (sm : SessionState) (vs : VideoState) (imencode : Bytes → Option Bytes)
        (sender : Str) (ud : UserInfo) (frame enc : Bytes),
        sender ∈ get_user_list sm →
        dictLookup sm.users sender = some ud →
        (sender, frame) ∈ vs.video_streams →
        imencode frame = some enc →
        (sender, sender, ud.address) ∈ broadcast_video_cycle sm vs imencode) :=
  ⟨broadcast_video_cycle_mem,
   fun sm vs imencode sender ud frame enc h1 h2 h3 h4 =>
     broadcast_video_cycle_mem sm vs imencode sender sender ud frame enc h1 h2 h3 h4⟩

theorem C7_media_self_echo_witness :
    (litS "Alice", litS "Alice", (litS "10.0.0.1", 5000)) ∈
      broadcast_video_cycle
        { users := [(litS "Alice",
            { sock := 1, address := (litS "10.0.0.1", 5000), connected_at := 0,
              video_active := false, audio_active := false })],
          presenter := none, files := [] }
        { video_streams := [(litS "Alice", [9, 9])],
          frames_in_progress := [], frame_count := [] }
        (fun b => some b) :=
  C7_media_self_echo.2
    { users := [(litS "Alice",
        { sock := 1, address := (litS "10.0.0.1", 5000), connected_at := 0,
          video_active := false, audio_active := false })],
      presenter := none, files := [] }
    { video_streams := [(litS "Alice", [9, 9])],
      frames_in_progress := [], frame_count := [] }
    (fun b => some b) (litS "Alice")
    { sock := 1, address := (litS "10.0.0.1", 5000), connected_at := 0,
      video_active := false, audio_active := false }
    [9, 9] [9, 9] (by decide) (by decide) (by decide) rfl

/-- What the upload receive loop computes: it reads exactly the announced
size when the peer supplies enough bytes, and everything the peer sent when
the connection closes early — under every positive `recv` schedule. -/
theorem uploadRecvLoop_spec :
    ∀ (fuel filesize received : Nat) (dat stream : Bytes) (sched : List Nat),
      stream.length < fuel → (∀ k ∈ sched, 0 < k) →
      uploadRecvLoop fuel filesize received dat stream sched
        = (dat ++ stream.take (filesize - received),
           received + min (filesize - received) stream.length) := by
  intro fuel
  induction fuel with
  | zero => intro _ _ _ stream _ hf _; omega
  | succ f ih =>
    intro filesize received dat stream sched hf hpos
    by_cases hrec : received < filesize
    · have hn : 0 < min FILE_CHUNK_SIZE (filesize - received) := by
        have h₁ : 0 < FILE_CHUNK_SIZE := by rw [FILE_CHUNK_SIZE]; omega
        omega
      have hk : 0 < sched.headD (min FILE_CHUNK_SIZE (filesize - received)) := by
        cases sched with
        | nil => exact hn
        | cons a t => exact hpos a (List.mem_cons_self _ _)
      cases stream with
      | nil =>
        rw [uploadRecvLoop]
        simp [hrec]
      | cons b s =>
        obtain ⟨m, hm⟩ : ∃ m, min (min FILE_CHUNK_SIZE (filesize - received))
            (sched.headD (min FILE_CHUNK_SIZE (filesize - received))) = m + 1 :=
          ⟨min (min FILE_CHUNK_SIZE (filesize - received))
            (sched.headD (min FILE_CHUNK_SIZE (filesize - received))) - 1, by omega⟩
        rw [uploadRecvLoop, if_pos hrec]
        simp only [hm, List.take_succ_cons]
        rw [if_neg (by simp : ¬((b :: List.take m s).isEmpty = true))]
        have htail : ∀ k ∈ sched.tail, 0 < k := by
          intro k hk₂
          cases sched with
          | nil => exact absurd hk₂ (List.not_mem_nil _)
          | cons a t => exact hpos k (List.mem_cons_of_mem _ hk₂)
        have hlen : ((b :: s).drop (m + 1)).length < f := by
          rw [List.length_drop, List.length_cons]
          rw [List.length_cons] at hf
          omega
        rw [ih filesize (received + (b :: s.take m).length)
          (dat ++ b :: s.take m) ((b :: s).drop (m + 1)) sched.tail hlen htail]
        have hL : (b :: s).length = s.length + 1 := List.length_cons _ _
        have hcl : (b :: s.take m).length = min (m + 1) (s.length + 1) := by
          rw [List.length_cons, List.length_take]
          omega
        have htle : m + 1 ≤ filesize - received := by
          have hmin := Nat.min_le_left (min FILE_CHUNK_SIZE (filesize - received))
            (sched.headD (min FILE_CHUNK_SIZE (filesize - received)))
          rw [hm] at hmin
          omega
        rw [Prod.mk.injEq]
        constructor
        · show (dat ++ b :: s.take m) ++ _ = dat ++ (b :: s).take (filesize - received)
          rw [List.append_assoc]
          congr 1
          by_cases hts : m + 1 ≤ s.length + 1
          · have hsplit : (b :: s).take (filesize - received)
                = (b :: s).take (m + 1) ++ ((b :: s).drop (m + 1)).take
                    (filesize - received - (m + 1)) := by
              have harith : filesize - received = (m + 1) + (filesize - received - (m + 1)) := by
                omega
              conv_lhs => rw [harith]
              rw [List.take_add]
            rw [hsplit, List.take_succ_cons]
            congr 2
            rw [hcl]
            omega
          · have hall : (b :: s).take (m + 1) = b :: s := by
              apply List.take_of_length_le
              rw [List.length_cons]
              omega
            have hall₂ : (b :: s).take (filesize - received) = b :: s := by
              apply List.take_of_length_le
              rw [List.length_cons]
              omega
            have hdnil : (b :: s).drop (m + 1) = [] := by
              apply List.drop_eq_nil_of_le
              rw [List.length_cons]
              omega
            rw [hdnil, hall₂]
            rw [List.take_succ_cons] at hall
            have hsm : s.take m = s := congrArg List.tail hall
            rw [hsm, List.take_nil, List.append_nil]
        · show received + (b :: s.take m).length
              + min (filesize - (received + (b :: s.take m).length))
                  ((b :: s).drop (m + 1)).length
            = received + min (filesize - received) (b :: s).length
          rw [hcl, List.length_drop, hL]
          omega
    · rw [uploadRecvLoop, if_neg hrec]
      have h₀ : filesize - received = 0 := by omega
      rw [h₀, List.take_zero, List.append_nil, Nat.zero_min, Nat.add_zero]

/-- What the download send loop computes when every `sendall` succeeds: the
chunks written concatenate to exactly the stored bytes. -/
theorem downloadSendLoop_spec :
    ∀ (fuel : Nat) (data : Bytes) (sent ci : Nat) (sendSched : Nat → Bool),
      data.length - sent < fuel → sent ≤ data.length →
      (∀ j, sendSched j = true) →
      ∃ chunks, downloadSendLoop fuel data sent ci sendSched
          = (chunks, data.length, true)
        ∧ chunks.flatten = data.drop sent := by
  intro fuel
  induction fuel with
  | zero => intro _ sent _ _ hf _ _; omega
  | succ f ih =>
    intro data sent ci sendSched hf hle hall
    by_cases hlt : sent < data.length
    · rw [downloadSendLoop, if_pos hlt]
      simp only [hall ci, if_true]
      have hclen : ((data.drop sent).take FILE_CHUNK_SIZE).length
          = min FILE_CHUNK_SIZE (data.length - sent) := by
        rw [List.length_take, List.length_drop]
      have hcpos : 0 < ((data.drop sent).take FILE_CHUNK_SIZE).length := by
        rw [hclen, FILE_CHUNK_SIZE]
        omega
      obtain ⟨chunks, hrun, hflat⟩ := ih data
        (sent + ((data.drop sent).take FILE_CHUNK_SIZE).length) (ci + 1) sendSched
        (by rw [hclen] at hcpos ⊢; omega)
        (by rw [hclen]; omega) hall
      rw [hrun]
      refine ⟨_, rfl, ?_⟩
      rw [List.flatten_cons, hflat]
      rw [hclen]
      have hdd : data.drop (sent + min FILE_CHUNK_SIZE (data.length - sent))
          = (data.drop sent).drop FILE_CHUNK_SIZE := by
        by_cases hc : FILE_CHUNK_SIZE ≤ data.length - sent
        · have hmin : min FILE_CHUNK_SIZE (data.length - sent) = FILE_CHUNK_SIZE := by omega
          rw [hmin, List.drop_drop]
        · have hmin : min FILE_CHUNK_SIZE (data.length - sent) = data.length - sent := by
            omega
          have h₁ : data.drop (sent + (data.length - sent)) = [] :=
            List.drop_eq_nil_of_le (by omega)
          have h₂ : (data.drop sent).drop FILE_CHUNK_SIZE = [] := by
            apply List.drop_eq_nil_of_le
            rw [List.length_drop]
            omega
          rw [hmin, h₁, h₂]
      rw [hdd]
      exact List.take_append_drop _ _
    · rw [downloadSendLoop, if_neg hlt]
      have hsent : sent = data.length := by omega
      refine ⟨[], ?_, ?_⟩
      · rw [hsent]
      · rw [hsent, List.drop_length]
        rfl

/-- The receive loop as `handle_file_upload` launches it: from zero bytes it
collects `stream.take filesize` and counts `min filesize stream.length`. -/
theorem uploadRecvLoop_run (filesize : Nat) (stream : Bytes) (sched : List Nat)
    (hpos : ∀ k ∈ sched, 0 < k) :
    uploadRecvLoop (stream.length + 1) filesize 0 [] stream sched
      = (stream.take filesize, min filesize stream.length) := by
  rw [uploadRecvLoop_spec (stream.length + 1) filesize 0 [] stream sched (by omega) hpos]
  simp

/-- Every result of `handle_file_upload` is either a success or leaves the
session state untouched with no notification sent. -/
theorem handle_file_upload_atomic (st : SessionState) (username : Str)
    (mfilename : Option Str) (msize : Option Nat) (sendOk acceptOk : Bool)
    (stream : Bytes) (sched : List Nat) (file_id : Str) (now : Nat) :
    (handle_file_upload st username mfilename msize sendOk acceptOk stream sched
        file_id now).1.1 = true
    ∨ ((handle_file_upload st username mfilename msize sendOk acceptOk stream sched
          file_id now).2.1 = st
      ∧ (handle_file_upload st username mfilename msize sendOk acceptOk stream sched
          file_id now).2.2 = []) := by
  simp only [handle_file_upload]
  split
  · exact Or.inr ⟨rfl, rfl⟩
  · split
    · exact Or.inr ⟨rfl, rfl⟩
    · split
      · exact Or.inr ⟨rfl, rfl⟩
      · split
        · exact Or.inr ⟨rfl, rfl⟩
        · split
          · exact Or.inl rfl
          · exact Or.inr ⟨rfl, rfl⟩

/-- An accept timeout (`socket.timeout` on the transfer rendezvous) always
aborts the upload. -/
theorem handle_file_upload_timeout (st : SessionState) (username : Str)
    (mfilename : Option Str) (msize : Option Nat) (sendOk : Bool)
    (stream : Bytes) (sched : List Nat) (file_id : Str) (now : Nat) :
    (handle_file_upload st username mfilename msize sendOk false stream sched
        file_id now).1.1 = false := by
  simp only [handle_file_upload]
  split
  · rfl
  · split
    · rfl
    · split
      · rfl
      · rfl

/-- A peer that closes the transfer connection before `size` bytes arrive
always aborts the upload. -/
theorem handle_file_upload_short (st : SessionState) (username filename : Str)
    (size : Nat) (sendOk acceptOk : Bool) (stream : Bytes) (sched : List Nat)
    (file_id : Str) (now : Nat) (hpos : ∀ k ∈ sched, 0 < k)
    (hshort : stream.length < size) :
    (handle_file_upload st username (some filename) (some size) sendOk acceptOk
        stream sched file_id now).1.1 = false := by
  simp only [handle_file_upload]
  split
  · rfl
  · split
    · rfl
    · split
      · rfl
      · split
        · rfl
        · rw [uploadRecvLoop_run size stream sched hpos]
          rw [if_neg (by show ¬(min size stream.length = size); omega)]

/-- The success path of `handle_file_upload`: valid metadata, registered
uploader, completed rendezvous, and a peer that supplies at least `size`
bytes produce exactly the stored record and the `AVAILABLE` broadcast. -/
theorem handle_file_upload_success (st : SessionState) (username filename : Str)
    (size : Nat) (stream : Bytes) (sched : List Nat) (file_id : Str) (now : Nat)
    (hn : filename ≠ []) (hs : size ≠ 0)
    (hu : (dictLookup st.users username).isSome = true)
    (hpos : ∀ k ∈ sched, 0 < k) (hlen : size ≤ stream.length) :
    handle_file_upload st username (some filename) (some size) true true stream
        sched file_id now
      = ((true, litS "File uploaded successfully"),
         add_file st file_id filename size (stream.take size) username now,
         (get_all_sockets_except
             (add_file st file_id filename size (stream.take size) username now)
             none).map
           (fun p => (p.1,
             { file_id := file_id, filename := filename, size := size,
               uploader := username, status := litS "AVAILABLE" }))) := by
  obtain ⟨info, hinfo⟩ := Option.isSome_iff_exists.mp hu
  have h₁ : filename.isEmpty = false := by
    cases filename with
    | nil => exact absurd rfl hn
    | cons a t => rfl
  have hmin : min size stream.length = size := by omega
  simp only [handle_file_upload, h₁, decide_eq_false hs, Bool.or_self, hinfo,
    Bool.not_true, uploadRecvLoop_run size stream sched hpos, hmin]
  simp

/-- The success path of `handle_file_download`: a registered requester, a
stored file, a completed rendezvous and succeeding `sendall`s stream chunks
concatenating to exactly the stored bytes. -/
theorem handle_file_download_success (st : SessionState) (username file_id : Str)
    (info : FileRec) (sendSched : Nat → Bool)
    (hu : (dictLookup st.users username).isSome = true)
    (hf : get_file st file_id = some info)
    (hsend : ∀ j, sendSched j = true) :
    ∃ chunks, handle_file_download st username file_id true true sendSched
        = (true, chunks)
      ∧ chunks.flatten = info.data := by
  obtain ⟨uinfo, huinfo⟩ := Option.isSome_iff_exists.mp hu
  obtain ⟨chunks, hrun, hflat⟩ := downloadSendLoop_spec (info.data.length + 1)
    info.data 0 0 sendSched (by omega) (by omega) hsend
  refine ⟨chunks, ?_, by simpa using hflat⟩
  simp only [handle_file_download, huinfo, hf, Bool.not_true]
  rw [hrun]
  rfl

/-- **C4** (upload atomicity): for every file upload, an accept timeout, an
early-closed transfer connection, or a received-byte count differing from the
announced size aborts the upload — the file store is untouched and no
`AVAILABLE` broadcast is sent; only when exactly `size` bytes are received is
the file stored under the allocated `file_id` with
`{filename, size, bytes, uploader}` and `FILE_INFO` with status `AVAILABLE`
broadcast to every connected user. -/
theorem C4_upload_atomicity (st : SessionState) (username filename : Str)
    (size : Nat) (sendOk acceptOk : Bool) (stream : Bytes) (sched : List Nat)
    (file_id : Str) (now : Nat) (ok : Bool) (msg : Str) (st₂ : SessionState)
    (notifs : List (Str × FileAvailableMsg))
    (hpos : ∀ k ∈ sched, 0 < k)
    (heq : handle_file_upload st username (some filename) (some size) sendOk
        acceptOk stream sched file_id now = ((ok, msg), st₂, notifs)) :
    (ok = false → st₂ = st ∧ notifs = [])
    ∧ (acceptOk = false → ok = false)
    ∧ (stream.length < size → ok = false)
    ∧ (filename ≠ [] → size ≠ 0 → (dictLookup st.users username).isSome = true →
        sendOk = true → acceptOk = true → size ≤ stream.length →
        ok = true
        ∧ st₂ = add_file st file_id filename size (stream.take size) username now
        ∧ get_file st₂ file_id
            = some { filename := filename, size := size, data := stream.take size,
                     uploader := username, uploaded_at := now }
        ∧ notifs.map (fun q => q.1) = get_user_list st
        ∧ ∀ q ∈ notifs,
            q.2 = { file_id := file_id, filename := filename, size := size,
                    uploader := username, status := litS "AVAILABLE" }) := by
  refine ⟨?_, ?_, ?_, ?_⟩
  · intro hok
    rcases handle_file_upload_atomic st username (some filename) (some size)
        sendOk acceptOk stream sched file_id now with h | ⟨h1, h2⟩
    · rw [heq] at h
      have h₂ : ok = true := h
      rw [hok] at h₂
      exact absurd h₂ Bool.false_ne_true
    · rw [heq] at h1 h2
      exact ⟨h1, h2⟩
  · intro hao
    subst hao
    have h := handle_file_upload_timeout st username (some filename) (some size)
      sendOk stream sched file_id now
    rw [heq] at h
    exact h
  · intro hshort
    have h := handle_file_upload_short st username filename size sendOk acceptOk
      stream sched file_id now hpos hshort
    rw [heq] at h
    exact h
  · intro hn hs hu hso hao hlen
    subst hso
    subst hao
    have h := handle_file_upload_success st username filename size stream sched
      file_id now hn hs hu hpos hlen
    rw [heq] at h
    have hok : ok = true := by
      have := congrArg (fun t => t.1.1) h
      simpa using this
    have hst : st₂ = add_file st file_id filename size (stream.take size)
        username now := by
      have := congrArg (fun t => t.2.1) h
      simpa using this
    have hnf : notifs = (get_all_sockets_except
        (add_file st file_id filename size (stream.take size) username now)
        none).map
          (fun p => (p.1,
            { file_id := file_id, filename := filename, size := size,
              uploader := username, status := litS "AVAILABLE" })) := by
      have := congrArg (fun t => t.2.2) h
      simpa using this
    refine ⟨hok, hst, ?_, ?_, ?_⟩
    · rw [hst]
      exact dictLookup_dictInsert_self st.files file_id _
    · rw [hnf, get_all_sockets_except_none, List.map_map, List.map_map]
      rfl
    · intro q hq
      rw [hnf] at hq
      obtain ⟨p, hp, hpq⟩ := List.mem_map.mp hq
      rw [← hpq]

theorem C4_upload_atomicity_witness :
    (∀ k ∈ ([2, 2, 2, 2] : List Nat), 0 < k)
    ∧ ((c4UploadResult.1.1 = false →
          c4UploadResult.2.1 = c4DemoState ∧ c4UploadResult.2.2 = [])
      ∧ (true = false → c4UploadResult.1.1 = false)
      ∧ (([1, 2, 3] : Bytes).length < 3 → c4UploadResult.1.1 = false)
      ∧ (litS "f" ≠ [] → (3 : Nat) ≠ 0 →
          (dictLookup c4DemoState.users (litS "u")).isSome = true →
          true = true → true = true → 3 ≤ ([1, 2, 3] : Bytes).length →
          c4UploadResult.1.1 = true
          ∧ c4UploadResult.2.1 = add_file c4DemoState (litS "fid") (litS "f") 3
              (([1, 2, 3] : Bytes).take 3) (litS "u") 7
          ∧ get_file c4UploadResult.2.1 (litS "fid")
              = some { filename := litS "f", size := 3,
                       data := ([1, 2, 3] : Bytes).take 3, uploader := litS "u",
                       uploaded_at := 7 }
          ∧ c4UploadResult.2.2.map (fun q => q.1) = get_user_list c4DemoState
          ∧ ∀ q ∈ c4UploadResult.2.2,
              q.2 = { file_id := litS "fid", filename := litS "f", size := 3,
                      uploader := litS "u", status := litS "AVAILABLE" })) :=
  ⟨by decide,
   C4_upload_atomicity c4DemoState (litS "u") (litS "f") 3 true true [1, 2, 3]
     [2, 2, 2, 2] (litS "fid") 7 c4UploadResult.1.1 c4UploadResult.1.2
     c4UploadResult.2.1 c4UploadResult.2.2 (by decide) rfl⟩

/-- **C5** (file round-trip): for every file of size `S` whose upload
completed and produced a `file_id`, a subsequent download by that `file_id`
streams exactly the stored bytes: the concatenated chunks are byte-identical
to the uploaded content (the first `S` bytes the uploader sent) and have the
same size `S`. -/
theorem C5_file_round_trip (st : SessionState) (uploader downloader filename : Str)
    (size : Nat) (stream : Bytes) (sched : List Nat) (file_id : Str) (now : Nat)
    (sendSched : Nat → Bool)
    (hn : filename ≠ []) (hs : size ≠ 0)
    (hu : (dictLookup st.users uploader).isSome = true)
    (hd : (dictLookup st.users downloader).isSome = true)
    (hpos : ∀ k ∈ sched, 0 < k) (hlen : size ≤ stream.length)
    (hsend : ∀ j, sendSched j = true) :
    (handle_file_upload st uploader (some filename) (some size) true true stream
        sched file_id now).1.1 = true
    ∧ ∃ chunks,
        handle_file_download
            (handle_file_upload st uploader (some filename) (some size) true true
              stream sched file_id now).2.1
            downloader file_id true true sendSched
          = (true, chunks)
        ∧ chunks.flatten = stream.take size
        ∧ chunks.flatten.length = size := by
  have hsucc := handle_file_upload_success st uploader filename size stream sched
    file_id now hn hs hu hpos hlen
  rw [hsucc]
  refine ⟨rfl, ?_⟩
  obtain ⟨chunks, hdl, hflat⟩ := handle_file_download_success
    (add_file st file_id filename size (stream.take size) uploader now)
    downloader file_id
    { filename := filename, size := size, data := stream.take size,
      uploader := uploader, uploaded_at := now }
    sendSched hd (dictLookup_dictInsert_self st.files file_id _) hsend
  refine ⟨chunks, hdl, hflat, ?_⟩
  rw [hflat]
  show (stream.take size).length = size
  rw [List.length_take]
  omega

theorem C5_file_round_trip_witness :
    ((3 : Nat) ≤ ([9, 8, 7, 6] : Bytes).length)
    ∧ ((handle_file_upload c4DemoState (litS "u") (some (litS "doc")) (some 3)
          true true [9, 8, 7, 6] [1, 2] (litS "fid2") 11).1.1 = true
      ∧ ∃ chunks,
          handle_file_download
              (handle_file_upload c4DemoState (litS "u") (some (litS "doc"))
                (some 3) true true [9, 8, 7, 6] [1, 2] (litS "fid2") 11).2.1
              (litS "u") (litS "fid2") true true (fun _ => true)
            = (true, chunks)
          ∧ chunks.flatten = ([9, 8, 7, 6] : Bytes).take 3
          ∧ chunks.flatten.length = 3) :=
  ⟨by decide,
   C5_file_round_trip c4DemoState (litS "u") (litS "u") (litS "doc") 3
     [9, 8, 7, 6] [1, 2] (litS "fid2") 11 (fun _ => true) (by decide) (by decide)
     (by decide) (by decide) (by decide) (by decide) (fun j => rfl)⟩

theorem hexVal_hexDigit (d : Nat) (h : d < 16) : hexVal (hexDigit d) = some d := by
  interval_cases d <;> decide

theorem parseHex4_hex4 (n : Nat) (h : n < 65536) (rest : Str) :
    parseHex4 (hex4 n ++ rest) = some (n, rest) := by
  show parseHex4 (hexDigit (n / 4096 % 16) :: hexDigit (n / 256 % 16)
    :: hexDigit (n / 16 % 16) :: hexDigit (n % 16) :: rest) = some (n, rest)
  rw [parseHex4]
  rw [hexVal_hexDigit _ (Nat.mod_lt _ (by omega)),
      hexVal_hexDigit _ (Nat.mod_lt _ (by omega)),
      hexVal_hexDigit _ (Nat.mod_lt _ (by omega)),
      hexVal_hexDigit _ (Nat.mod_lt _ (by omega))]
  show some (((n / 4096 % 16 * 16 + n / 256 % 16) * 16 + n / 16 % 16) * 16 + n % 16, rest)
    = some (n, rest)
  congr 1
  rw [Prod.mk.injEq]
  refine ⟨?_, rfl⟩
  omega

theorem esc_ne_nil (c : Char) : esc c ≠ [] := by
  rw [esc]
  split
  · exact List.cons_ne_nil _ _
  · split
    · exact List.cons_ne_nil _ _
    · split
      · exact List.cons_ne_nil _ _
      · split
        · exact List.cons_ne_nil _ _
        · split
          · exact List.cons_ne_nil _ _
          · split
            · exact List.cons_ne_nil _ _
            · split
              · exact List.cons_ne_nil _ _
              · split
                · exact List.cons_ne_nil _ _
                · split
                  · exact List.cons_ne_nil _ _
                  · exact List.append_ne_nil_of_left_ne_nil (List.cons_ne_nil _ _) _

theorem length_le_escFlatten (s : Str) : s.length ≤ ((s.map esc).flatten).length := by
  induction s with
  | nil => simp
  | cons c rest ih =>
    rw [List.map_cons, List.flatten_cons, List.length_append, List.length_cons]
    have hpos : 0 < (esc c).length := List.length_pos.mpr (esc_ne_nil c)
    omega

/-- One parser step over each short escape the encoder emits. -/
theorem psf_quote (f : Nat) (T : Str) :
    parseStringF (f + 1) (['\\', '"'] ++ T)
      = (parseStringF f T).map (fun r => ('"' :: r.1, r.2)) := rfl

theorem psf_backslash (f : Nat) (T : Str) :
    parseStringF (f + 1) (['\\', '\\'] ++ T)
      = (parseStringF f T).map (fun r => ('\\' :: r.1, r.2)) := rfl

theorem psf_b (f : Nat) (T : Str) :
    parseStringF (f + 1) (['\\', 'b'] ++ T)
      = (parseStringF f T).map (fun r => (Char.ofNat 8 :: r.1, r.2)) := rfl

theorem psf_t (f : Nat) (T : Str) :
    parseStringF (f + 1) (['\\', 't'] ++ T)
      = (parseStringF f T).map (fun r => (Char.ofNat 9 :: r.1, r.2)) := rfl

theorem psf_n (f : Nat) (T : Str) :
    parseStringF (f + 1) (['\\', 'n'] ++ T)
      = (parseStringF f T).map (fun r => (Char.ofNat 10 :: r.1, r.2)) := rfl

theorem psf_f (f : Nat) (T : Str) :
    parseStringF (f + 1) (['\\', 'f'] ++ T)
      = (parseStringF f T).map (fun r => (Char.ofNat 12 :: r.1, r.2)) := rfl

theorem psf_r (f : Nat) (T : Str) :
    parseStringF (f + 1) (['\\', 'r'] ++ T)
      = (parseStringF f T).map (fun r => (Char.ofNat 13 :: r.1, r.2)) := rfl

/-- `py_scanstring` inverts the encoder's escaping: reading the escaped body
of a string literal up to its closing quote recovers the original string. -/
theorem parseStringF_dumps :
    ∀ (s : Str) (fuel : Nat) (rest : Str), s.length < fuel →
      parseStringF fuel ((s.map esc).flatten ++ '"' :: rest) = some (s, rest) := by
  intro s
  induction s with
  | nil =>
    intro fuel rest hf
    obtain ⟨f, rfl⟩ : ∃ f, fuel = f + 1 := ⟨fuel - 1, by omega⟩
    rw [List.map_nil]
    show parseStringF (f + 1) ('"' :: rest) = some ([], rest)
    rfl
  | cons c s₂ ih =>
    intro fuel rest hf
    obtain ⟨f, rfl⟩ : ∃ f, fuel = f + 1 := ⟨fuel - 1, by omega⟩
    have hf₂ : s₂.length < f := by
      rw [List.length_cons] at hf
      omega
    rw [List.map_cons, List.flatten_cons, List.append_assoc]
    have hIH := ih f rest hf₂
    by_cases h1 : c = '"'
    · subst h1
      rw [show esc '"' = ['\\', '"'] from rfl, psf_quote, hIH]
      rfl
    · by_cases h2 : c = '\\'
      · subst h2
        rw [show esc '\\' = ['\\', '\\'] from rfl, psf_backslash, hIH]
        rfl
      · by_cases h8 : c.toNat = 8
        · have he : esc c = ['\\', 'b'] := by
            rw [esc]
            simp only [if_neg h1, if_neg h2, if_pos h8]
          rw [he, psf_b, hIH, show Char.ofNat 8 = c from h8 ▸ Char.ofNat_toNat c]
          rfl
        · by_cases h9 : c.toNat = 9
          · have he : esc c = ['\\', 't'] := by
              rw [esc]
              simp only [if_neg h1, if_neg h2, if_neg h8, if_pos h9]
            rw [he, psf_t, hIH, show Char.ofNat 9 = c from h9 ▸ Char.ofNat_toNat c]
            rfl
          · by_cases h10 : c.toNat = 10
            · have he : esc c = ['\\', 'n'] := by
                rw [esc]
                simp only [if_neg h1, if_neg h2, if_neg h8, if_neg h9, if_pos h10]
              rw [he, psf_n, hIH, show Char.ofNat 10 = c from h10 ▸ Char.ofNat_toNat c]
              rfl
            · by_cases h12 : c.toNat = 12
              · have he : esc c = ['\\', 'f'] := by
                  rw [esc]
                  simp only [if_neg h1, if_neg h2, if_neg h8, if_neg h9, if_neg h10,
                    if_pos h12]
                rw [he, psf_f, hIH,
                  show Char.ofNat 12 = c from h12 ▸ Char.ofNat_toNat c]
                rfl
              · by_cases h13 : c.toNat = 13
                · have he : esc c = ['\\', 'r'] := by
                    rw [esc]
                    simp only [if_neg h1, if_neg h2, if_neg h8, if_neg h9, if_neg h10,
                      if_neg h12, if_pos h13]
                  rw [he, psf_r, hIH,
                    show Char.ofNat 13 = c from h13 ▸ Char.ofNat_toNat c]
                  rfl
                · by_cases hpr : 0x20 ≤ c.toNat ∧ c.toNat ≤ 0x7E
                  · have he : esc c = [c] := by
                      rw [esc]
                      simp only [if_neg h1, if_neg h2, if_neg h8, if_neg h9, if_neg h10,
                        if_neg h12, if_neg h13]
                      rw [if_pos]
                      simp only [Bool.and_eq_true, decide_eq_true_eq]
                      omega
                    rw [he]
                    show parseStringF (f + 1)
                      (c :: ((s₂.map esc).flatten ++ '"' :: rest)) = some (c :: s₂, rest)
                    rw [parseStringF.eq_def]
                    simp only [if_neg h1, if_neg h2,
                      if_neg (by omega : ¬(c.toNat < 0x20)), hIH]
                    rfl
                  · have hval : c.toNat < 0xD800
                        ∨ (0xDFFF < c.toNat ∧ c.toNat < 0x110000) := c.valid
                    by_cases hbmp : c.toNat < 0x10000
                    · have he : esc c = '\\' :: 'u' :: hex4 c.toNat := by
                        rw [esc]
                        simp only [if_neg h1, if_neg h2, if_neg h8, if_neg h9,
                          if_neg h10, if_neg h12, if_neg h13]
                        rw [if_neg, if_pos hbmp]
                        simp only [Bool.and_eq_true, decide_eq_true_eq]
                        omega
                      rw [he]
                      show parseStringF (f + 1)
                        ('\\' :: 'u' :: (hex4 c.toNat
                          ++ ((s₂.map esc).flatten ++ '"' :: rest)))
                        = some (c :: s₂, rest)
                      rw [parseStringF.eq_def]
                      have hs1 : (decide (55296 ≤ c.toNat) && decide (c.toNat ≤ 56319))
                          = false := by
                        simp only [Bool.and_eq_false_iff, decide_eq_false_iff_not]
                        omega
                      have hs2 : (decide (56320 ≤ c.toNat) && decide (c.toNat ≤ 57343))
                          = false := by
                        simp only [Bool.and_eq_false_iff, decide_eq_false_iff_not]
                        omega
                      simp only [if_neg (by decide : ¬(('\\' : Char) = '"')),
                        if_pos (rfl : ('\\' : Char) = '\\'),
                        if_pos (rfl : ('u' : Char) = 'u'),
                        parseHex4_hex4 c.toNat (by omega) _,
                        hs1, hs2, Bool.false_eq_true, if_false, hIH]
                      rw [Char.ofNat_toNat c]
                      rfl
                    · have hup : c.toNat < 0x110000 := by
                        rcases hval with h | ⟨_, h⟩
                        · omega
                        · exact h
                      have he : esc c = '\\' :: 'u'
                          :: hex4 (0xD800 + (c.toNat - 0x10000) / 0x400)
                          ++ '\\' :: 'u'
                          :: hex4 (0xDC00 + (c.toNat - 0x10000) % 0x400) := by
                        rw [esc]
                        simp only [if_neg h1, if_neg h2, if_neg h8, if_neg h9,
                          if_neg h10, if_neg h12, if_neg h13, if_neg hbmp]
                        rw [if_neg]
                        simp only [Bool.and_eq_true, decide_eq_true_eq]
                        omega
                      rw [he]
                      show parseStringF (f + 1)
                        ('\\' :: 'u' :: (hex4 (0xD800 + (c.toNat - 0x10000) / 0x400)
                          ++ ('\\' :: 'u'
                            :: (hex4 (0xDC00 + (c.toNat - 0x10000) % 0x400)
                              ++ ((s₂.map esc).flatten ++ '"' :: rest)))))
                        = some (c :: s₂, rest)
                      rw [parseStringF.eq_def]
                      have hs1 : (decide (55296 ≤ 55296 + (c.toNat - 65536) / 1024)
                          && decide (55296 + (c.toNat - 65536) / 1024 ≤ 56319))
                          = true := by
                        simp only [Bool.and_eq_true, decide_eq_true_eq]
                        omega
                      have hs2 : (decide (56320 ≤ 56320 + (c.toNat - 65536) % 1024)
                          && decide (56320 + (c.toNat - 65536) % 1024 ≤ 57343))
                          = true := by
                        simp only [Bool.and_eq_true, decide_eq_true_eq]
                        omega
                      have hbu : (decide (('\\' : Char) = '\\')
                          && decide (('u' : Char) = 'u')) = true := by decide
                      simp only [if_neg (by decide : ¬(('\\' : Char) = '"')),
                        if_pos (rfl : ('\\' : Char) = '\\'),
                        if_pos (rfl : ('u' : Char) = 'u'),
                        parseHex4_hex4 _ (by omega : 0xD800
                          + (c.toNat - 0x10000) / 0x400 < 65536) _,
                        parseHex4_hex4 _ (by omega : 0xDC00
                          + (c.toNat - 0x10000) % 0x400 < 65536) _,
                        hs1, hs2, hbu, eq_self_iff_true, if_true, hIH]
                      have hcomb : 65536 + (55296 + (c.toNat - 65536) / 1024 - 55296)
                          * 1024 + (56320 + (c.toNat - 65536) % 1024 - 56320)
                          = c.toNat := by
                        omega
                      rw [hcomb, Char.ofNat_toNat c]
                      rfl

theorem natDecChars_digits (fuel n : Nat) (h : n < fuel) :
    ∀ c ∈ natDecChars fuel n, c.isDigit = true := by
  induction fuel generalizing n with
  | zero => omega
  | succ f ih =>
    rw [natDecChars]
    by_cases h10 : n < 10
    · rw [if_pos h10]
      intro c hc
      rw [List.mem_singleton] at hc
      subst hc
      interval_cases n <;> decide
    · rw [if_neg h10]
      intro c hc
      rw [List.mem_append] at hc
      rcases hc with hc | hc
      · exact ih (n / 10) (by omega) c hc
      · rw [List.mem_singleton] at hc
        subst hc
        have hm : n % 10 < 10 := Nat.mod_lt _ (by omega)
        interval_cases hmm : (n % 10) <;> simp_all <;> decide

theorem natDecChars_head_ne_zero (fuel n : Nat) (h : n < fuel) (h1 : 1 ≤ n) :
    ∃ c t, natDecChars fuel n = c :: t ∧ c ≠ '0' := by
  induction fuel generalizing n with
  | zero => omega
  | succ f ih =>
    rw [natDecChars]
    by_cases h10 : n < 10
    · rw [if_pos h10]
      refine ⟨decDigit n, [], rfl, ?_⟩
      interval_cases n <;> decide
    · rw [if_neg h10]
      obtain ⟨c, t, hct, hc⟩ := ih (n / 10) (by omega) (by omega)
      exact ⟨c, t ++ [decDigit (n % 10)], by rw [hct]; rfl, hc⟩

theorem takeWhile_append_all {p : Char → Bool} :
    ∀ (l rest : Str), (∀ c ∈ l, p c = true) →
      (∀ c, rest.head? = some c → p c = false) →
      (l ++ rest).takeWhile p = l ∧ (l ++ rest).dropWhile p = rest := by
  intro l
  induction l with
  | nil =>
    intro rest _ hrest
    cases rest with
    | nil => exact ⟨rfl, rfl⟩
    | cons c r =>
      constructor
      · rw [List.nil_append, List.takeWhile_cons, hrest c rfl]
        rfl
      · rw [List.nil_append, List.dropWhile_cons, hrest c rfl]
        rfl
  | cons a l₂ ih =>
    intro rest hall hrest
    have ha : p a = true := hall a (List.mem_cons_self _ _)
    obtain ⟨h₁, h₂⟩ := ih rest (fun c hc => hall c (List.mem_cons_of_mem _ hc)) hrest
    constructor
    · rw [List.cons_append, List.takeWhile_cons, ha, h₁]
      rfl
    · rw [List.cons_append, List.dropWhile_cons, ha, h₂]
      rfl

theorem parseNumTail_digits (neg : Bool) (c : Char) (t rest : Str)
    (hc : c.isDigit = true) (hc0 : c = '0' → t = [])
    (ht : ∀ d ∈ t, d.isDigit = true)
    (hb : ∀ d, rest.head? = some d →
      d.isDigit = false ∧ d ≠ '.' ∧ d ≠ 'e' ∧ d ≠ 'E') :
    parseNumTail neg (c :: (t ++ rest))
      = some (if neg then -(decValue (c :: t) : Int) else (decValue (c :: t) : Int),
          rest) := by
  have hdr : parseDigitsRun c (t ++ rest) = (c :: t, rest) := by
    rw [parseDigitsRun]
    by_cases h0 : c = '0'
    · rw [if_pos h0]
      have ht0 := hc0 h0
      subst ht0
      rfl
    · rw [if_neg h0]
      obtain ⟨h₁, h₂⟩ := takeWhile_append_all t rest ht (fun d hd => (hb d hd).1)
      rw [h₁, h₂]
  rw [parseNumTail.eq_def]
  simp only [hc, Bool.not_true, Bool.false_eq_true, if_false, hdr]
  cases rest with
  | nil => rfl
  | cons d r =>
    have hg : (d = '.' || d = 'e' || d = 'E') = false := by
      simp only [Bool.or_eq_false_iff, decide_eq_false_iff_not]
      exact ⟨⟨(hb d rfl).2.1, (hb d rfl).2.2.1⟩, (hb d rfl).2.2.2⟩
    simp only [hg, Bool.false_eq_true, if_false]

theorem parseNumber_pyIntStr (n : Int) (rest : Str)
    (hb : ∀ d, rest.head? = some d →
      d.isDigit = false ∧ d ≠ '.' ∧ d ≠ 'e' ∧ d ≠ 'E') :
    parseNumber (pyIntStr n ++ rest) = some (n, rest) := by
  have hdig : ∀ d ∈ natDecChars (n.natAbs + 1) n.natAbs, d.isDigit = true :=
    natDecChars_digits _ _ (by omega)
  by_cases hz : n.natAbs = 0
  · have hn0 : n = 0 := by omega
    subst hn0
    rw [show pyIntStr 0 = ['0'] from rfl]
    show parseNumber ('0' :: ([] ++ rest)) = some (0, rest)
    rw [parseNumber]
    rw [if_neg (by decide : ¬(('0' : Char) = '-'))]
    rw [parseNumTail_digits false '0' [] rest (by decide) (fun _ => rfl)
      (fun d hd => absurd hd (List.not_mem_nil _)) hb]
    rfl
  · obtain ⟨c, t, hct, hc0⟩ := natDecChars_head_ne_zero (n.natAbs + 1) n.natAbs
      (by omega) (by omega)
    have hcd : c.isDigit = true := hdig c (by rw [hct]; exact List.mem_cons_self _ _)
    have htd : ∀ d ∈ t, d.isDigit = true := fun d hd =>
      hdig d (by rw [hct]; exact List.mem_cons_of_mem _ hd)
    have hdv : decValue (c :: t) = n.natAbs := by
      rw [← hct]
      exact decValue_natDecChars (n.natAbs + 1) n.natAbs (by omega)
    by_cases hneg : n < 0
    · rw [pyIntStr, if_pos hneg]
      rw [show pyStrNat n.natAbs = c :: t from hct]
      show parseNumber ('-' :: (c :: (t ++ rest))) = some (n, rest)
      rw [parseNumber]
      rw [if_pos rfl]
      rw [parseNumTail_digits true c t rest hcd (fun h => absurd h hc0) htd hb]
      rw [if_pos rfl, hdv]
      congr 1
      rw [Prod.mk.injEq]
      refine ⟨?_, rfl⟩
      omega
    · rw [pyIntStr, if_neg hneg]
      rw [show pyStrNat n.natAbs = c :: t from hct]
      show parseNumber (c :: (t ++ rest)) = some (n, rest)
      rw [parseNumber]
      have hcm : ¬(c = '-') := by
        intro he
        subst he
        exact absurd hcd (by decide)
      rw [if_neg hcm]
      rw [parseNumTail_digits false c t rest hcd (fun h => absurd h hc0) htd hb]
      rw [if_neg (by decide : ¬(false = true)), hdv]
      congr 1
      rw [Prod.mk.injEq]
      refine ⟨?_, rfl⟩
      omega

theorem dropLit_self : ∀ (p rest : Str), dropLit p (p ++ rest) = some rest := by
  intro p
  induction p with
  | nil => intro rest; rfl
  | cons a p₂ ih =>
    intro rest
    show dropLit (a :: p₂) (a :: (p₂ ++ rest)) = some rest
    rw [dropLit, if_pos rfl]
    exact ih rest

theorem skipWs_idem (s : Str) : skipWs (skipWs s) = skipWs s := by
  induction s with
  | nil => rfl
  | cons c r ih =>
    rw [skipWs]
    by_cases h : isJsonWs c = true
    · rw [if_pos h]
      exact ih
    · rw [if_neg h, skipWs, if_neg h]

theorem skipWs_cons_of_ws (c : Char) (s : Str) (h : isJsonWs c = true) :
    skipWs (c :: s) = skipWs s := by
  rw [skipWs, if_pos h]

theorem skipWs_cons_of_not_ws (c : Char) (s : Str) (h : isJsonWs c = false) :
    skipWs (c :: s) = c :: s := by
  rw [skipWs, if_neg (by rw [h]; exact Bool.false_ne_true)]

theorem parseValue_skipWs_congr (f : Nat) (s₁ s₂ : Str)
    (h : skipWs s₁ = skipWs s₂) : parseValue f s₁ = parseValue f s₂ := by
  cases f with
  | zero => rfl
  | succ f => rw [parseValue, parseValue, h]

theorem parseArrItems_skipWs_congr (f : Nat) (s₁ s₂ : Str)
    (h : skipWs s₁ = skipWs s₂) : parseArrItems f s₁ = parseArrItems f s₂ := by
  cases f with
  | zero => rfl
  | succ f =>
    rw [parseArrItems, parseArrItems, parseValue_skipWs_congr f s₁ s₂ h]

theorem parseObjItems_skipWs_congr (f : Nat) (s₁ s₂ : Str)
    (h : skipWs s₁ = skipWs s₂) : parseObjItems f s₁ = parseObjItems f s₂ := by
  cases f with
  | zero => rfl
  | succ f => rw [parseObjItems, parseObjItems, h]

/-- The first character of a rendered value decides its grammar class. -/
theorem dumps_head (x : PyJson) :
    ∃ c t, dumps x = c :: t
      ∧ (c = '"' ∨ c = '[' ∨ c = '{' ∨ c = 'n' ∨ c = 't' ∨ c = 'f'
        ∨ c = '-' ∨ c.isDigit = true) := by
  cases x with
  | null => exact ⟨'n', litS "ull", rfl, by decide⟩
  | bool b =>
    cases b with
    | true => exact ⟨'t', litS "rue", rfl, by decide⟩
    | false => exact ⟨'f', litS "alse", rfl, by decide⟩
  | int n =>
    show ∃ c t, pyIntStr n = c :: t ∧ _
    rw [pyIntStr]
    by_cases hneg : n < 0
    · rw [if_pos hneg]
      exact ⟨'-', pyStrNat n.natAbs, rfl, by decide⟩
    · rw [if_neg hneg]
      cases hps : pyStrNat n.natAbs with
      | nil => exact absurd hps (pyStrNat_ne_nil _)
      | cons c t =>
        refine ⟨c, t, rfl, ?_⟩
        have hc : c.isDigit = true := by
          have := natDecChars_digits (n.natAbs + 1) n.natAbs (by omega) c
          rw [show natDecChars (n.natAbs + 1) n.natAbs = pyStrNat n.natAbs from rfl,
            hps] at this
          exact this (List.mem_cons_self _ _)
        exact Or.inr (Or.inr (Or.inr (Or.inr (Or.inr (Or.inr (Or.inr hc))))))
  | str s => exact ⟨'"', (s.map esc).flatten ++ ['"'], rfl, by decide⟩
  | arr xs => exact ⟨'[', dumpsItems xs ++ [']'], rfl, by decide⟩
  | obj kvs => exact ⟨'{', dumpsEntries kvs ++ ['}'], rfl, by decide⟩

/-- Properties of a value's first character needed to steer the parser. -/
theorem dumps_head_props (c : Char)
    (h : c = '"' ∨ c = '[' ∨ c = '{' ∨ c = 'n' ∨ c = 't' ∨ c = 'f'
      ∨ c = '-' ∨ c.isDigit = true) :
    isJsonWs c = false ∧ ¬(c = ']') ∧ ¬(c = '}') := by
  rcases h with h | h | h | h | h | h | h | h
  · subst h; exact ⟨by decide, by decide, by decide⟩
  · subst h; exact ⟨by decide, by decide, by decide⟩
  · subst h; exact ⟨by decide, by decide, by decide⟩
  · subst h; exact ⟨by decide, by decide, by decide⟩
  · subst h; exact ⟨by decide, by decide, by decide⟩
  · subst h; exact ⟨by decide, by decide, by decide⟩
  · subst h; exact ⟨by decide, by decide, by decide⟩
  · have hd : 48 ≤ c.toNat ∧ c.toNat ≤ 57 := by
      simpa [Char.isDigit] using h
    refine ⟨?_, ?_, ?_⟩
    · rw [isJsonWs]
      have h₁ : ¬(c = ' ') := fun he => by
        rw [he] at hd; exact absurd hd (by decide)
      have h₂ : ¬(c = '\t') := fun he => by
        rw [he] at hd; exact absurd hd (by decide)
      have h₃ : ¬(c = '\n') := fun he => by
        rw [he] at hd; exact absurd hd (by decide)
      have h₄ : ¬(c = '\r') := fun he => by
        rw [he] at hd; exact absurd hd (by decide)
      simp [h₁, h₂, h₃, h₄]
    · exact fun he => by rw [he] at hd; exact absurd hd (by decide)
    · exact fun he => by rw [he] at hd; exact absurd hd (by decide)

/-- The first character of a number is neither a quote, bracket, brace nor a
keyword head, and satisfies the number dispatch test. -/
theorem numHead_props (c : Char) (h : c = '-' ∨ c.isDigit = true) :
    ¬(c = '"') ∧ ¬(c = '[') ∧ ¬(c = '{') ∧ ¬(c = 'n') ∧ ¬(c = 't') ∧ ¬(c = 'f')
      ∧ (c = '-' || c.isDigit) = true := by
  rcases h with h | h
  · subst h
    exact ⟨by decide, by decide, by decide, by decide, by decide, by decide, by decide⟩
  · have hd : 48 ≤ c.toNat ∧ c.toNat ≤ 57 := by
      simpa [Char.isDigit] using h
    refine ⟨?_, ?_, ?_, ?_, ?_, ?_, ?_⟩
    · exact fun he => by rw [he] at hd; exact absurd hd (by decide)
    · exact fun he => by rw [he] at hd; exact absurd hd (by decide)
    · exact fun he => by rw [he] at hd; exact absurd hd (by decide)
    · exact fun he => by rw [he] at hd; exact absurd hd (by decide)
    · exact fun he => by rw [he] at hd; exact absurd hd (by decide)
    · exact fun he => by rw [he] at hd; exact absurd hd (by decide)
    · rw [h, Bool.or_true]

theorem dumpsItems_cons (y : PyJson) (ys : PJItems) :
    ∃ T, dumpsItems (.cons y ys) = dumps y ++ T := by
  cases ys with
  | nil => exact ⟨[], (List.append_nil _).symm⟩
  | cons z zs =>
    exact ⟨litS ", " ++ dumpsItems (.cons z zs),
      by rw [dumpsItems, List.append_assoc]⟩

theorem pyIntStr_head (n : Int) :
    ∃ c t, pyIntStr n = c :: t ∧ (c = '-' ∨ c.isDigit = true) := by
  rw [pyIntStr]
  by_cases hneg : n < 0
  · rw [if_pos hneg]
    exact ⟨'-', pyStrNat n.natAbs, rfl, Or.inl rfl⟩
  · rw [if_neg hneg]
    cases hps : pyStrNat n.natAbs with
    | nil => exact absurd hps (pyStrNat_ne_nil _)
    | cons c t =>
      refine ⟨c, t, rfl, Or.inr ?_⟩
      have := natDecChars_digits (n.natAbs + 1) n.natAbs (by omega) c
      rw [show natDecChars (n.natAbs + 1) n.natAbs = pyStrNat n.natAbs from rfl,
        hps] at this
      exact this (List.mem_cons_self _ _)

theorem numHead_not_ws (c : Char) (h : c = '-' ∨ c.isDigit = true) :
    isJsonWs c = false := by
  rcases h with h | h
  · subst h; decide
  · have hd : 48 ≤ c.toNat ∧ c.toNat ≤ 57 := by
      simpa [Char.isDigit] using h
    rw [isJsonWs]
    have h₁ : ¬(c = ' ') := fun he => by
      rw [he] at hd; exact absurd hd (by decide)
    have h₂ : ¬(c = '\t') := fun he => by
      rw [he] at hd; exact absurd hd (by decide)
    have h₃ : ¬(c = '\n') := fun he => by
      rw [he] at hd; exact absurd hd (by decide)
    have h₄ : ¬(c = '\r') := fun he => by
      rw [he] at hd; exact absurd hd (by decide)
    simp [h₁, h₂, h₃, h₄]

theorem dumpsEntries_head (k : Str) (v : PyJson) (kvs : PJEntries) :
    ∃ E, dumpsEntries (.cons k v kvs) = '"' :: E
      ∧ E = (k.map esc).flatten ++ '"' :: (':' :: ' ' :: dumps v
          ++ (match kvs with
              | .nil => ([] : Str)
              | .cons k₂ v₂ kvs₂ => ',' :: ' ' :: dumpsEntries (.cons k₂ v₂ kvs₂))) := by
  cases kvs with
  | nil =>
    refine ⟨_, ?_, rfl⟩
    rw [dumpsEntries]
    rw [show dumpsStr k = '"' :: ((k.map esc).flatten ++ ['"']) from rfl]
    rw [List.cons_append, List.append_assoc]
    rw [List.append_nil]
    rfl
  | cons k₂ v₂ kvs₂ =>
    refine ⟨_, ?_, rfl⟩
    rw [dumpsEntries]
    rw [show dumpsStr k = '"' :: ((k.map esc).flatten ++ ['"']) from rfl]
    simp only [List.cons_append, List.append_assoc]
    rfl

theorem skipWs_space (s : Str) : skipWs (' ' :: s) = skipWs s :=
  skipWs_cons_of_ws _ _ (by decide)

theorem bnd_rbracket (r : Str) :
    ∀ d, ((']' :: r).head? = some d) →
      d.isDigit = false ∧ d ≠ '.' ∧ d ≠ 'e' ∧ d ≠ 'E' := by
  intro d hd
  rw [List.head?_cons, Option.some.injEq] at hd
  subst hd
  exact ⟨by decide, by decide, by decide, by decide⟩

theorem bnd_rbrace (r : Str) :
    ∀ d, (('}' :: r).head? = some d) →
      d.isDigit = false ∧ d ≠ '.' ∧ d ≠ 'e' ∧ d ≠ 'E' := by
  intro d hd
  rw [List.head?_cons, Option.some.injEq] at hd
  subst hd
  exact ⟨by decide, by decide, by decide, by decide⟩

theorem bnd_comma (r : Str) :
    ∀ d, ((',' :: r).head? = some d) →
      d.isDigit = false ∧ d ≠ '.' ∧ d ≠ 'e' ∧ d ≠ 'E' := by
  intro d hd
  rw [List.head?_cons, Option.some.injEq] at hd
  subst hd
  exact ⟨by decide, by decide, by decide, by decide⟩

/-- The decoder inverts the encoder, simultaneously for values, array items
and object entries: parsing a rendered value consumes exactly its rendering.
The fuel bounds mirror the renderings' lengths. -/
theorem parse_dumps_all : ∀ fuel : Nat,
    (∀ x rest, (∀ d, rest.head? = some d →
        d.isDigit = false ∧ d ≠ '.' ∧ d ≠ 'e' ∧ d ≠ 'E') →
      (dumps x).length < fuel →
      parseValue fuel (dumps x ++ rest) = some (x, rest))
    ∧ (∀ y ys rest, (dumpsItems (.cons y ys)).length + 1 < fuel →
      parseArrItems fuel (dumpsItems (.cons y ys) ++ ']' :: rest)
        = some (.cons y ys, rest))
    ∧ (∀ k v kvs rest, (dumpsEntries (.cons k v kvs)).length + 1 < fuel →
      parseObjItems fuel (dumpsEntries (.cons k v kvs) ++ '}' :: rest)
        = some (.cons k v kvs, rest)) := by
  intro fuel
  induction fuel using Nat.strong_induction_on with
  | _ fuel ih =>
  refine ⟨?_, ?_, ?_⟩
  · intro x rest hb hlen
    obtain ⟨F, rfl⟩ : ∃ F, fuel = F + 1 := ⟨fuel - 1, by omega⟩
    cases x with
    | null =>
      rw [parseValue]
      rw [show dumps PyJson.null ++ rest = 'n' :: (litS "ull" ++ rest) from rfl]
      rw [skipWs_cons_of_not_ws _ _ (by decide)]
      simp only [if_neg (by decide : ¬(('n' : Char) = '"')),
        if_neg (by decide : ¬(('n' : Char) = '[')),
        if_neg (by decide : ¬(('n' : Char) = '{')),
        if_pos (rfl : ('n' : Char) = 'n'),
        dropLit_self (litS "ull") rest]
      rfl
    | bool b =>
      cases b with
      | true =>
        rw [parseValue]
        rw [show dumps (PyJson.bool true) ++ rest = 't' :: (litS "rue" ++ rest) from rfl]
        rw [skipWs_cons_of_not_ws _ _ (by decide)]
        simp only [if_neg (by decide : ¬(('t' : Char) = '"')),
          if_neg (by decide : ¬(('t' : Char) = '[')),
          if_neg (by decide : ¬(('t' : Char) = '{')),
          if_neg (by decide : ¬(('t' : Char) = 'n')),
          if_pos (rfl : ('t' : Char) = 't'),
          dropLit_self (litS "rue") rest]
        rfl
      | false =>
        rw [parseValue]
        rw [show dumps (PyJson.bool false) ++ rest
          = 'f' :: (litS "alse" ++ rest) from rfl]
        rw [skipWs_cons_of_not_ws _ _ (by decide)]
        simp only [if_neg (by decide : ¬(('f' : Char) = '"')),
          if_neg (by decide : ¬(('f' : Char) = '[')),
          if_neg (by decide : ¬(('f' : Char) = '{')),
          if_neg (by decide : ¬(('f' : Char) = 'n')),
          if_neg (by decide : ¬(('f' : Char) = 't')),
          if_pos (rfl : ('f' : Char) = 'f'),
          dropLit_self (litS "alse") rest]
        rfl
    | int n =>
      obtain ⟨c, t, hct, hcl⟩ := pyIntStr_head n
      obtain ⟨hq, hlb, hcb, hn, ht', hf', hnum⟩ := numHead_props c hcl
      have hws := numHead_not_ws c hcl
      rw [parseValue]
      rw [show dumps (PyJson.int n) ++ rest = pyIntStr n ++ rest from rfl, hct]
      rw [show (c :: t) ++ rest = c :: (t ++ rest) from rfl]
      rw [skipWs_cons_of_not_ws _ _ hws]
      simp only [if_neg hq, if_neg hlb, if_neg hcb, if_neg hn, if_neg ht',
        if_neg hf', hnum, eq_self_iff_true, if_true]
      rw [show c :: (t ++ rest) = (c :: t) ++ rest from rfl, ← hct]
      rw [parseNumber_pyIntStr n rest hb]
      rfl
    | str s =>
      rw [parseValue]
      rw [show dumps (PyJson.str s) ++ rest
          = '"' :: ((s.map esc).flatten ++ '"' :: rest) from by
        show ('"' :: ((s.map esc).flatten ++ ['"'])) ++ rest = _
        rw [List.cons_append, List.append_assoc]
        rfl]
      rw [skipWs_cons_of_not_ws _ _ (by decide)]
      simp only [if_pos (rfl : ('"' : Char) = '"')]
      rw [parseStringF_dumps s _ rest (by
        have h₁ := length_le_escFlatten s
        rw [List.length_append, List.length_cons]
        omega)]
      rfl
    | arr xs =>
      cases xs with
      | nil =>
        rw [parseValue]
        rw [show dumps (PyJson.arr PJItems.nil) ++ rest = '[' :: (']' :: rest) from rfl]
        rw [skipWs_cons_of_not_ws _ _ (by decide)]
        simp only [if_neg (by decide : ¬(('[' : Char) = '"')),
          if_pos (rfl : ('[' : Char) = '['), eq_self_iff_true, if_true]
        rw [skipWs_cons_of_not_ws _ _ (by decide : isJsonWs ']' = false)]
        simp only [if_pos (rfl : (']' : Char) = ']'), eq_self_iff_true, if_true]
      | cons y ys =>
        obtain ⟨c₂, t₂, hdy, hcl₂⟩ := dumps_head y
        obtain ⟨hws₂, hne₂, _⟩ := dumps_head_props c₂ hcl₂
        obtain ⟨T, hT⟩ := dumpsItems_cons y ys
        have hitems : dumpsItems (.cons y ys) ++ ']' :: rest
            = c₂ :: (t₂ ++ (T ++ ']' :: rest)) := by
          rw [hT, hdy]
          rw [List.cons_append, List.cons_append, List.append_assoc]
        have hsplit : dumps (PyJson.arr (.cons y ys)) ++ rest
            = '[' :: (dumpsItems (.cons y ys) ++ ']' :: rest) := by
          rw [dumps]
          rw [List.append_assoc, List.cons_append]
          rfl
        rw [parseValue, hsplit]
        rw [skipWs_cons_of_not_ws _ _ (by decide)]
        simp only [if_neg (by decide : ¬(('[' : Char) = '"')),
          if_pos (rfl : ('[' : Char) = '[')]
        rw [hitems, skipWs_cons_of_not_ws _ _ hws₂]
        simp only [if_neg hne₂]
        rw [← hitems]
        have hlarr : (dumps (PyJson.arr (.cons y ys))).length
            = (dumpsItems (.cons y ys)).length + 2 := by
          rw [dumps, List.length_append, List.length_cons]
          rfl
        rw [(ih F (by omega)).2.1 y ys rest (by omega)]
        rfl
    | obj kvs =>
      cases kvs with
      | nil =>
        rw [parseValue]
        rw [show dumps (PyJson.obj PJEntries.nil) ++ rest
          = '{' :: ('}' :: rest) from rfl]
        rw [skipWs_cons_of_not_ws _ _ (by decide)]
        simp only [if_neg (by decide : ¬(('{' : Char) = '"')),
          if_neg (by decide : ¬(('{' : Char) = '[')),
          if_pos (rfl : ('{' : Char) = '{'), eq_self_iff_true, if_true]
        rw [skipWs_cons_of_not_ws _ _ (by decide : isJsonWs '}' = false)]
        simp only [if_pos (rfl : ('}' : Char) = '}'), eq_self_iff_true, if_true]
      | cons k v kvs₂ =>
        obtain ⟨E, hEeq, _⟩ := dumpsEntries_head k v kvs₂
        have hent : dumpsEntries (.cons k v kvs₂) ++ '}' :: rest
            = '"' :: (E ++ '}' :: rest) := by
          rw [hEeq, List.cons_append]
        have hsplit : dumps (PyJson.obj (.cons k v kvs₂)) ++ rest
            = '{' :: (dumpsEntries (.cons k v kvs₂) ++ '}' :: rest) := by
          rw [dumps]
          rw [List.append_assoc, List.cons_append]
          rfl
        rw [parseValue, hsplit]
        rw [skipWs_cons_of_not_ws _ _ (by decide)]
        simp only [if_neg (by decide : ¬(('{' : Char) = '"')),
          if_neg (by decide : ¬(('{' : Char) = '[')),
          if_pos (rfl : ('{' : Char) = '{')]
        rw [hent, skipWs_cons_of_not_ws _ _ (by decide : isJsonWs '"' = false)]
        simp only [if_neg (by decide : ¬(('"' : Char) = '}'))]
        rw [← hent]
        have hlobj : (dumps (PyJson.obj (.cons k v kvs₂))).length
            = (dumpsEntries (.cons k v kvs₂)).length + 2 := by
          rw [dumps, List.length_append, List.length_cons]
          rfl
        rw [(ih F (by omega)).2.2 k v kvs₂ rest (by omega)]
        rfl
  · intro y ys rest hlen
    obtain ⟨F, rfl⟩ : ∃ F, fuel = F + 1 := ⟨fuel - 1, by omega⟩
    rw [parseArrItems]
    cases ys with
    | nil =>
      have hly : (dumpsItems (.cons y PJItems.nil)).length = (dumps y).length := by
        rw [show dumpsItems (.cons y .nil) = dumps y from rfl]
      rw [show dumpsItems (.cons y .nil) = dumps y from rfl]
      rw [(ih F (by omega)).1 y (']' :: rest) (bnd_rbracket rest) (by omega)]
      simp only [skipWs_cons_of_not_ws ']' rest (by decide),
        if_neg (by decide : ¬((']' : Char) = ',')),
        if_pos (rfl : (']' : Char) = ']'), eq_self_iff_true, if_true]
    | cons z zs =>
      have hsep : (litS ", ").length = 2 := rfl
      have hsp : dumpsItems (.cons y (.cons z zs)) ++ ']' :: rest
          = dumps y ++ (',' :: ' ' :: (dumpsItems (.cons z zs) ++ ']' :: rest)) := by
        rw [dumpsItems]
        rw [List.append_assoc, List.append_assoc]
        rfl
      have hli : (dumpsItems (.cons y (.cons z zs))).length
          = (dumps y).length + 2 + (dumpsItems (.cons z zs)).length := by
        rw [dumpsItems]
        rw [List.length_append, List.length_append, hsep]
      rw [hsp]
      rw [(ih F (by omega)).1 y
        (',' :: ' ' :: (dumpsItems (.cons z zs) ++ ']' :: rest))
        (bnd_comma _) (by omega)]
      simp only [skipWs_cons_of_not_ws ','
          (' ' :: (dumpsItems (.cons z zs) ++ ']' :: rest)) (by decide),
        if_pos (rfl : (',' : Char) = ','), eq_self_iff_true, if_true,
        parseArrItems_skipWs_congr F
          (' ' :: (dumpsItems (.cons z zs) ++ ']' :: rest))
          (dumpsItems (.cons z zs) ++ ']' :: rest) (skipWs_space _),
        (ih F (by omega)).2.1 z zs rest (by omega)]
      rfl
  · intro k v kvs rest hlen
    obtain ⟨F, rfl⟩ : ∃ F, fuel = F + 1 := ⟨fuel - 1, by omega⟩
    have hlstr : (dumpsStr k).length = ((k.map esc).flatten).length + 2 := by
      rw [dumpsStr]
      rw [List.length_append, List.length_cons]
      rfl
    rw [parseObjItems]
    cases kvs with
    | nil =>
      have hsp : dumpsEntries (.cons k v .nil) ++ '}' :: rest
          = '"' :: ((k.map esc).flatten ++ '"' :: (':' :: ' '
            :: (dumps v ++ '}' :: rest))) := by
        rw [dumpsEntries]
        rw [show dumpsStr k = '"' :: ((k.map esc).flatten ++ ['"']) from rfl]
        simp only [List.cons_append, List.append_assoc]
        rfl
      have hle : (dumpsEntries (.cons k v PJEntries.nil)).length
          = (dumpsStr k).length + 2 + (dumps v).length := by
        rw [dumpsEntries]
        rw [List.length_append, List.length_cons, List.length_cons]
        omega
      rw [hsp]
      rw [skipWs_cons_of_not_ws _ _ (by decide : isJsonWs '"' = false)]
      simp only [if_pos (rfl : ('"' : Char) = '"')]
      rw [parseStringF_dumps k _ _ (by
        have h₁ := length_le_escFlatten k
        rw [List.length_append, List.length_cons]
        omega)]
      simp only [skipWs_cons_of_not_ws ':' (' ' :: (dumps v ++ '}' :: rest))
          (by decide),
        if_pos (rfl : (':' : Char) = ':'), eq_self_iff_true, if_true,
        parseValue_skipWs_congr F (' ' :: (dumps v ++ '}' :: rest))
          (dumps v ++ '}' :: rest) (skipWs_space _),
        (ih F (by omega)).1 v ('}' :: rest) (bnd_rbrace rest) (by omega),
        skipWs_cons_of_not_ws '}' rest (by decide),
        if_neg (by decide : ¬(('}' : Char) = ',')),
        if_pos (rfl : ('}' : Char) = '}')]
    | cons k₂ v₂ kvs₂ =>
      have hsep : (litS ", ").length = 2 := rfl
      have hsp : dumpsEntries (.cons k v (.cons k₂ v₂ kvs₂)) ++ '}' :: rest
          = '"' :: ((k.map esc).flatten ++ '"' :: (':' :: ' '
            :: (dumps v ++ ',' :: ' '
              :: (dumpsEntries (.cons k₂ v₂ kvs₂) ++ '}' :: rest)))) := by
        rw [dumpsEntries]
        rw [show dumpsStr k = '"' :: ((k.map esc).flatten ++ ['"']) from rfl]
        simp only [List.cons_append, List.append_assoc]
        rfl
      have hle : (dumpsEntries (.cons k v (.cons k₂ v₂ kvs₂))).length
          = (dumpsStr k).length + 2 + (dumps v).length + 2
            + (dumpsEntries (.cons k₂ v₂ kvs₂)).length := by
        rw [dumpsEntries]
        rw [List.length_append, List.length_append, List.length_append,
          List.length_cons, List.length_cons, hsep]
        omega
      rw [hsp]
      rw [skipWs_cons_of_not_ws _ _ (by decide : isJsonWs '"' = false)]
      simp only [if_pos (rfl : ('"' : Char) = '"')]
      rw [parseStringF_dumps k _ _ (by
        have h₁ := length_le_escFlatten k
        rw [List.length_append, List.length_cons]
        omega)]
      simp only [skipWs_cons_of_not_ws ':'
          (' ' :: (dumps v ++ ',' :: ' '
            :: (dumpsEntries (.cons k₂ v₂ kvs₂) ++ '}' :: rest))) (by decide),
        if_pos (rfl : (':' : Char) = ':'), eq_self_iff_true, if_true,
        parseValue_skipWs_congr F
          (' ' :: (dumps v ++ ',' :: ' '
            :: (dumpsEntries (.cons k₂ v₂ kvs₂) ++ '}' :: rest)))
          (dumps v ++ ',' :: ' '
            :: (dumpsEntries (.cons k₂ v₂ kvs₂) ++ '}' :: rest)) (skipWs_space _),
        (ih F (by omega)).1 v
          (',' :: ' ' :: (dumpsEntries (.cons k₂ v₂ kvs₂) ++ '}' :: rest))
          (bnd_comma _) (by omega),
        skipWs_cons_of_not_ws ','
          (' ' :: (dumpsEntries (.cons k₂ v₂ kvs₂) ++ '}' :: rest)) (by decide),
        if_pos (rfl : (',' : Char) = ','),
        parseObjItems_skipWs_congr F
          (' ' :: (dumpsEntries (.cons k₂ v₂ kvs₂) ++ '}' :: rest))
          (dumpsEntries (.cons k₂ v₂ kvs₂) ++ '}' :: rest) (skipWs_space _),
        (ih F (by omega)).2.2 k₂ v₂ kvs₂ rest (by omega)]
      rfl

/-- `json.loads` inverts `json.dumps`. -/
theorem loads_dumps (x : PyJson) : loads (dumps x) = some x := by
  rw [loads]
  have hp := (parse_dumps_all (2 * (dumps x).length + 2)).1 x []
    (fun d hd => absurd hd (by rw [List.head?_nil]; exact Option.noConfusion))
    (by omega)
  rw [List.append_nil] at hp
  rw [hp]
  rfl

theorem hexDigit_ascii (d : Nat) (h : d < 16) : (hexDigit d).toNat < 128 := by
  interval_cases d <;> decide

theorem hex4_ascii (n : Nat) : ∀ d ∈ hex4 n, d.toNat < 128 := by
  intro d hd
  rw [hex4] at hd
  simp only [List.mem_cons, List.not_mem_nil, or_false] at hd
  rcases hd with h | h | h | h <;>
    (subst h; exact hexDigit_ascii _ (Nat.mod_lt _ (by omega)))

theorem esc_ascii (c : Char) : ∀ d ∈ esc c, d.toNat < 128 := by
  intro d hd
  rw [esc] at hd
  split at hd
  · simp only [List.mem_cons, List.not_mem_nil, or_false] at hd
    rcases hd with h | h <;> (subst h; decide)
  · split at hd
    · simp only [List.mem_cons, List.not_mem_nil, or_false] at hd
      rcases hd with h | h <;> (subst h; decide)
    · split at hd
      · simp only [List.mem_cons, List.not_mem_nil, or_false] at hd
        rcases hd with h | h <;> (subst h; decide)
      · split at hd
        · simp only [List.mem_cons, List.not_mem_nil, or_false] at hd
          rcases hd with h | h <;> (subst h; decide)
        · split at hd
          · simp only [List.mem_cons, List.not_mem_nil, or_false] at hd
            rcases hd with h | h <;> (subst h; decide)
          · split at hd
            · simp only [List.mem_cons, List.not_mem_nil, or_false] at hd
              rcases hd with h | h <;> (subst h; decide)
            · split at hd
              · simp only [List.mem_cons, List.not_mem_nil, or_false] at hd
                rcases hd with h | h <;> (subst h; decide)
              · split at hd
                · rename_i hpr
                  rw [List.mem_singleton] at hd
                  subst hd
                  simp only [Bool.and_eq_true, decide_eq_true_eq] at hpr
                  omega
                · split at hd
                  · simp only [List.mem_cons] at hd
                    rcases hd with h | h | h
                    · subst h; decide
                    · subst h; decide
                    · exact hex4_ascii _ d h
                  · rw [List.mem_append] at hd
                    rcases hd with hd | hd <;>
                    · simp only [List.mem_cons] at hd
                      rcases hd with h | h | h
                      · subst h; decide
                      · subst h; decide
                      · exact hex4_ascii _ d h

theorem dumpsStr_ascii (s : Str) : ∀ d ∈ dumpsStr s, d.toNat < 128 := by
  intro d hd
  rw [dumpsStr] at hd
  rcases List.mem_cons.mp hd with h | h
  · subst h; decide
  · rcases List.mem_append.mp h with h | h
    · obtain ⟨l, hl, hdl⟩ := List.mem_flatten.mp h
      obtain ⟨c, _, hc⟩ := List.mem_map.mp hl
      rw [← hc] at hdl
      exact esc_ascii c d hdl
    · rw [List.mem_singleton] at h
      subst h; decide

theorem pyIntStr_ascii (n : Int) : ∀ d ∈ pyIntStr n, d.toNat < 128 := by
  intro d hd
  have hdig : ∀ c ∈ pyStrNat n.natAbs, c.toNat < 128 := by
    intro c hc
    have h₁ := natDecChars_digits (n.natAbs + 1) n.natAbs (by omega) c hc
    have h₂ : 48 ≤ c.toNat ∧ c.toNat ≤ 57 := by
      simpa [Char.isDigit] using h₁
    omega
  rw [pyIntStr] at hd
  by_cases hneg : n < 0
  · rw [if_pos hneg] at hd
    rcases List.mem_cons.mp hd with h | h
    · subst h; decide
    · exact hdig d h
  · rw [if_neg hneg] at hd
    exact hdig d hd

theorem mem_ascii_list (l : List Char)
    (hall : l.all (fun c => decide (c.toNat < 128)) = true)
    (d : Char) (hd : d ∈ l) : d.toNat < 128 := by
  have := List.all_eq_true.mp hall d hd
  simpa using this

/-- Everything `json.dumps` emits is ASCII (`ensure_ascii=True`). -/
theorem dumps_ascii_all : ∀ n : Nat,
    (∀ x, sizeV x ≤ n → ∀ d ∈ dumps x, d.toNat < 128)
    ∧ (∀ xs, sizeA xs ≤ n → ∀ d ∈ dumpsItems xs, d.toNat < 128)
    ∧ (∀ kvs, sizeO kvs ≤ n → ∀ d ∈ dumpsEntries kvs, d.toNat < 128) := by
  intro n
  induction n using Nat.strong_induction_on with
  | _ n ih =>
  refine ⟨?_, ?_, ?_⟩
  · intro x hs d hd
    cases x with
    | null =>
      exact mem_ascii_list (litS "null") (by decide) d hd
    | bool b =>
      cases b with
      | true => exact mem_ascii_list (litS "true") (by decide) d hd
      | false => exact mem_ascii_list (litS "false") (by decide) d hd
    | int m => exact pyIntStr_ascii m d hd
    | str s => exact dumpsStr_ascii s d hd
    | arr xs =>
      rw [dumps] at hd
      rw [sizeV] at hs
      rcases List.mem_cons.mp hd with h | h
      · subst h; decide
      · rcases List.mem_append.mp h with h | h
        · exact (ih (sizeA xs) (by omega)).2.1 xs (le_refl _) d h
        · rw [List.mem_singleton] at h
          subst h; decide
    | obj kvs =>
      rw [dumps] at hd
      rw [sizeV] at hs
      rcases List.mem_cons.mp hd with h | h
      · subst h; decide
      · rcases List.mem_append.mp h with h | h
        · exact (ih (sizeO kvs) (by omega)).2.2 kvs (le_refl _) d h
        · rw [List.mem_singleton] at h
          subst h; decide
  · intro xs hs d hd
    cases xs with
    | nil => exact absurd hd (List.not_mem_nil _)
    | cons y ys =>
      rw [sizeA] at hs
      cases ys with
      | nil =>
        rw [show dumpsItems (.cons y .nil) = dumps y from rfl] at hd
        exact (ih (sizeV y) (by omega)).1 y (le_refl _) d hd
      | cons z zs =>
        rw [dumpsItems] at hd
        rcases List.mem_append.mp hd with h | h
        · rcases List.mem_append.mp h with h | h
          · exact (ih (sizeV y) (by omega)).1 y (le_refl _) d h
          · exact mem_ascii_list (litS ", ") (by decide) d h
        · exact (ih (sizeA (.cons z zs)) (by omega)).2.1
            (.cons z zs) (le_refl _) d h
  · intro kvs hs d hd
    cases kvs with
    | nil => exact absurd hd (List.not_mem_nil _)
    | cons k v kvs₂ =>
      rw [sizeO] at hs
      cases kvs₂ with
      | nil =>
        rw [dumpsEntries] at hd
        rcases List.mem_append.mp hd with h | h
        · exact dumpsStr_ascii k d h
        · rcases List.mem_cons.mp h with h | h
          · subst h; decide
          · rcases List.mem_cons.mp h with h | h
            · subst h; decide
            · exact (ih (sizeV v) (by omega)).1 v (le_refl _) d h
      | cons k₂ v₂ kvs₃ =>
        rw [dumpsEntries] at hd
        rcases List.mem_append.mp hd with h | h
        · rcases List.mem_append.mp h with h | h
          · rcases List.mem_append.mp h with h | h
            · exact dumpsStr_ascii k d h
            · rcases List.mem_cons.mp h with h | h
              · subst h; decide
              · rcases List.mem_cons.mp h with h | h
                · subst h; decide
                · exact (ih (sizeV v) (by omega)).1 v (le_refl _) d h
          · exact mem_ascii_list (litS ", ") (by decide) d h
        · exact (ih (sizeO (.cons k₂ v₂ kvs₃)) (by omega)).2.2
            (.cons k₂ v₂ kvs₃) (le_refl _) d h

theorem dumps_ascii (x : PyJson) : ∀ d ∈ dumps x, d.toNat < 128 :=
  (dumps_ascii_all (sizeV x)).1 x (le_refl _)

theorem utf8Encode_ascii (s : Str) (h : ∀ c ∈ s, c.toNat < 128) :
    utf8Encode s = s.map Char.toNat := by
  induction s with
  | nil => rfl
  | cons c r ih =>
    rw [utf8Encode, List.map_cons, List.flatten_cons]
    rw [show utf8EncodeChar c = [c.toNat] from by
      rw [utf8EncodeChar]
      rw [if_pos (h c (List.mem_cons_self _ _))]]
    rw [show (r.map utf8EncodeChar).flatten = utf8Encode r from rfl]
    rw [ih (fun d hd => h d (List.mem_cons_of_mem _ hd))]
    rfl

theorem utf8DecodeF_ascii :
    ∀ (fuel : Nat) (bs : Bytes), bs.length < fuel → (∀ b ∈ bs, b < 128) →
      utf8DecodeF fuel bs = some (bs.map Char.ofNat) := by
  intro fuel
  induction fuel with
  | zero => intro bs h _; omega
  | succ f ih =>
    intro bs hlen hall
    cases bs with
    | nil => rfl
    | cons b r =>
      rw [utf8DecodeF.eq_def]
      simp only [if_pos (hall b (List.mem_cons_self _ _)),
        ih r (by rw [List.length_cons] at hlen; omega)
          (fun d hd => hall d (List.mem_cons_of_mem _ hd))]
      rfl

/-- UTF-8 round-trip on ASCII payloads (all the encoder ever produces). -/
theorem utf8_roundtrip_ascii (s : Str) (h : ∀ c ∈ s, c.toNat < 128) :
    utf8Decode (utf8Encode s) = some s := by
  rw [utf8Decode, utf8Encode_ascii s h]
  rw [utf8DecodeF_ascii ((s.map Char.toNat).length + 1) _ (by omega)
    (by
      intro b hb
      obtain ⟨c, hc, hbc⟩ := List.mem_map.mp hb
      rw [← hbc]
      exact h c hc)]
  congr 1
  rw [List.map_map]
  have : (Char.ofNat ∘ Char.toNat) = fun c : Char => Char.ofNat c.toNat := rfl
  rw [this]
  calc s.map (fun c : Char => Char.ofNat c.toNat)
      = s.map id := List.map_congr_left (fun c _ => Char.ofNat_toNat c)
    _ = s := List.map_id s

/-- `decode_message` recovers the `(msg_type, data)` pair from the JSON bytes
`encode_message` frames. -/
theorem decode_message_encode (mt data : PyJson) :
    decode_message (utf8Encode (dumps (PyJson.obj
      (.cons (litS "type") mt (.cons (litS "data") data .nil)))))
      = some (mt, data) := by
  rw [decode_message]
  simp only [utf8_roundtrip_ascii _ (dumps_ascii _), loads_dumps,
    show entLookupLast (.cons (litS "type") mt (.cons (litS "data") data .nil))
      (litS "type") = some mt from rfl,
    show entLookupLast (.cons (litS "type") mt (.cons (litS "data") data .nil))
      (litS "data") = some data from rfl]

/-- **C9** (framing round-trip): for every message type and JSON-serializable
data, `encode_message` produces a 4-byte big-endian unsigned length prefixed
to exactly the UTF-8 JSON bytes of `{'type': msg_type, 'data': data}`, the
prefixed length equals the byte length of those JSON bytes, and
`decode_message` applied to those JSON bytes returns the original
`(msg_type, data)` pair. (The well-formedness hypotheses restrict to values a
Python dict can denote; the length hypothesis is `struct.pack`'s 32-bit
bound, without which `encode_message` raises.) -/
theorem C9_framing_round_trip (mt data : PyJson)
    (hwf₁ : pyWf mt = true) (hwf₂ : pyWf data = true)
    (hlen : (utf8Encode (dumps (PyJson.obj
      (.cons (litS "type") mt (.cons (litS "data") data .nil))))).length
      < 4294967296) :
    ∃ json_bytes hdr4,
      json_bytes = utf8Encode (dumps (PyJson.obj
        (.cons (litS "type") mt (.cons (litS "data") data .nil))))
      ∧ encode_message mt data = some (hdr4 ++ json_bytes)
      ∧ hdr4.length = 4
      ∧ unpack_u32 hdr4 = some json_bytes.length
      ∧ decode_message json_bytes = some (mt, data) := by
  refine ⟨_, [(utf8Encode (dumps (PyJson.obj (.cons (litS "type") mt
      (.cons (litS "data") data .nil))))).length / 16777216 % 256,
    (utf8Encode (dumps (PyJson.obj (.cons (litS "type") mt
      (.cons (litS "data") data .nil))))).length / 65536 % 256,
    (utf8Encode (dumps (PyJson.obj (.cons (litS "type") mt
      (.cons (litS "data") data .nil))))).length / 256 % 256,
    (utf8Encode (dumps (PyJson.obj (.cons (litS "type") mt
      (.cons (litS "data") data .nil))))).length % 256],
    rfl, ?_, rfl, ?_, decode_message_encode mt data⟩
  · rw [encode_message]
    rw [pack_u32, if_pos hlen]
  · rw [unpack_u32]
    congr 1
    omega

theorem C9_framing_round_trip_witness :
    (pyWf (PyJson.obj (.cons (litS "message") (PyJson.str (litS "hi")) .nil))
      = true)
    ∧ ((utf8Encode (dumps (PyJson.obj (.cons (litS "type")
        (PyJson.str (litS "CHAT")) (.cons (litS "data")
        (PyJson.obj (.cons (litS "message") (PyJson.str (litS "hi")) .nil))
        .nil))))).length < 4294967296)
    ∧ (∃ json_bytes hdr4,
        json_bytes = utf8Encode (dumps (PyJson.obj (.cons (litS "type")
          (PyJson.str (litS "CHAT")) (.cons (litS "data")
          (PyJson.obj (.cons (litS "message") (PyJson.str (litS "hi")) .nil))
          .nil))))
        ∧ encode_message (PyJson.str (litS "CHAT"))
            (PyJson.obj (.cons (litS "message") (PyJson.str (litS "hi")) .nil))
          = some (hdr4 ++ json_bytes)
        ∧ hdr4.length = 4
        ∧ unpack_u32 hdr4 = some json_bytes.length
        ∧ decode_message json_bytes
          = some (PyJson.str (litS "CHAT"),
              PyJson.obj (.cons (litS "message") (PyJson.str (litS "hi")) .nil))) :=
  ⟨by decide, by decide,
   C9_framing_round_trip (PyJson.str (litS "CHAT"))
     (PyJson.obj (.cons (litS "message") (PyJson.str (litS "hi")) .nil))
     (by decide) (by decide) (by decide)⟩

/-- The receive loop of `protocol.receive_message` is the same loop as the
file-transfer receive loop (the chunk bound is the same 4096). -/
theorem protoRecvLoop_eq_upload :
    ∀ (fuel L r : Nat) (d s : Bytes) (sch : List Nat),
      protoRecvLoop fuel L r d s sch = uploadRecvLoop fuel L r d s sch := by
  intro fuel
  induction fuel with
  | zero => intro _ _ _ _ _; rfl
  | succ f ih =>
    intro L r d s sch
    rw [protoRecvLoop, uploadRecvLoop]
    simp only [ih]
    rfl

theorem unpack_u32_eq_none : ∀ (bs : Bytes), bs.length ≠ 4 → unpack_u32 bs = none
  | [], _ => rfl
  | [_], _ => rfl
  | [_, _], _ => rfl
  | [_, _, _], _ => rfl
  | [_, _, _, _], h => absurd rfl h
  | _ :: _ :: _ :: _ :: _ :: _, _ => rfl

/-- `receive_message` on an already-closed connection: `(None, None)`. -/
theorem receive_message_closed (sched : List Nat) :
    receive_message [] sched = none := by
  rw [receive_message]
  rw [List.take_nil]
  rfl

/-- A connection that closes (or a `recv` that returns short) before the four
header bytes arrive never yields a message: `struct.unpack` raises on fewer
than four bytes, caught as `(None, None)`. -/
theorem receive_message_short_header (stream : Bytes) (sched : List Nat)
    (hshort : stream.length < 4) :
    receive_message stream sched = none := by
  rw [receive_message]
  by_cases hemp : (stream.take (min 4 (sched.headD 4))).isEmpty
  · rw [if_pos hemp]
  · rw [if_neg hemp]
    rw [unpack_u32_eq_none _ (by
      rw [List.length_take]
      omega)]

/-- The full characterization of `receive_message` once the four header bytes
arrive in one `recv`: with `L` the big-endian header value, the message is
decoded from exactly the next `L` bytes when the peer supplies them —
independent of the `recv` schedule — and a peer that closes earlier yields
`(None, None)`, the partial body never being decoded. -/
theorem receive_message_spec (b₀ b₁ b₂ b₃ : Nat) (t : Bytes)
    (k₁ : Nat) (sch : List Nat) (hk : 4 ≤ k₁) (hpos : ∀ k ∈ sch, 0 < k) :
    receive_message (b₀ :: b₁ :: b₂ :: b₃ :: t) (k₁ :: sch)
      = (if ((b₀ * 256 + b₁) * 256 + b₂) * 256 + b₃ ≤ t.length
         then decode_message (t.take (((b₀ * 256 + b₁) * 256 + b₂) * 256 + b₃))
         else none) := by
  have hmin : min 4 ((k₁ :: sch).headD 4) = 4 := by
    rw [List.headD_cons]
    omega
  simp only [receive_message, hmin,
    show (b₀ :: b₁ :: b₂ :: b₃ :: t).take 4 = [b₀, b₁, b₂, b₃] from by
      rw [List.take_succ_cons, List.take_succ_cons, List.take_succ_cons,
        List.take_succ_cons, List.take_zero],
    show (b₀ :: b₁ :: b₂ :: b₃ :: t).drop 4 = t from rfl,
    show (k₁ :: sch).tail = sch from rfl,
    show unpack_u32 [b₀, b₁, b₂, b₃]
      = some (((b₀ * 256 + b₁) * 256 + b₂) * 256 + b₃) from rfl,
    List.isEmpty_cons, Bool.false_eq_true, if_false]
  rw [protoRecvLoop_eq_upload]
  rw [uploadRecvLoop_spec (t.length + 1) _ 0 [] t sch (by omega) hpos]
  simp only [Nat.sub_zero, List.nil_append, Nat.zero_add]
  by_cases hle : ((b₀ * 256 + b₁) * 256 + b₂) * 256 + b₃ ≤ t.length
  · rw [if_pos hle, if_pos (by omega : min (((b₀ * 256 + b₁) * 256 + b₂) * 256 + b₃)
      t.length = ((b₀ * 256 + b₁) * 256 + b₂) * 256 + b₃)]
  · rw [if_neg hle, if_neg (by omega : ¬(min (((b₀ * 256 + b₁) * 256 + b₂) * 256 + b₃)
      t.length = ((b₀ * 256 + b₁) * 256 + b₂) * 256 + b₃))]

/-- **C8** (control-channel receive never yields a partial frame): for every
connection, `receive_message` returns `(None, None)` on orderly closure
(empty stream) and on abrupt closure — during the header or mid-frame — and
otherwise returns a message only after accumulating exactly `msg_length`
bytes by looping over short reads: when the header announces `L` bytes and
the peer supplies them, the result is `decode_message` of exactly those `L`
bytes, for every positive `recv` schedule (so short reads only ever delay,
never truncate, the frame). -/
theorem C8_receive_no_partial_frame (b₀ b₁ b₂ b₃ : Nat) (t : Bytes)
    (k₁ : Nat) (sch : List Nat) (hk : 4 ≤ k₁) (hpos : ∀ k ∈ sch, 0 < k) :
    (∀ sched, receive_message [] sched = none)
    ∧ (∀ (stream : Bytes) (sched : List Nat), stream.length < 4 →
        receive_message stream sched = none)
    ∧ (((b₀ * 256 + b₁) * 256 + b₂) * 256 + b₃ ≤ t.length →
        receive_message (b₀ :: b₁ :: b₂ :: b₃ :: t) (k₁ :: sch)
          = decode_message (t.take (((b₀ * 256 + b₁) * 256 + b₂) * 256 + b₃)))
    ∧ (t.length < ((b₀ * 256 + b₁) * 256 + b₂) * 256 + b₃ →
        receive_message (b₀ :: b₁ :: b₂ :: b₃ :: t) (k₁ :: sch) = none) := by
  refine ⟨receive_message_closed, receive_message_short_header, ?_, ?_⟩
  · intro hle
    rw [receive_message_spec b₀ b₁ b₂ b₃ t k₁ sch hk hpos, if_pos hle]
  · intro hgt
    rw [receive_message_spec b₀ b₁ b₂ b₃ t k₁ sch hk hpos, if_neg (by omega)]

theorem C8_receive_no_partial_frame_witness :
    ((4 : Nat) ≤ 6)
    ∧ ((∀ sched, receive_message [] sched = none)
      ∧ (∀ (stream : Bytes) (sched : List Nat), stream.length < 4 →
          receive_message stream sched = none)
      ∧ (((0 * 256 + 0) * 256 + 0) * 256 + 3 ≤ ([10, 20, 30, 40] : Bytes).length →
          receive_message (0 :: 0 :: 0 :: 3 :: [10, 20, 30, 40]) (6 :: [2, 1, 5])
            = decode_message (([10, 20, 30, 40] : Bytes).take
                (((0 * 256 + 0) * 256 + 0) * 256 + 3)))
      ∧ (([10, 20, 30, 40] : Bytes).length < ((0 * 256 + 0) * 256 + 0) * 256 + 3 →
          receive_message (0 :: 0 :: 0 :: 3 :: [10, 20, 30, 40]) (6 :: [2, 1, 5])
            = none)) :=
  ⟨by decide,
   C8_receive_no_partial_frame 0 0 0 3 [10, 20, 30, 40] 6 [2, 1, 5]
     (by decide) (by decide)⟩

